import Mathlib

/-!
# Skia: `SkTArray`, the half-float reference encoder `h`, and the raster pipeline contract

Shallow embedding of

* `include/private/SkTArray.h` (the growable array `SkTArray<T, MEM_MOVE>`),
* the reference half-float encoder `h` of `tests/SkRasterPipelineTest.cpp`,
* the raster pipeline engine exercised by `tests/SkRasterPipelineTest.cpp`.

Conventions.  A C++ `int` is a Lean `Int`; an unsigned machine word is a `Nat` reduced
`% 2 ^ w` wherever the C++ value is reduced.  A pointer to raw storage is an address
(`0` is `nullptr`) together with the slots of the block it points at.  A call that aborts
the process (`SkASSERT_RELEASE`) returns `none`.
-/

namespace Skia

/-! ## Part 1: `SkTArray` -/

/-- Source: `INT_MAX` of `<climits>` for a 32-bit `int`. -/
def INT_MAX : Nat := 2147483647

/-- Source: `SkSpan<std::byte>`: the address of a block and its length in bytes. -/
structure SkSpan where
  data : Nat
  size : Nat
  deriving DecidableEq, Repr

/-- What an instantiation `SkTArray<T>` takes from its environment: `sizeof(T)`, `SIZE_MAX`
of the target, and `SkContainerAllocator::allocate` (declared in
`include/private/SkContainers.h`), which is handed `sizeof(T)`, `kMaxCapacity`, the requested
capacity and the growth factor and returns the block it obtained. -/
structure Target where
  sizeofT : Nat
  SIZE_MAX : Nat
  allocate : (sizeOfT : Nat) → (maxCapacity : Int) → (capacity : Int) → (growthFactor : ℚ) → SkSpan

/-- Raw storage for objects of type `T`: slot `i` is `some v` when a `T` with value `v` is
alive there and `none` when it is uninitialised or destroyed. -/
abbrev Slots (T : Type) := List (Option T)

/-- Source: `fData[i]`: the object alive in slot `i`, if any. -/
def Slots.read {T : Type} (s : Slots T) (i : Int) : Option T :=
  if 0 ≤ i then (s.get? i.toNat).join else none

/-- Placement of `v` into slot `i` (`new (fData + i) T(...)` for `some`, `fData[i].~T()` for
`none`).  A write outside the block is undefined behaviour in C++ and is dropped here. -/
def Slots.write {T : Type} (s : Slots T) (i : Int) (v : Option T) : Slots T :=
  if 0 ≤ i then s.set i.toNat v else s

/-- The class `SkTArray<T, MEM_MOVE>`: its four data members, and `slots`, the contents of
the block `fData` points at.  `fCapacity` is the 31-bit field, `fOwnMemory` the 1-bit field. -/
structure SkTArray (T : Type) where
  fData : Nat
  slots : Slots T
  fSize : Int
  fCapacity : Nat
  fOwnMemory : Bool
  deriving DecidableEq, Repr

/-- Source: `static constexpr double kExactFit = 1.0`. -/
def kExactFit : ℚ := 1

/-- Source: `static constexpr double kGrowing = 1.5`. -/
def kGrowing : ℚ := 3 / 2

/-- Source: `static constexpr int kMinHeapAllocCount = 8`. -/
def kMinHeapAllocCount : Int := 8

/-- Source: `kMaxCapacity = SkToInt(std::min(SIZE_MAX / sizeof(T), (size_t)INT_MAX))`. -/
def kMaxCapacity (c : Target) : Int := ((min (c.SIZE_MAX / c.sizeofT) INT_MAX : Nat) : Int)

/-- Source: `SkToU32` of a `size_t`: the value as a `uint32_t`. -/
def SkToU32 (x : Nat) : Nat := x % 2 ^ 32

/-- Source: `SkToU32` of an `int`: the value as a `uint32_t`. -/
def SkToU32_int (x : Int) : Nat := (x % 2 ^ 32).toNat

/-- Source: `SkToSizeT` of a non-negative `int`. -/
def SkToSizeT (x : Int) : Nat := x.toNat

/-- A store to the bit-field `uint32_t fCapacity : 31` keeps the low 31 bits. -/
def storeCapacity (v : Nat) : Nat := v % 2 ^ 31

namespace SkTArray

variable {T : Type}

/-- Source: `int capacity() const`. -/
def capacity (a : SkTArray T) : Int := (a.fCapacity : Int)

/-- Source: `int size() const`. -/
def size (a : SkTArray T) : Int := a.fSize

/-- Source: `bool empty() const`. -/
def empty (a : SkTArray T) : Bool := a.fSize == 0

/-- Source: `operator[]`. -/
def get (a : SkTArray T) (i : Int) : Option T := a.slots.read i

/-- Source: `static SkSpan<std::byte> Allocate(int capacity, double growthFactor = 1.0)`. -/
def Allocate (c : Target) (capacity : Int) (growthFactor : ℚ) : SkSpan :=
  c.allocate c.sizeofT (kMaxCapacity c) capacity growthFactor

/-- The block a fresh allocation points at: room for `size / sizeof(T)` objects, none alive. -/
def rawBlock (c : Target) (allocation : SkSpan) : Slots T :=
  List.replicate (allocation.size / c.sizeofT) none

/-- The loop of `move(void* dst)`: `new (dst + i) T(std::move(fData[i]))` for `i < n`
(for `MEM_MOVE` the single `memcpy` of `bytes(fSize)` copies the same slots). -/
def moveLoop (src dst : Slots T) : Nat → Slots T
  | 0 => dst
  | i + 1 => (moveLoop src dst i).write i (src.read i)

/-- Source: `void move(void* dst)`: the contents of `dst` afterwards. -/
def move (a : SkTArray T) (dst : Slots T) : Slots T :=
  moveLoop a.slots dst a.fSize.toNat

/-- Source: `void setItemArray(SkSpan<std::byte> allocation)`; `block` is what the span points at. -/
def setItemArray (c : Target) (a : SkTArray T) (allocation : SkSpan) (block : Slots T) :
    SkTArray T :=
  { a with
    fData := allocation.data
    slots := block
    fCapacity :=
      storeCapacity (SkToU32 (min (allocation.size / c.sizeofT) (SkToSizeT (kMaxCapacity c))))
    fOwnMemory := true }

/-- Source: `void checkRealloc(int delta, double growthFactor)`.  `none` is the abort of
`SkASSERT_RELEASE(delta <= kMaxCapacity - fSize)`. -/
def checkRealloc (c : Target) (a : SkTArray T) (delta : Int) (growthFactor : ℚ) :
    Option (SkTArray T) :=
  if a.capacity - a.fSize ≥ delta then
    some a
  else if ¬ (delta ≤ kMaxCapacity c - a.fSize) then
    none
  else
    let newCount : Int := a.fSize + delta
    let allocation := Allocate c newCount growthFactor
    let block := a.move (rawBlock c allocation)
    some (setItemArray c a allocation block)

/-- Source: `void* push_back_raw(int n)`: the array afterwards and the index of the first new slot
(the returned pointer is `fData + fSize` for the old `fSize`). -/
def push_back_raw (c : Target) (a : SkTArray T) (n : Int) : Option (SkTArray T × Int) :=
  match checkRealloc c a n kGrowing with
  | none => none
  | some a1 => some ({ a1 with fSize := a1.fSize + n }, a1.fSize)

/-- Source: `T& push_back(const T& t)`. -/
def push_back (c : Target) (a : SkTArray T) (t : T) : Option (SkTArray T) :=
  match push_back_raw c a 1 with
  | none => none
  | some (a1, newT) => some { a1 with slots := a1.slots.write newT (some t) }

/-- The loop of `pop_back_n`: `fData[fSize + i].~T()` for `i < n`. -/
def destroyLoop (s : Slots T) (start : Int) : Nat → Slots T
  | 0 => s
  | i + 1 => (destroyLoop s start i).write (start + i) none

/-- Source: `void pop_back_n(int n)`. -/
def pop_back_n (a : SkTArray T) (n : Int) : SkTArray T :=
  let fSize1 : Int := a.fSize - n
  { a with fSize := fSize1, slots := destroyLoop a.slots fSize1 n.toNat }

/-- Source: `void reset()`. -/
def reset (a : SkTArray T) : SkTArray T := a.pop_back_n a.fSize

/-- Source: `void clear()`. -/
def clear (a : SkTArray T) : SkTArray T := a.pop_back_n a.fSize

/-- Source: `void init(int count)`, run on an object under construction: it assigns every data
member.  The default growth factor of `Allocate` is `1.0`. -/
def init (c : Target) (count : Int) : SkTArray T :=
  if count = 0 then
    { fData := 0, slots := [], fSize := count, fCapacity := storeCapacity 0, fOwnMemory := true }
  else
    let fCapacity := storeCapacity (SkToU32_int (max count kMinHeapAllocCount))
    let allocation := Allocate c (fCapacity : Int) 1
    { setItemArray c
        { fData := 0, slots := [], fSize := count, fCapacity := fCapacity, fOwnMemory := true }
        allocation (rawBlock c allocation) with
      fOwnMemory := true }

/-- The loop of `copy(const T* src)`: `new (fData + i) T(src[i])` for `i < n` (for a trivially
copyable `T` the single `memcpy` of `size_bytes()` copies the same slots). -/
def copyLoop (src dst : Slots T) : Nat → Slots T
  | 0 => dst
  | i + 1 => (copyLoop src dst i).write i (src.read i)

/-- Source: `void copy(const T* src)`; `src` is the block the pointer points at.  A null `src`
with a non-empty array, which the loop would dereference, is not represented. -/
def copy (a : SkTArray T) (src : Slots T) : SkTArray T :=
  { a with slots := copyLoop src a.slots a.size.toNat }

/-- Source: `SkTArray(const T* array, int count)`. -/
def fromArray (c : Target) (array : Slots T) (count : Int) : SkTArray T :=
  (init c count).copy array

/-- Source: `SkTArray(const SkTArray& that)`, which delegates to
`SkTArray(that.fData, that.fSize)`. -/
def copyConstruct (c : Target) (that : SkTArray T) : SkTArray T :=
  fromArray c that.slots that.fSize

/-- Source: `void move(void* dst)`: the block of the array itself afterwards.  Its first `fSize`
slots are left behind as uninitialised raw storage. -/
def moved (a : SkTArray T) : Slots T := destroyLoop a.slots 0 a.fSize.toNat

/-- Source: `SkTArray(SkTArray&& that)`: the new array, and `that` afterwards.  The null pointer
points at no slot. -/
def moveConstruct (c : Target) (that : SkTArray T) : SkTArray T × SkTArray T :=
  if that.fOwnMemory then
    ({ fData := that.fData, slots := that.slots, fSize := that.fSize,
       fCapacity := storeCapacity that.fCapacity, fOwnMemory := true },
     { fData := 0, slots := [], fSize := 0, fCapacity := storeCapacity 0, fOwnMemory := true })
  else
    let a : SkTArray T := init c that.fSize
    ({ a with slots := that.move a.slots }, { that with slots := that.moved, fSize := 0 })

/-- The right operand `that` of an assignment as the left operand sees it: the same object
(`this == &that`) or another array. -/
inductive Operand (T : Type)
  | self
  | other (that : SkTArray T)

/-- Source: `SkTArray& operator=(const SkTArray& that)`: the array afterwards; `that` is a
`const` reference and keeps its value.  `none` is the abort inside `checkRealloc`. -/
def copyAssign (c : Target) (a : SkTArray T) : Operand T → Option (SkTArray T)
  | .self => some a
  | .other that =>
    match checkRealloc c a.clear that.size kExactFit with
    | none => none
    | some a1 => some (copy { a1 with fSize := that.fSize } that.slots)

/-- Source: `SkTArray& operator=(SkTArray&& that)`: the array afterwards, and `that`
afterwards.  `none` is the abort inside `checkRealloc`. -/
def moveAssign (c : Target) (a : SkTArray T) : Operand T → Option (SkTArray T × Operand T)
  | .self => some (a, .self)
  | .other that =>
    match checkRealloc c a.clear that.size kExactFit with
    | none => none
    | some a1 =>
      some ({ a1 with fSize := that.fSize, slots := that.move a1.slots },
        .other { that with slots := that.moved, fSize := 0 })

/-- The loop of `operator==`: `n` more iterations from `index`; `false` as soon as
`fData[index] != right.fData[index]`. -/
def eqLoop [DecidableEq T] (l r : Slots T) : Nat → Int → Bool
  | 0, _ => true
  | n + 1, index => if l.read index ≠ r.read index then false else eqLoop l r n (index + 1)

/-- Source: `bool operator==(const SkTArray<T, MEM_MOVE>& right) const`. -/
def operatorEq [DecidableEq T] (a right : SkTArray T) : Bool :=
  let leftCount := a.size
  if leftCount ≠ right.size then false
  else eqLoop a.slots right.slots leftCount.toNat 0

/-- Source: `bool operator!=(const SkTArray<T, MEM_MOVE>& right) const`. -/
def operatorNe [DecidableEq T] (a right : SkTArray T) : Bool := !(operatorEq a right)

/-- Source: `SkTArray()`. -/
def defaultConstruct (c : Target) : SkTArray T := init c 0

/-- Source: `void reserve_back(int n)`.  `none` is the abort inside `checkRealloc`. -/
def reserve_back (c : Target) (a : SkTArray T) (n : Int) : Option (SkTArray T) :=
  if n > 0 then checkRealloc c a n kExactFit else some a

/-- Source: `explicit SkTArray(int reserveCount)`, which delegates to `SkTArray()` and then calls
`reserve_back(reserveCount)`. -/
def reserveConstruct (c : Target) (reserveCount : Int) : Option (SkTArray T) :=
  reserve_back c (defaultConstruct c) reserveCount

/-- Source: `void reserve(int n)`. -/
def reserve (c : Target) (a : SkTArray T) (n : Int) : Option (SkTArray T) :=
  if n ≥ a.size then reserve_back c a (n - a.size) else some a

/-- Source: `void move(int dst, int src)`: `new (&fData[dst]) T(std::move(fData[src]))`, then
`fData[src].~T()` (for `MEM_MOVE` the `memcpy` of one object, after which slot `src` is raw
storage). -/
def moveSlot (s : Slots T) (dst src : Int) : Slots T :=
  (s.write dst (s.read src)).write src none

/-- Source: `void removeShuffle(int n)`. -/
def removeShuffle (a : SkTArray T) (n : Int) : SkTArray T :=
  let newCount : Int := a.fSize - 1
  let destroyed := a.slots.write n none
  { a with
    fSize := newCount
    slots := if n ≠ newCount then moveSlot destroyed n newCount else destroyed }

/-- The loops that construct `n` objects from slot `start` on: `new (&newTs[i]) T(...)` for
`i < n`, where `v i` is the value object `i` is constructed with. -/
def placeLoop (s : Slots T) (start : Int) (v : Nat → Option T) : Nat → Slots T
  | 0 => s
  | i + 1 => (placeLoop s start v i).write (start + i) (v i)

/-- Source: `T& push_back()`: the new element is default-initialized; `dflt` is the value that
default-initialization of a `T` gives. -/
def push_back_default (c : Target) (a : SkTArray T) (dflt : T) : Option (SkTArray T) :=
  match push_back_raw c a 1 with
  | none => none
  | some (a1, newT) => some { a1 with slots := a1.slots.write newT (some dflt) }

/-- Source: `T* push_back_n(int n)`: `n` more default-initialized objects. -/
def push_back_n (c : Target) (a : SkTArray T) (n : Int) (dflt : T) : Option (SkTArray T) :=
  match push_back_raw c a n with
  | none => none
  | some (a1, newTs) =>
    some { a1 with slots := placeLoop a1.slots newTs (fun _ => some dflt) n.toNat }

/-- Source: `T* push_back_n(int n, const T& t)`: `n` more copies of `t`. -/
def push_back_n_value (c : Target) (a : SkTArray T) (n : Int) (t : T) : Option (SkTArray T) :=
  match push_back_raw c a n with
  | none => none
  | some (a1, newTs) =>
    some { a1 with slots := placeLoop a1.slots newTs (fun _ => some t) n.toNat }

/-- Source: `T* push_back_n(int n, const T t[])`: copies of `t[0..n-1]`; `t` is the block the
pointer points at.  `move_back_n(int n, T* t)` fills the array in the same way. -/
def push_back_n_array (c : Target) (a : SkTArray T) (n : Int) (t : Slots T) :
    Option (SkTArray T) :=
  match checkRealloc c a n kGrowing with
  | none => none
  | some a1 =>
    some { a1 with
      slots := placeLoop a1.slots a1.fSize (fun i => t.read i) n.toNat
      fSize := a1.fSize + n }

/-- Source: `void pop_back()`. -/
def pop_back (a : SkTArray T) : SkTArray T :=
  let fSize1 : Int := a.fSize - 1
  { a with fSize := fSize1, slots := a.slots.write fSize1 none }

/-- Source: `void resize_back(int newCount)`. -/
def resize_back (c : Target) (a : SkTArray T) (newCount : Int) (dflt : T) :
    Option (SkTArray T) :=
  if newCount > a.size then push_back_n c a (newCount - a.fSize) dflt
  else if newCount < a.size then some (a.pop_back_n (a.fSize - newCount))
  else some a

/-- Source: `void reset(int n)`. -/
def reset_n (c : Target) (a : SkTArray T) (n : Int) (dflt : T) : Option (SkTArray T) :=
  match checkRealloc c a.clear n kExactFit with
  | none => none
  | some a1 =>
    some { a1 with fSize := n, slots := placeLoop a1.slots 0 (fun _ => some dflt) n.toNat }

/-- Source: `void reset(const T* array, int count)`; `array` is the block the pointer points
at, which is not the block of the array itself. -/
def reset_array (c : Target) (a : SkTArray T) (array : Slots T) (count : Int) :
    Option (SkTArray T) :=
  match checkRealloc c a.clear count kExactFit with
  | none => none
  | some a1 => some (copy { a1 with fSize := count } array)

/-- The array an operand denotes, given the array `self` of the left operand. -/
def Operand.get (o : Operand T) (self : SkTArray T) : SkTArray T :=
  match o with
  | .self => self
  | .other that => that

/-- Source: `void swap(SkTArray& that)`: the array afterwards, and `that` afterwards.  Two arrays
that own their blocks exchange pointer (with the block it points at), size and capacity;
otherwise `SkTArray copy(std::move(that)); that = std::move(*this); *this = std::move(copy);`.
`none` is the abort inside `checkRealloc`. -/
def swap (c : Target) (a : SkTArray T) : Operand T → Option (SkTArray T × Operand T)
  | .self => some (a, .self)
  | .other that =>
    if a.fOwnMemory && that.fOwnMemory then
      some ({ a with fData := that.fData, slots := that.slots, fSize := that.fSize,
                     fCapacity := storeCapacity that.fCapacity },
        .other { that with fData := a.fData, slots := a.slots, fSize := a.fSize,
                           fCapacity := storeCapacity a.fCapacity })
    else
      let moved := moveConstruct c that
      match moveAssign c moved.2 (.other a) with
      | none => none
      | some (that1, o) =>
        match moveAssign c (o.get that1) (.other moved.1) with
        | none => none
        | some (a1, _) => some (a1, .other that1)

/-- Source: `void shrink_to_fit()`. -/
def shrink_to_fit (c : Target) (a : SkTArray T) : SkTArray T :=
  if !a.fOwnMemory || a.fSize == (a.fCapacity : Int) then a
  else if a.fSize == 0 then { a with fData := 0, slots := [], fCapacity := storeCapacity 0 }
  else
    let allocation := Allocate c a.fSize 1
    setItemArray c a allocation (a.move (rawBlock c allocation))

/-- Source: `void initWithPreallocatedStorage(int count, void* preallocStorage,
int preallocCount)`, run on an object under construction; `block` is the storage the pointer
points at. -/
def initWithPreallocatedStorage (c : Target) (count : Int) (preallocStorage : Nat)
    (block : Slots T) (preallocCount : Int) : SkTArray T :=
  if count > preallocCount then
    let fCapacity := storeCapacity (SkToU32_int (max count kMinHeapAllocCount))
    let allocation := Allocate c (fCapacity : Int) 1
    setItemArray c
      { fData := 0, slots := [], fSize := count, fCapacity := fCapacity, fOwnMemory := false }
      allocation (rawBlock c allocation)
  else
    { fData := preallocStorage, slots := block, fSize := count,
      fCapacity := storeCapacity (SkToU32_int preallocCount), fOwnMemory := false }

/-- Source: `SkTArray(SkAlignedSTStorage<N,T>* storage)`, the constructor `SkSTArray()` delegates
to; the storage is `N` raw slots at the address `storage`. -/
def constructWithStorage (c : Target) (N : Nat) (storage : Nat) : SkTArray T :=
  initWithPreallocatedStorage c 0 storage (List.replicate N none) (N : Int)

/-- Source: `SkTArray(const T* array, int count, SkAlignedSTStorage<N,T>* storage)`, the
constructor `SkSTArray(const T* array, int count)` delegates to. -/
def fromArrayWithStorage (c : Target) (N : Nat) (storage : Nat) (array : Slots T)
    (count : Int) : SkTArray T :=
  (initWithPreallocatedStorage c count storage (List.replicate N none) (N : Int)).copy array

/-- A sequence of calls `push_back(t)`, one for each element of `ts` in order. -/
def push_back_all (c : Target) (a : SkTArray T) : List T → Option (SkTArray T)
  | [] => some a
  | t :: ts =>
    match push_back c a t with
    | none => none
    | some a1 => push_back_all c a1 ts

/-- Source: `size_t bytes(int n) const`: `SkToSizeT(n) * sizeof(T)`, a product of two `size_t`
values, which the machine computes modulo `SIZE_MAX + 1`. -/
def bytes (c : Target) (n : Int) : Nat := (SkToSizeT n * c.sizeofT) % (c.SIZE_MAX + 1)

/-- Source: `fSize + delta` on two 32-bit `int`s as two's complement hardware computes it; the
sum is the mathematical one exactly when it lies in `[-2^31, 2^31)`. -/
def addInt (x y : Int) : Int := (x + y + 2 ^ 31) % 2 ^ 32 - 2 ^ 31

/-- Following the spec's words ("replace with two plain fields (capacity: integer,
ownsStorage: boolean)"): `setItemArray` with the capacity kept in a plain integer, so that the
value is stored as it is. -/
def setItemArrayPlain (c : Target) (a : SkTArray T) (allocation : SkSpan) (block : Slots T) :
    SkTArray T :=
  { a with
    fData := allocation.data
    slots := block
    fCapacity := SkToU32 (min (allocation.size / c.sizeofT) (SkToSizeT (kMaxCapacity c)))
    fOwnMemory := true }

/-- Following the spec's words: `checkRealloc` over the plain capacity field. -/
def checkReallocPlain (c : Target) (a : SkTArray T) (delta : Int) (growthFactor : ℚ) :
    Option (SkTArray T) :=
  if a.capacity - a.fSize ≥ delta then
    some a
  else if ¬ (delta ≤ kMaxCapacity c - a.fSize) then
    none
  else
    let newCount : Int := a.fSize + delta
    let allocation := Allocate c newCount growthFactor
    let block := a.move (rawBlock c allocation)
    some (setItemArrayPlain c a allocation block)

/-- Following the spec's words: `init` over the plain capacity field. -/
def initPlain (c : Target) (count : Int) : SkTArray T :=
  if count = 0 then
    { fData := 0, slots := [], fSize := count, fCapacity := 0, fOwnMemory := true }
  else
    let fCapacity := SkToU32_int (max count kMinHeapAllocCount)
    let allocation := Allocate c (fCapacity : Int) 1
    { setItemArrayPlain c
        { fData := 0, slots := [], fSize := count, fCapacity := fCapacity, fOwnMemory := true }
        allocation (rawBlock c allocation) with
      fOwnMemory := true }

/-- Following the spec's words: `initWithPreallocatedStorage` over the plain capacity field. -/
def initWithPreallocatedStoragePlain (c : Target) (count : Int) (preallocStorage : Nat)
    (block : Slots T) (preallocCount : Int) : SkTArray T :=
  if count > preallocCount then
    let fCapacity := SkToU32_int (max count kMinHeapAllocCount)
    let allocation := Allocate c (fCapacity : Int) 1
    setItemArrayPlain c
      { fData := 0, slots := [], fSize := count, fCapacity := fCapacity, fOwnMemory := false }
      allocation (rawBlock c allocation)
  else
    { fData := preallocStorage, slots := block, fSize := count,
      fCapacity := SkToU32_int preallocCount, fOwnMemory := false }

/-- Following the spec's words: the move constructor over the plain capacity field. -/
def moveConstructPlain (c : Target) (that : SkTArray T) : SkTArray T × SkTArray T :=
  if that.fOwnMemory then
    ({ fData := that.fData, slots := that.slots, fSize := that.fSize,
       fCapacity := that.fCapacity, fOwnMemory := true },
     { fData := 0, slots := [], fSize := 0, fCapacity := 0, fOwnMemory := true })
  else
    let a : SkTArray T := initPlain c that.fSize
    ({ a with slots := that.move a.slots }, { that with slots := that.moved, fSize := 0 })

/-- Following the spec's words: move assignment over the plain capacity field. -/
def moveAssignPlain (c : Target) (a : SkTArray T) :
    Operand T → Option (SkTArray T × Operand T)
  | .self => some (a, .self)
  | .other that =>
    match checkReallocPlain c a.clear that.size kExactFit with
    | none => none
    | some a1 =>
      some ({ a1 with fSize := that.fSize, slots := that.move a1.slots },
        .other { that with slots := that.moved, fSize := 0 })

/-- Following the spec's words: `swap` over the plain capacity field. -/
def swapPlain (c : Target) (a : SkTArray T) : Operand T → Option (SkTArray T × Operand T)
  | .self => some (a, .self)
  | .other that =>
    if a.fOwnMemory && that.fOwnMemory then
      some ({ a with fData := that.fData, slots := that.slots, fSize := that.fSize,
                     fCapacity := that.fCapacity },
        .other { that with fData := a.fData, slots := a.slots, fSize := a.fSize,
                           fCapacity := a.fCapacity })
    else
      let moved := moveConstructPlain c that
      match moveAssignPlain c moved.2 (.other a) with
      | none => none
      | some (that1, o) =>
        match moveAssignPlain c (o.get that1) (.other moved.1) with
        | none => none
        | some (a1, _) => some (a1, .other that1)

/-- Following the spec's words: `shrink_to_fit` over the plain capacity field. -/
def shrink_to_fitPlain (c : Target) (a : SkTArray T) : SkTArray T :=
  if !a.fOwnMemory || a.fSize == (a.fCapacity : Int) then a
  else if a.fSize == 0 then { a with fData := 0, slots := [], fCapacity := 0 }
  else
    let allocation := Allocate c a.fSize 1
    setItemArrayPlain c a allocation (a.move (rawBlock c allocation))

/-- What every operation keeps true of an array: `0 <= size() <= capacity() <= kMaxCapacity`,
and the block `fData` points at has room for `capacity()` objects. -/
def Inv (c : Target) (a : SkTArray T) : Prop :=
  0 ≤ a.fSize ∧ a.fSize ≤ a.capacity ∧ a.capacity ≤ kMaxCapacity c ∧
    a.fCapacity ≤ a.slots.length

/-- The array holds exactly the elements `es`, in order: `size()` is their number and slot
`i` holds `es[i]`. -/
def Holds (a : SkTArray T) (es : List T) : Prop :=
  a.fSize = (es.length : Int) ∧ a.slots.take es.length = es.map some

/-- The allocator returns room for at least the requested number of elements. -/
def AllocatorGivesRoom (c : Target) : Prop :=
  ∀ (n : Int) (g : ℚ), 0 ≤ n → n ≤ kMaxCapacity c →
    n ≤ (((Allocate c n g).size / c.sizeofT : Nat) : Int)

/-- An allocator in the style of `SkContainerAllocator`: exactly the requested capacity for
growth factor `1.0`, half as much again when the factor is larger. -/
def sampleAllocate (sizeOfT : Nat) (_maxCapacity : Int) (capacity : Int) (growthFactor : ℚ) :
    SkSpan :=
  { data := 4096
    size := (if growthFactor > 1 then capacity.toNat + (capacity.toNat + 1) / 2
             else capacity.toNat) * sizeOfT }

/-- A 32-bit target (`SIZE_MAX = 2^32 - 1`) for an element type of the given size. -/
def target32 (sizeofT : Nat) : Target :=
  { sizeofT := sizeofT, SIZE_MAX := 2 ^ 32 - 1, allocate := sampleAllocate }

/-- A 64-bit target (`SIZE_MAX = 2^64 - 1`) for an element type of the given size. -/
def target64 (sizeofT : Nat) : Target :=
  { sizeofT := sizeofT, SIZE_MAX := 2 ^ 64 - 1, allocate := sampleAllocate }

/-- An `SkTArray<char>` of `n` zero bytes whose block is exactly full. -/
def fullArray (n : Nat) : SkTArray Nat :=
  { fData := 4096, slots := List.replicate n (some 0), fSize := n, fCapacity := n,
    fOwnMemory := true }

/-- An `SkTArray<int>` holding `10, 20` in a preallocated block of four that it does not own, as
an `SkSTArray<4, int>` does. -/
def sampleInline : SkTArray Nat :=
  { fData := 512, slots := [some 10, some 20, none, none], fSize := 2, fCapacity := 4,
    fOwnMemory := false }

/-- An `SkTArray<int>` holding `1, 2, 3` in a block of three. -/
def sampleDest : SkTArray Nat :=
  { fData := 8192, slots := [some 1, some 2, some 3], fSize := 3, fCapacity := 3,
    fOwnMemory := true }

/-- An `SkTArray<int>` holding `10, 20` in a block of two. -/
def sampleArray : SkTArray Nat :=
  { fData := 4096, slots := [some 10, some 20], fSize := 2, fCapacity := 2, fOwnMemory := true }

end SkTArray

/-! ## Part 2: the reference half-float encoder `h` of `SkRasterPipelineTest.cpp` -/

/-- Source: `(int32_t)x` for a `uint32_t` value `x`. -/
def toInt32 (x : Nat) : Int := if x < 2 ^ 31 then (x : Int) else (x : Int) - 2 ^ 32

/-- Source: `SkTo<uint16_t>(x)` is `static_cast<uint16_t>(x)`: the low 16 bits (debug builds assert
that nothing is lost). -/
def SkTo_uint16 (x : Nat) : Nat := x % 2 ^ 16

/-- Source: `static uint16_t h(float f)`.  `sem` is the bit pattern of `f` as copied by `memcpy`;
the sum is `uint32_t` arithmetic, in which subtracting the `int` `(127-15)<<10` adds its
two's complement. -/
def h (sem : Nat) : Nat :=
  let s := sem &&& 0x80000000
  let em := sem ^^^ s
  let denorm : Bool := toInt32 em < 0x38800000
  if denorm then SkTo_uint16 0
  else SkTo_uint16 (((s >>> 16) + (em >>> 13) + (2 ^ 32 - ((127 - 15) <<< 10))) % 2 ^ 32)

/-- Source: the operand of `SkTo<uint16_t>` in `h`: `0` for a flushed input, otherwise
`(s>>16) + (em>>13) - ((127-15)<<10)`, a sum in `uint32_t` arithmetic. -/
def hOperand (sem : Nat) : Nat :=
  let s := sem &&& 0x80000000
  let em := sem ^^^ s
  let denorm : Bool := toInt32 em < 0x38800000
  if denorm then 0
  else ((s >>> 16) + (em >>> 13) + (2 ^ 32 - ((127 - 15) <<< 10))) % 2 ^ 32

/-- IEEE 754 binary16: the number a 16-bit pattern with exponent field below 31 denotes. -/
def halfValue (b : Nat) : ℚ :=
  let s : Nat := b / 2 ^ 15 % 2
  let e : Nat := b / 2 ^ 10 % 32
  let m : Nat := b % 2 ^ 10
  let sign : ℚ := if s = 1 then -1 else 1
  if e = 0 then sign * (m : ℚ) / 2 ^ 24 else sign * (1024 + (m : ℚ)) * 2 ^ e / 2 ^ 25

/-- IEEE 754 binary32: the number a 32-bit pattern with exponent field below 255 denotes. -/
def floatValue (b : Nat) : ℚ :=
  let s : Nat := b / 2 ^ 31 % 2
  let e : Nat := b / 2 ^ 23 % 256
  let m : Nat := b % 2 ^ 23
  let sign : ℚ := if s = 1 then -1 else 1
  if e = 0 then sign * (m : ℚ) / 2 ^ 149 else sign * (2 ^ 23 + (m : ℚ)) * 2 ^ e / 2 ^ 150

/-- Floor of the binary logarithm of `k` (`0` for `k < 2`), by halving at most `fuel` times. -/
def log2Floor : Nat → Nat → Nat
  | 0, _ => 0
  | fuel + 1, k => if k < 2 then 0 else log2Floor fuel (k / 2) + 1

/-- The binary32 pattern of the integer `k` (for `k < 2^24`, where it is exact): what the
conversion of the literal `k` to `float` produces. -/
def floatOfNat (k : Nat) : Nat :=
  if k = 0 then 0
  else
    let e := log2Floor k k
    (127 + e) * 2 ^ 23 + (k - 2 ^ e) * 2 ^ (23 - e)

/-- The IEEE 754 binary16 pattern of the integer `k` (for `k < 2^11`, where it is exact). -/
def halfOfNat (k : Nat) : Nat :=
  if k = 0 then 0
  else
    let e := log2Floor k k
    (15 + e) * 2 ^ 10 + (k - 2 ^ e) * 2 ^ (10 - e)

/-! ## Part 3: the raster pipeline

`src/core/SkRasterPipeline.*`, `src/opts/SkRasterPipeline_opts.h` and `src/gpu/Swizzle.*` are
not among the sources; the engine below follows the specification (sections 3, 4 and 6) and
the pipelines that `tests/SkRasterPipelineTest.cpp` builds. -/

namespace RasterPipeline

/-- Modelled from the spec: one character of a swizzle descriptor (section 4.3): copy the
source red, green, blue or alpha channel, or emit the constant zero or one.  `Swizzle.h` is
not among the sources. -/
inductive Channel
  | r | g | b | a | zero | one
  deriving DecidableEq, Repr

/-- Modelled from the spec: the stage kinds of the catalogue (section 6) that the pipelines
studied here append, and the marker stage of `appendStackRewind()` (section 4.1);
`SkRasterPipeline::StockStage` is not among the sources. -/
inductive StageKind
  | load_8888 | store_8888 | load_rg88 | store_rg88
  | load_f32 | store_f32 | load_rgf32
  | load_f16 | load_f16_dst | store_f16
  | swap_rb | srcover
  | swizzle (c0 c1 c2 c3 : Channel)
  | immediate_f | store_unmasked
  | callback | stack_rewind
  deriving DecidableEq, Repr

/-- Modelled from the spec: the StageRecord `{kind, context}` of section 3.  The context of a
load or store stage is the handle of the pixel buffer of its `SkRasterPipeline_MemoryCtx`;
stages without a context carry `0`. -/
structure StageRecord where
  kind : StageKind
  ctx : Nat
  deriving DecidableEq, Repr

/-- Modelled from the spec: the memory shared with the caller (section 5): for each buffer
handle, the bit pattern of the pixel at a row and a column.  The row stride of a
`MemoryContext` is a matter of layout and is not represented. -/
abbrev Memory := Nat → Nat → Nat → Nat

/-- Modelled from the spec: the registers of one lane, source colour `r g b a` and destination
colour `dr dg db da`.  In high precision a channel is a binary32 bit pattern, in low
precision a fixed-point number in which `255` is one. -/
structure Lane where
  r : Nat
  g : Nat
  b : Nat
  a : Nat
  dr : Nat
  dg : Nat
  db : Nat
  da : Nat
  deriving DecidableEq, Repr

/-- Modelled from the spec: the registers of a batch, by lane index. -/
abbrev Regs := Nat → Lane

/-- Modelled from the spec: the two precision modes of a run (section 3). -/
inductive Precision
  | high | low
  deriving DecidableEq, Repr

/-- Modelled from the spec: one batch of a run: its first column, its row, the number of
active lanes (the SIMD width for a full batch, `width mod SIMD_WIDTH` for the tail), and the
number of lanes of the registers, the SIMD width of the run. -/
structure Batch where
  dx : Nat
  dy : Nat
  active : Nat
  lanes : Nat
  deriving DecidableEq, Repr

/-- Modelled from the spec: the native SIMD widths of the two precision modes (section 4.2);
the engine that fixes them is not among the sources. -/
structure Engine where
  highpStride : Nat
  lowpStride : Nat
  deriving DecidableEq, Repr

/-- Modelled from the spec: the registers a batch starts from, all zero. -/
def zeroLane : Lane := ⟨0, 0, 0, 0, 0, 0, 0, 0⟩

/-- Modelled from the spec: a load stage reads the pixels of the active lanes. -/
def loadLanes (decode : Nat → Lane → Lane) (mem : Memory) (ctx : Nat) (bt : Batch)
    (regs : Regs) : Regs :=
  fun i => if i < bt.active then decode (mem ctx bt.dy (bt.dx + i)) (regs i) else regs i

/-- Modelled from the spec: a store stage writes the pixels of the active lanes and nothing
else (the tail handling invariant of section 4.2). -/
def storeLanes (encode : Lane → Nat) (mem : Memory) (ctx : Nat) (bt : Batch) (regs : Regs) :
    Memory :=
  fun b row col =>
    if b = ctx ∧ row = bt.dy ∧ bt.dx ≤ col ∧ col < bt.dx + bt.active then
      encode (regs (col - bt.dx))
    else mem b row col

/-- Modelled from the spec: `load_8888` in low precision: the four bytes of the pixel. -/
def from_8888 (px : Nat) (l : Lane) : Lane :=
  { l with r := px % 256, g := px / 2 ^ 8 % 256, b := px / 2 ^ 16 % 256, a := px / 2 ^ 24 % 256 }

/-- Modelled from the spec: `store_8888` in low precision. -/
def to_8888 (l : Lane) : Nat :=
  l.r % 256 + (l.g % 256) * 2 ^ 8 + (l.b % 256) * 2 ^ 16 + (l.a % 256) * 2 ^ 24

/-- Modelled from the spec: `load_rg88` in low precision: two bytes, blue zero, alpha one. -/
def from_rg88 (px : Nat) (l : Lane) : Lane :=
  { l with r := px % 256, g := px / 2 ^ 8 % 256, b := 0, a := 255 }

/-- Modelled from the spec: `store_rg88` in low precision. -/
def to_rg88 (l : Lane) : Nat := l.r % 256 + (l.g % 256) * 2 ^ 8

/-- Modelled from the spec: `load_f32`: the four binary32 words of the pixel. -/
def from_f32 (px : Nat) (l : Lane) : Lane :=
  { l with r := px % 2 ^ 32, g := px / 2 ^ 32 % 2 ^ 32, b := px / 2 ^ 64 % 2 ^ 32,
           a := px / 2 ^ 96 % 2 ^ 32 }

/-- Modelled from the spec: `load_rgf32`: the two binary32 words of a two-channel pixel;
blue is zero and alpha is one (section 8: the swizzle `"0gra"` after this load emits
`{0, green, red, 1}`). -/
def from_rgf32 (px : Nat) (l : Lane) : Lane :=
  { l with r := px % 2 ^ 32, g := px / 2 ^ 32 % 2 ^ 32, b := 0, a := 0x3f800000 }

/-- Modelled from the spec: `store_f32`. -/
def to_f32 (l : Lane) : Nat :=
  l.r % 2 ^ 32 + (l.g % 2 ^ 32) * 2 ^ 32 + (l.b % 2 ^ 32) * 2 ^ 64 + (l.a % 2 ^ 32) * 2 ^ 96

/-- Modelled from the spec: the conversion of a binary16 pattern to binary32, exact as in IEEE
754 (section 6). -/
def halfToFloat (hb : Nat) : Nat :=
  let s := hb / 2 ^ 15 % 2
  let e := hb / 2 ^ 10 % 32
  let m := hb % 2 ^ 10
  if e = 0 then
    if m = 0 then s * 2 ^ 31
    else
      let k := log2Floor m m
      s * 2 ^ 31 + (k + 103) * 2 ^ 23 + (m - 2 ^ k) * 2 ^ (23 - k)
  else if e = 31 then s * 2 ^ 31 + 255 * 2 ^ 23 + m * 2 ^ 13
  else s * 2 ^ 31 + (e + 112) * 2 ^ 23 + m * 2 ^ 13

/-- Modelled from the spec: `load_f16`: four half-floats widened to binary32. -/
def from_f16 (px : Nat) (l : Lane) : Lane :=
  { l with r := halfToFloat (px % 2 ^ 16), g := halfToFloat (px / 2 ^ 16 % 2 ^ 16),
           b := halfToFloat (px / 2 ^ 32 % 2 ^ 16), a := halfToFloat (px / 2 ^ 48 % 2 ^ 16) }

/-- Modelled from the spec: `load_f16_dst`: as `load_f16`, into the destination registers. -/
def from_f16_dst (px : Nat) (l : Lane) : Lane :=
  { l with dr := halfToFloat (px % 2 ^ 16), dg := halfToFloat (px / 2 ^ 16 % 2 ^ 16),
           db := halfToFloat (px / 2 ^ 32 % 2 ^ 16), da := halfToFloat (px / 2 ^ 48 % 2 ^ 16) }

/-- Modelled from the spec: `store_f16`: each channel goes through the reference encoder `h`,
denormals flushed to zero (sections 6 and 8). -/
def to_f16 (l : Lane) : Nat :=
  h (l.r % 2 ^ 32) + h (l.g % 2 ^ 32) * 2 ^ 16 + h (l.b % 2 ^ 32) * 2 ^ 32
    + h (l.a % 2 ^ 32) * 2 ^ 48

/-- Modelled from the spec: `swap_rb` exchanges red and blue. -/
def swapRB (l : Lane) : Lane := { l with r := l.b, b := l.r }

/-- Modelled from the spec: the constant one of a precision mode. -/
def oneOf : Precision → Nat
  | .high => 0x3f800000
  | .low => 255

/-- Modelled from the spec: what a swizzle character selects from a lane (section 4.3). -/
def select (one : Nat) (l : Lane) : Channel → Nat
  | .r => l.r
  | .g => l.g
  | .b => l.b
  | .a => l.a
  | .zero => 0
  | .one => one

/-- Modelled from the spec: the swizzle stage: output channel `k` is what `ck` selects. -/
def swizzleLane (one : Nat) (c0 c1 c2 c3 : Channel) (l : Lane) : Lane :=
  { l with r := select one l c0, g := select one l c1, b := select one l c2,
           a := select one l c3 }

/-- Modelled from the spec: the engine's binary32 arithmetic is not among the sources and is
represented where it is exact.  Value times `2^149` of a finite binary32 pattern with the
sign bit clear. -/
def floatScaled (b : Nat) : Option Nat :=
  let e := b / 2 ^ 23 % 256
  let m := b % 2 ^ 23
  if b < 2 ^ 31 ∧ e ≠ 255 then some (if e = 0 then m else (2 ^ 23 + m) * 2 ^ (e - 1))
  else none

/-- Modelled from the spec: the binary32 pattern of `n / 2^149` when that number is a binary32
value: `n` itself below `2^24` (zero, the denormals and the first binade), otherwise a
24-bit significand `n / 2^k` with exponent field `k + 1`. -/
def floatOfScaled (n : Nat) : Option Nat :=
  if n < 2 ^ 24 then some n
  else
    let k := log2Floor n n - 23
    if n % 2 ^ k = 0 ∧ 2 ^ 23 ≤ n / 2 ^ k ∧ n / 2 ^ k < 2 ^ 24 ∧ k + 1 ≤ 254 then
      some ((k + 1) * 2 ^ 23 + (n / 2 ^ k - 2 ^ 23))
    else none

/-- Modelled from the spec: binary32 addition of non-negative finite operands whose exact sum
is a binary32 value (every IEEE 754 rounding mode then returns that value); `none`
otherwise. -/
def faddExact (x y : Nat) : Option Nat :=
  match floatScaled x, floatScaled y with
  | some sx, some sy => floatOfScaled (sx + sy)
  | _, _ => none

/-- Modelled from the spec: binary32 subtraction `x - y` for `y ≤ x`, under the same
restriction. -/
def fsubExact (x y : Nat) : Option Nat :=
  match floatScaled x, floatScaled y with
  | some sx, some sy => if sy ≤ sx then floatOfScaled (sx - sy) else none
  | _, _ => none

/-- Modelled from the spec: binary32 multiplication, under the same restriction. -/
def fmulExact (x y : Nat) : Option Nat :=
  match floatScaled x, floatScaled y with
  | some sx, some sy =>
    if (sx * sy) % 2 ^ 149 = 0 then floatOfScaled (sx * sy / 2 ^ 149) else none
  | _, _ => none

/-- Modelled from the spec: one channel of the standard source-over blend,
`s + d * (1 - sa)`. -/
def srcoverChannel (s d sa : Nat) : Option Nat :=
  match fsubExact 0x3f800000 sa with
  | none => none
  | some inv =>
    match fmulExact d inv with
    | none => none
    | some t => faddExact s t

/-- Modelled from the spec: `srcover` on one lane (high precision). -/
def srcoverLane (l : Lane) : Option Lane :=
  match srcoverChannel l.r l.dr l.a, srcoverChannel l.g l.dg l.a,
        srcoverChannel l.b l.db l.a, srcoverChannel l.a l.da l.a with
  | some r, some g, some b, some a => some { l with r := r, g := g, b := b, a := a }
  | _, _, _, _ => none

/-- Modelled from the spec: `immediate_f` injects the float constant carried in its context
(the low 32 bits of the context pointer) into the red register of every lane of the batch. -/
def immediateLane (ctx : Nat) (l : Lane) : Lane := { l with r := ctx % 2 ^ 32 }

/-- Modelled from the spec: `store_unmasked` stores the red register of every lane of the
batch, active or not, to the float array of its context: float `i` of the array (column `i`
of row `0` of the buffer) receives lane `i`.  The catalogue of section 6 only names the
stage; this is what `DEF_TEST(SkRasterPipeline_ImmediateStoreUnmasked)` observes. -/
def storeUnmasked (mem : Memory) (ctx : Nat) (bt : Batch) (regs : Regs) : Memory :=
  fun b row col =>
    if b = ctx ∧ row = 0 ∧ col < bt.lanes then (regs col).r % 2 ^ 32 else mem b row col

/-- Modelled from the spec: which stage kinds have a low-precision realisation: the kinds of
the pipelines that the tests run on the low-precision path.  A host callback and the stack
rewind marker touch no pixel data and constrain no precision (sections 4.1 and 4.4). -/
def hasLowp : StageKind → Bool
  | .load_8888 | .store_8888 | .load_rg88 | .store_rg88 | .swap_rb | .swizzle _ _ _ _ => true
  | .callback | .stack_rewind => true
  | _ => false

/-- Modelled from the spec: precision selection (section 4.2): low precision when every
appended stage kind has a low-precision realisation, high precision for the whole pipeline
otherwise. -/
def precisionOf (stages : List StageRecord) : Precision :=
  if stages.all (fun st => hasLowp st.kind) then .low else .high

/-- Modelled from the spec: the SIMD width of a precision mode. -/
def Engine.stride (eng : Engine) : Precision → Nat
  | .high => eng.highpStride
  | .low => eng.lowpStride

/-- Modelled from the spec: the effect of one stage on the memory and the registers of a
batch.  A host callback and the stack rewind marker leave both as they are.  `none`: the
stage needs binary32 rounding (a format conversion in high precision, or `srcover` on
operands outside `faddExact`, `fsubExact`, `fmulExact`), which is not represented. -/
def applyStage (prec : Precision) (st : StageRecord) (bt : Batch) (s : Memory × Regs) :
    Option (Memory × Regs) :=
  match prec, st.kind with
  | .low, .load_8888 => some (s.1, loadLanes from_8888 s.1 st.ctx bt s.2)
  | .low, .store_8888 => some (storeLanes to_8888 s.1 st.ctx bt s.2, s.2)
  | .low, .load_rg88 => some (s.1, loadLanes from_rg88 s.1 st.ctx bt s.2)
  | .low, .store_rg88 => some (storeLanes to_rg88 s.1 st.ctx bt s.2, s.2)
  | .high, .load_f32 => some (s.1, loadLanes from_f32 s.1 st.ctx bt s.2)
  | .high, .store_f32 => some (storeLanes to_f32 s.1 st.ctx bt s.2, s.2)
  | .high, .load_rgf32 => some (s.1, loadLanes from_rgf32 s.1 st.ctx bt s.2)
  | .high, .load_f16 => some (s.1, loadLanes from_f16 s.1 st.ctx bt s.2)
  | .high, .load_f16_dst => some (s.1, loadLanes from_f16_dst s.1 st.ctx bt s.2)
  | .high, .store_f16 => some (storeLanes to_f16 s.1 st.ctx bt s.2, s.2)
  | _, .swap_rb => some (s.1, fun i => swapRB (s.2 i))
  | p, .swizzle c0 c1 c2 c3 => some (s.1, fun i => swizzleLane (oneOf p) c0 c1 c2 c3 (s.2 i))
  | .high, .srcover =>
    if ∀ i, i < bt.active → (srcoverLane (s.2 i)).isSome then
      some (s.1, fun i => if i < bt.active then (srcoverLane (s.2 i)).getD (s.2 i) else s.2 i)
    else none
  | .high, .immediate_f => some (s.1, fun i => immediateLane st.ctx (s.2 i))
  | .high, .store_unmasked => some (storeUnmasked s.1 st.ctx bt s.2, s.2)
  | _, .callback => some s
  | _, .stack_rewind => some s
  | _, _ => none

/-- Modelled from the spec: the stages of the list applied in order to one batch. -/
def runStages (prec : Precision) : List StageRecord → Batch → Memory × Regs →
    Option (Memory × Regs)
  | [], _, s => some s
  | st :: rest, bt, s =>
    match applyStage prec st bt s with
    | none => none
    | some s1 => runStages prec rest bt s1

/-- Modelled from the spec: one batch: the engine dispatches through the stages once, from
cleared registers, and the memory is what the stages leave. -/
def runBatch (prec : Precision) (stages : List StageRecord) (mem : Memory) (bt : Batch) :
    Option Memory :=
  (runStages prec stages bt (mem, fun _ => zeroLane)).map Prod.fst

/-- Modelled from the spec: `k` full batches of `N` lanes starting at column `x`. -/
def fullBatches (N x y : Nat) : Nat → List Batch
  | 0 => []
  | k + 1 => ⟨x, y, N, N⟩ :: fullBatches N (x + N) y k

/-- Modelled from the spec: the batches of one row (section 4.2): the full batches first, then
the tail of `w mod N` pixels when there is one. -/
def rowBatches (N x y w : Nat) : List Batch :=
  fullBatches N x y (w / N) ++ (if w % N = 0 then [] else [⟨x + w / N * N, y, w % N, N⟩])

/-- Modelled from the spec: the batches of `k` rows starting at row `y`. -/
def rowsFrom (N x w : Nat) (y : Nat) : Nat → List Batch
  | 0 => []
  | k + 1 => rowBatches N x y w ++ rowsFrom N x w (y + 1) k

/-- Modelled from the spec: the batches of `run(x, y, w, h)`, in the order they are issued. -/
def schedule (N x y w h : Nat) : List Batch := rowsFrom N x w y h

/-- Modelled from the spec: the batches executed one after the other. -/
def runBatches (prec : Precision) (stages : List StageRecord) : List Batch → Memory →
    Option Memory
  | [], mem => some mem
  | bt :: rest, mem =>
    match runBatch prec stages mem bt with
    | none => none
    | some mem1 => runBatches prec stages rest mem1

/-- Modelled from the spec: `run(x, y, width, height)` (section 4.2): the precision is chosen
once for the pipeline, and every batch of the schedule is executed. -/
def run (eng : Engine) (stages : List StageRecord) (x y w h : Nat) (mem : Memory) :
    Option Memory :=
  runBatches (precisionOf stages) stages
    (schedule (eng.stride (precisionOf stages)) x y w h) mem

/-- The pixels (column, row) of the active lanes of a list of batches, in order. -/
def pixelsOf : List Batch → List (Nat × Nat)
  | [] => []
  | bt :: rest => (List.range bt.active).map (fun i => (bt.dx + i, bt.dy)) ++ pixelsOf rest

/-- The pixels of the rectangle of `w` columns from `x` and `k` rows from `y`, row by row. -/
def rectPixels (x w : Nat) (y : Nat) : Nat → List (Nat × Nat)
  | 0 => []
  | k + 1 => (List.range w).map (fun i => (x + i, y)) ++ rectPixels x w (y + 1) k

/-- Modelled from the spec: the descriptor of a swizzle, one selector per output channel. -/
structure Swizzle where
  c0 : Channel
  c1 : Channel
  c2 : Channel
  c3 : Channel
  deriving DecidableEq, Repr

/-- Modelled from the spec: the selector a descriptor character names. -/
def Channel.ofChar (ch : Char) : Option Channel :=
  if ch = 'r' then some .r
  else if ch = 'g' then some .g
  else if ch = 'b' then some .b
  else if ch = 'a' then some .a
  else if ch = '0' then some .zero
  else if ch = '1' then some .one
  else none

/-- Modelled from the spec: `skgpu::Swizzle(const char*)` from a 4-character descriptor. -/
def Swizzle.ofString (d : String) : Option Swizzle :=
  match d.toList.map Channel.ofChar with
  | [some c0, some c1, some c2, some c3] => some ⟨c0, c1, c2, c3⟩
  | _ => none

/-- Modelled from the spec: `Swizzle::apply` appends the shortest stage sequence that realises
the descriptor: nothing for `rgba`, `swap_rb` for `bgra`, one swizzle stage otherwise. -/
def Swizzle.apply (sw : Swizzle) (p : List StageRecord) : List StageRecord :=
  if sw = ⟨.r, .g, .b, .a⟩ then p
  else if sw = ⟨.b, .g, .r, .a⟩ then p ++ [⟨.swap_rb, 0⟩]
  else p ++ [⟨.swizzle sw.c0 sw.c1 sw.c2 sw.c3, 0⟩]

/-- Modelled from the spec: `append(kind, context)` adds one stage at the end of the list
(section 4.1); `SkRasterPipeline::append` is not among the sources. -/
def append (p : List StageRecord) (kind : StageKind) (ctx : Nat) : List StageRecord :=
  p ++ [⟨kind, ctx⟩]

/-- The memory in which the pixels of columns `x .. x+w-1` of row `y` of buffer `dst` have
been replaced by `rt` of the pixels of `src` at the same place, everything else as in `mem`. -/
def copyRow (rt : Nat → Nat) (src dst y x w : Nat) (mem : Memory) : Memory :=
  fun b r c => if b = dst ∧ r = y ∧ x ≤ c ∧ c < x + w then rt (mem src y c) else mem b r c

/-- A binary16 pattern that `store_f16` after `load_f16` gives back: positive zero, or a
normal number (exponent field from 1 to 30) of either sign. -/
def HalfKept (hb : Nat) : Prop :=
  hb = 0 ∨ (1 ≤ hb / 2 ^ 10 % 32 ∧ hb / 2 ^ 10 % 32 ≤ 30)

/-- A 64-bit f16 pixel all of whose four channels are kept. -/
def F16PixelKept (px : Nat) : Prop :=
  px < 2 ^ 64 ∧ HalfKept (px % 2 ^ 16) ∧ HalfKept (px / 2 ^ 16 % 2 ^ 16) ∧
    HalfKept (px / 2 ^ 32 % 2 ^ 16) ∧ HalfKept (px / 2 ^ 48 % 2 ^ 16)

/-- The pixel `[load_8888, swap_rb, store_8888]` writes for the pixel `px`. -/
def swapRBPixel (px : Nat) : Nat := to_8888 (swapRB (from_8888 px zeroLane))

/-- The pixel `[load_rg88, swizzle c0 c1 c2 c3, store_rg88]` writes for the pixel `px`. -/
def swizzleRgPixel (sw : Swizzle) (px : Nat) : Nat :=
  to_rg88 (swizzleLane 255 sw.c0 sw.c1 sw.c2 sw.c3 (from_rg88 px zeroLane))

/-- Sample SIMD widths: four lanes in high precision, eight in low precision. -/
def sampleEngine : Engine := ⟨4, 8⟩

/-- Test `DEF_TEST(SkRasterPipeline_JIT)`: the array `buf[72]`. -/
def jitBuf : List Nat :=
  [ 0,  0,  0,  0,  0,  0,  0,  0,  0,  0,  0,  0,
    1,  2,  3,  4,  5,  6,  7,  8,  9, 10, 11, 12,
   13, 14, 15, 16, 17, 18, 19, 20, 21, 22, 23, 24,
    0,  0,  0,  0,  0,  0,  0,  0,  0,  0,  0,  0,
    0,  0,  0,  0,  0,  0,  0,  0,  0,  0,  0,  0,
    0,  0,  0,  0,  0,  0,  0,  0,  0,  0,  0,  0]

/-- Test `DEF_TEST(SkRasterPipeline_JIT)`: buffer `1` is `src = { buf + 0, 0 }` and buffer `2` is
`dst = { buf + 36, 0 }`; the run reads `buf[15..34]` and writes `buf[51..70]`. -/
def jitMem : Memory := fun b _ c =>
  if b = 1 then jitBuf.getD c 0 else if b = 2 then jitBuf.getD (c + 36) 0 else 0

/-- Test `DEF_TEST(SkRasterPipeline_JIT)`: `load_8888` from `src`, `store_8888` to `dst`. -/
def jitPipeline : List StageRecord := append (append [] .load_8888 1) .store_8888 2

/-- Test `DEF_TEST(SkRasterPipeline_lowp)`: the initial `rgba[i]`. -/
def lowpRgba (i : Nat) : Nat :=
  (((4 * i + 0) <<< 0) ||| ((4 * i + 1) <<< 8) ||| ((4 * i + 2) <<< 16) ||| ((4 * i + 3) <<< 24))
    % 2 ^ 32

/-- Test `DEF_TEST(SkRasterPipeline_lowp)`: the expected `want` for index `i`. -/
def lowpWant (i : Nat) : Nat :=
  (((4 * i + 0) <<< 16) ||| ((4 * i + 1) <<< 8) ||| ((4 * i + 2) <<< 0) ||| ((4 * i + 3) <<< 24))
    % 2 ^ 32

/-- Test `DEF_TEST(SkRasterPipeline_lowp)`: the pipeline, working in place on buffer `ptr`. -/
def lowpPipeline (ptr : Nat) : List StageRecord :=
  append (append (append [] .load_8888 ptr) .swap_rb 0) .store_8888 ptr

/-- Test `DEF_TEST(SkRasterPipeline_swizzle)`, first block: the initial `rg[i]` (a `uint16_t`). -/
def swizzleRg (i : Nat) : Nat := (((4 * i + 0) <<< 0) ||| ((4 * i + 1) <<< 8)) % 2 ^ 16

/-- Test `DEF_TEST(SkRasterPipeline_swizzle)`, first block: the expected `want` for index `i`. -/
def swizzleWant (i : Nat) : Nat := ((0xff <<< 8) ||| ((4 * i + 1) <<< 0)) % 2 ^ 32

/-- Test `DEF_TEST(SkRasterPipeline_swizzle)`, first block: `load_rg88`, the stages the swizzle
appends, `store_rg88`, in place on buffer `ptr`. -/
def swizzlePipeline (sw : Swizzle) (ptr : Nat) : List StageRecord :=
  append (sw.apply (append [] .load_rg88 ptr)) .store_rg88 ptr

/-- The descriptor `"g1b1"`. -/
def g1b1 : Swizzle := ⟨.g, .one, .b, .one⟩

/-- Test `DEF_TEST(SkRasterPipeline)`: buffer `1` holds `blue`, buffer `2` holds `red`, buffer `3`
is `result`. -/
def srcoverMem : Memory := fun b _ _ =>
  if b = 1 then 0x3800380000000000 else if b = 2 then 0x3c00000000003c00 else 0

/-- Test `DEF_TEST(SkRasterPipeline)`: the four stages. -/
def srcoverPipeline : List StageRecord :=
  append (append (append (append [] .load_f16 1) .load_f16_dst 2) .srcover 0) .store_f16 3

/-- A memory whose buffer `1` holds the f16 pixel `0x0001` (red is the smallest denormal)
everywhere and whose other buffers hold `0xffff`. -/
def denormMem : Memory := fun b _ _ => if b = 1 then 1 else 0xffff

/-- The buffer `b` is the float array of a `store_unmasked` stage of the pipeline: the one
kind of destination that is written without regard to the active lanes. -/
def dumpsTo (stages : List StageRecord) (b : Nat) : Prop :=
  ∃ st, st ∈ stages ∧ st.kind = .store_unmasked ∧ st.ctx = b

/-- Running `stages` over `(x, 0, w, 1)` succeeds, makes the pixels `x .. x+w-1` of row `0` of
`dst` equal to those of `src` before the run, and changes no other pixel of any buffer. -/
def CopiesRow (eng : Engine) (stages : List StageRecord) (src dst x w : Nat) (mem : Memory) :
    Prop :=
  ∃ mem1, run eng stages x 0 w 1 mem = some mem1 ∧
    (∀ c, x ≤ c → c < x + w → mem1 dst 0 c = mem src 0 c) ∧
    (∀ b r c, ¬ (b = dst ∧ r = 0 ∧ x ≤ c ∧ c < x + w) → mem1 b r c = mem b r c)

/-- Test `DEF_TEST(SkRasterPipeline_swizzle)`, first block: buffer `1` is the array `rg`. -/
def swizzleMem : Memory := fun b _ c => if b = 1 then swizzleRg c else 0

/-- Test `DEF_TEST(SkRasterPipeline_lowp)`: buffer `1` is the array `rgba`. -/
def lowpMem : Memory := fun b _ c => if b = 1 then lowpRgba c else 0

/-- Channel `k` (0 red, 1 green, 2 blue, 3 alpha) of a 64-bit f16 pixel. -/
def chan16 (px k : Nat) : Nat := px / 2 ^ (16 * k) % 2 ^ 16

/-- Modelled from the spec: `appendStackRewind()` (section 4.1) adds the marker stage at the end
of the list; `SkRasterPipeline::append_stack_rewind` is not among the sources. -/
def append_stack_rewind (p : List StageRecord) : List StageRecord :=
  p ++ [⟨.stack_rewind, 0⟩]

/-- The pipeline without its stack rewind markers. -/
def removeRewinds (p : List StageRecord) : List StageRecord :=
  p.filter (fun st => decide (st.kind ≠ .stack_rewind))

/-- Modelled from the spec: what a host callback observes when it is invoked (sections 3 and
4.4): its context, the number of active lanes it is handed, and the native call depth at
which it runs (the frame marker that the probe of section 8 captures). -/
structure Probe where
  ctx : Nat
  active : Nat
  depth : Nat
  deriving DecidableEq, Repr

/-- Modelled from the spec: the environment of the chained-call interpreter (section 4.2):
the native call depth `base` at which the engine invokes the first stage of a batch, and the
number of frames that the call from a stage of a given kind to the next stage adds (zero
where the compiler eliminates the tail call, which the spec leaves open). -/
structure Chain where
  base : Nat
  grow : StageKind → Nat

/-- Modelled from the spec: an entry of the program that the engine executes: an appended
stage, or the terminal no-op stage. -/
inductive Entry
  | stage (st : StageRecord)
  | terminal
  deriving DecidableEq, Repr

/-- Modelled from the spec: how a chained run can stop short: a stage has called a next stage
that does not exist, or a stage is outside what `applyStage` represents. -/
inductive Fault
  | noNextStage
  | notRepresented
  deriving DecidableEq, Repr

/-- Modelled from the spec: the state of a chained run: the shared memory, the registers of the
batch, and the probes logged by the callbacks so far. -/
structure ChainState where
  mem : Memory
  regs : Regs
  log : List Probe

/-- Modelled from the spec: the program of a pipeline (sections 3 and 4.2): the appended stages
in order, and past them the terminal no-op stage that the engine always adds. -/
def program (stages : List StageRecord) : List Entry :=
  stages.map Entry.stage ++ [Entry.terminal]

/-- Modelled from the spec: the depth at which the stage after `st` is invoked when `st` runs
at depth `d`: the marker returns to the engine, which invokes the following stage again from
the base depth; every other stage calls the following stage itself. -/
def nextDepth (ch : Chain) (st : StageRecord) (d : Nat) : Nat :=
  if st.kind = .stack_rewind then ch.base else d + ch.grow st.kind

/-- Modelled from the spec: the chained-call interpreter on one batch (section 4.2): each
stage does its work and then invokes the entry that follows it; the terminal stage returns.
A callback logs what it observes.  Running off the end of the program is a fault. -/
def execChain (ch : Chain) (prec : Precision) (bt : Batch) :
    List Entry → Nat → ChainState → Except Fault ChainState
  | [], _, _ => .error .noNextStage
  | .terminal :: _, _, s => .ok s
  | .stage st :: rest, d, s =>
    match applyStage prec st bt (s.mem, s.regs) with
    | none => .error .notRepresented
    | some s1 =>
      execChain ch prec bt rest (nextDepth ch st d)
        ⟨s1.1, s1.2, if st.kind = .callback then s.log ++ [⟨st.ctx, bt.active, d⟩] else s.log⟩

/-- Modelled from the spec: one batch of a chained run: the program of the pipeline is invoked
at the base depth, from cleared registers. -/
def chainBatch (ch : Chain) (prec : Precision) (stages : List StageRecord)
    (s : Memory × List Probe) (bt : Batch) : Except Fault (Memory × List Probe) :=
  match execChain ch prec bt (program stages) ch.base ⟨s.1, fun _ => zeroLane, s.2⟩ with
  | .error e => .error e
  | .ok s1 => .ok (s1.mem, s1.log)

/-- Modelled from the spec: the batches of a chained run, one after the other. -/
def chainBatches (ch : Chain) (prec : Precision) (stages : List StageRecord) :
    List Batch → Memory × List Probe → Except Fault (Memory × List Probe)
  | [], s => .ok s
  | bt :: rest, s =>
    match chainBatch ch prec stages s bt with
    | .error e => .error e
    | .ok s1 => chainBatches ch prec stages rest s1

/-- Modelled from the spec: `run(x, y, width, height)` under the chained-call strategy: the
final memory and the probes that the callbacks have logged, in order. -/
def runChained (eng : Engine) (ch : Chain) (stages : List StageRecord) (x y w h : Nat)
    (mem : Memory) : Except Fault (Memory × List Probe) :=
  chainBatches ch (precisionOf stages) stages
    (schedule (eng.stride (precisionOf stages)) x y w h) (mem, [])

/-- The memory a chained run leaves, when it completes. -/
def pixels : Except Fault (Memory × List Probe) → Option Memory
  | .ok s => some s.1
  | .error _ => none

/-- The probes that the callbacks of `stages` log in one batch when the first stage runs at
depth `d`. -/
def probes (ch : Chain) (bt : Batch) : List StageRecord → Nat → List Probe
  | [], _ => []
  | st :: rest, d =>
    (if st.kind = .callback then [⟨st.ctx, bt.active, d⟩] else []) ++
      probes ch bt rest (nextDepth ch st d)

/-- The probes that the callbacks of `stages` log over a list of batches, each batch starting
at the base depth. -/
def batchProbes (ch : Chain) (stages : List StageRecord) : List Batch → List Probe
  | [] => []
  | bt :: rest => probes ch bt stages ch.base ++ batchProbes ch stages rest

/-- The number of callback stages of a pipeline. -/
def callbacks (stages : List StageRecord) : Nat :=
  (stages.filter (fun st => decide (st.kind = .callback))).length

/-- Source: `StackCheckerCtx::Behavior`. -/
inductive Behavior
  | kGrowth
  | kBaseline
  | kUnknown
  deriving DecidableEq, Repr

/-- Source: `StackCheckerCtx::GrowthBehavior()`. -/
def GrowthBehavior : Behavior := .kUnknown

/-- Source: the loop of `StackCheckerCtx::validate`, from index `i`, over the rest of
`fStackAddrs` and `fExpectedBehavior`; `true` when no assertion fails. -/
def validateFrom (baseline : Nat) : List Nat → List Behavior → Bool
  | a :: addrs, e :: expected =>
    (if e = .kGrowth then decide (a ≠ baseline)
     else if e = .kBaseline then decide (a = baseline)
     else true) && validateFrom baseline addrs expected
  | _, _ => true

/-- Source: `StackCheckerCtx::validate`: the sizes agree, and every entry from index 1 on
compares with `fStackAddrs[0]` as its expected behaviour says.  A frame marker is the depth of
the frame it was captured in. -/
def validate (fStackAddrs : List Nat) (fExpectedBehavior : List Behavior) : Bool :=
  decide (fStackAddrs.length = fExpectedBehavior.length) &&
    validateFrom (fStackAddrs.headD 0) (fStackAddrs.drop 1) (fExpectedBehavior.drop 1)

/-- Test `DEF_TEST(SkRasterPipeline_stack_rewind)`, first block: the pipeline; `stack` is the
context of the callbacks and `ptr` the buffer of `rgba`. -/
def plainPipeline (stack ptr : Nat) : List StageRecord :=
  let p := append [] .callback stack
  let p := append p .load_8888 ptr
  let p := append p .callback stack
  let p := append p .swap_rb 0
  let p := append p .callback stack
  append p .store_8888 ptr

/-- Test `DEF_TEST(SkRasterPipeline_stack_rewind)`, first block: `fExpectedBehavior`. -/
def plainExpected : List Behavior := [.kBaseline, GrowthBehavior, GrowthBehavior]

/-- Test `DEF_TEST(SkRasterPipeline_stack_rewind)`, second block: the pipeline. -/
def rewindPipeline (stack ptr : Nat) : List StageRecord :=
  let p := append [] .callback stack
  let p := append p .load_8888 ptr
  let p := append p .callback stack
  let p := append_stack_rewind p
  let p := append p .callback stack
  let p := append p .swap_rb 0
  let p := append p .callback stack
  let p := append_stack_rewind p
  let p := append p .callback stack
  append p .store_8888 ptr

/-- Test `DEF_TEST(SkRasterPipeline_stack_rewind)`, second block: `fExpectedBehavior`. -/
def rewindExpected : List Behavior :=
  [.kBaseline, GrowthBehavior, .kBaseline, GrowthBehavior, .kBaseline]

/-- Test `DEF_TEST(SkRasterPipeline_stack_rewind)`: buffer `1` is `rgba = 0xff0000ff`. -/
def rewindMem : Memory := fun b _ _ => if b = 1 then 0xff0000ff else 0

/-- The descriptor `"0gra"`. -/
def zgra : Swizzle := ⟨.zero, .g, .r, .a⟩

/-- The pixel `[load_rgf32, swizzle c0 c1 c2 c3, store_f16]` writes for the pixel `px`. -/
def swizzleRgfPixel (sw : Swizzle) (px : Nat) : Nat :=
  to_f16 (swizzleLane 0x3f800000 sw.c0 sw.c1 sw.c2 sw.c3 (from_rgf32 px zeroLane))

/-- Test `DEF_TEST(SkRasterPipeline_swizzle)`, second block: the initial `rg[i]`, two floats:
`rg[i][0] = i + 1` and `rg[i][1] = 2 * i + 1`. -/
def swizzleRgf (i : Nat) : Nat := floatOfNat (i + 1) + floatOfNat (2 * i + 1) * 2 ^ 32

/-- Test `DEF_TEST(SkRasterPipeline_swizzle)`, second block: the expected `want` for index `i`,
four `uint16_t`: `h(0)`, `h(2 * i + 1)`, `h(i + 1)`, `h(1)`. -/
def swizzleWantF (i : Nat) : Nat :=
  h (floatOfNat 0) + h (floatOfNat (2 * i + 1)) * 2 ^ 16 + h (floatOfNat (i + 1)) * 2 ^ 32 +
    h (floatOfNat 1) * 2 ^ 48

/-- Test `DEF_TEST(SkRasterPipeline_swizzle)`, second block: `load_rgf32` from `src`, the stages
the swizzle appends, `store_f16` to `dst`. -/
def swizzlePipelineF (sw : Swizzle) (src dst : Nat) : List StageRecord :=
  append (sw.apply (append [] .load_rgf32 src)) .store_f16 dst

/-- Test `DEF_TEST(SkRasterPipeline_swizzle)`, second block: buffer `1` is the array `rg`, buffer
`2` the array `buffer`. -/
def swizzleMemF : Memory := fun b _ c => if b = 1 then swizzleRgf c else 0

/-- Test `DEF_TEST(SkRasterPipeline_ImmediateStoreUnmasked)`: the bit pattern of
`immVal = 123.0f`. -/
def immVal : Nat := 0x42f60000

/-- Test `DEF_TEST(SkRasterPipeline_ImmediateStoreUnmasked)`: `immediate_f` with the constant in
its context, `store_unmasked` to the float array `val`. -/
def immediatePipeline (v val : Nat) : List StageRecord :=
  append (append [] .immediate_f v) .store_unmasked val

/-- Test `DEF_TEST(SkRasterPipeline_nonsense)`: `srcover` alone. -/
def nonsensePipeline : List StageRecord := append [] .srcover 0

end RasterPipeline

end Skia
/-! # Theorems -/

namespace Skia

/-! ## `SkTArray` -/

namespace SkTArray

variable {T : Type}

theorem write_natCast (s : Slots T) (i : Nat) (v : Option T) :
    s.write (i : Int) v = s.set i v := by
  simp [Slots.write]

theorem read_natCast (s : Slots T) (i : Nat) :
    s.read (i : Int) = (s[i]?).join := by
  simp [Slots.read]

theorem moveLoop_length (src dst : Slots T) (k : Nat) :
    (moveLoop src dst k).length = dst.length := by
  induction k with
  | zero => rfl
  | succ k ih => simp [moveLoop, write_natCast, ih]

/-- After the loop of `move`, the first `k` slots of the destination hold what the source
held there and the others are as before. -/
theorem moveLoop_getElem? (src dst : Slots T) (k i : Nat) :
    (moveLoop src dst k)[i]? =
      if i < k ∧ i < dst.length then some ((src[i]?).join) else dst[i]? := by
  induction k with
  | zero => simp [moveLoop]
  | succ k ih =>
    simp only [moveLoop, write_natCast, read_natCast, List.getElem?_set, moveLoop_length, ih]
    by_cases hki : k = i
    · subst hki
      by_cases hk : k < dst.length
      · simp [hk]
      · have : dst[k]? = none := List.getElem?_eq_none (by omega)
        simp [hk, this]
    · by_cases h1 : i < k
      · have : i < k + 1 := by omega
        simp [hki, h1, this]
      · have : ¬ i < k + 1 := by omega
        simp [hki, h1, this]

theorem destroyLoop_length (s : Slots T) (start : Int) (n : Nat) :
    (destroyLoop s start n).length = s.length := by
  induction n with
  | zero => rfl
  | succ n ih =>
    simp only [destroyLoop, Slots.write]
    split
    · simp [ih]
    · exact ih

/-- After the loop of `pop_back_n` from slot `s0`, the `n` slots from `s0` hold no object and
the others are as before. -/
theorem destroyLoop_getElem? (s : Slots T) (s0 n i : Nat) :
    (destroyLoop s (s0 : Int) n)[i]? =
      if s0 ≤ i ∧ i < s0 + n ∧ i < s.length then some none else s[i]? := by
  induction n with
  | zero =>
    simp only [destroyLoop]
    rw [if_neg (by omega)]
  | succ n ih =>
    have hw : ((s0 : Int) + (n : Int)) = ((s0 + n : Nat) : Int) := by push_cast; rfl
    simp only [destroyLoop, Nat.cast_add] at ih ⊢
    rw [hw, write_natCast, List.getElem?_set, destroyLoop_length, ih]
    by_cases hki : s0 + n = i
    · subst hki
      by_cases hk : s0 + n < s.length
      · simp [hk]
      · have : s[s0 + n]? = none := List.getElem?_eq_none (by omega)
        simp [hk, this]
    · rw [if_neg hki]
      by_cases h1 : s0 ≤ i ∧ i < s0 + n ∧ i < s.length
      · rw [if_pos h1, if_pos ⟨h1.1, by omega, h1.2.2⟩]
      · rw [if_neg h1, if_neg (by omega)]

theorem holds_getElem? {a : SkTArray T} {es : List T} (h : Holds a es) (i : Nat)
    (hi : i < es.length) : a.slots[i]? = some (es[i]?) := by
  have h2 := congrArg (fun l => l[i]?) h.2
  simp only [List.getElem?_take, hi, if_true, List.getElem?_map] at h2
  rw [h2, List.getElem?_eq_getElem hi]
  rfl

/-- Writing `t` into the slot after `es` gives a block whose first slots hold `es ++ [t]`. -/
theorem take_set_append (s : Slots T) (es : List T) (t : T) (hlen : es.length < s.length)
    (hs : ∀ i, i < es.length → s[i]? = some (es[i]?)) :
    (s.set es.length (some t)).take (es ++ [t]).length = (es ++ [t]).map some := by
  apply List.ext_getElem?
  intro i
  simp only [List.getElem?_take, List.getElem?_set, List.length_append, List.length_singleton,
    List.getElem?_map]
  by_cases h1 : i < es.length
  · have h2 : i < es.length + 1 := by omega
    have h3 : es.length ≠ i := by omega
    rw [if_pos h2, if_neg h3, hs i h1, List.getElem?_append_left h1,
      List.getElem?_eq_getElem h1]
    rfl
  · by_cases h2 : i = es.length
    · subst h2
      simp [hlen]
    · have h3 : ¬ i < es.length + 1 := by omega
      have h4 : (es ++ [t])[i]? = none := List.getElem?_eq_none (by simp; omega)
      simp [h3, h4]

theorem sampleAllocate_room (s : Nat) (hs : 0 < s) : AllocatorGivesRoom (target64 s) := by
  intro n g h0 _
  simp only [Allocate, target64, sampleAllocate]
  rw [Nat.mul_div_cancel _ hs]
  split <;> omega

/-- A full array whose size has reached `kMaxCapacity` makes `push_back` abort. -/
theorem push_back_none (c : Target) (a : SkTArray T) (t : T)
    (h1 : ¬ a.fSize < a.capacity) (h2 : ¬ a.fSize < kMaxCapacity c) :
    push_back c a t = none := by
  have h3 : ¬ (a.capacity - a.fSize ≥ 1) := by omega
  have h4 : ¬ (1 ≤ kMaxCapacity c - a.fSize) := by omega
  simp [push_back, push_back_raw, checkRealloc, h3, h4]

theorem fullArray_holds (n : Nat) : Holds (fullArray n) (List.replicate n 0) := by
  simp [Holds, fullArray, List.take_replicate]

theorem fullArray_block (n : Nat) : (fullArray n).fCapacity ≤ (fullArray n).slots.length := by
  simp [fullArray]

theorem fullArray_noSpare (n : Nat) : ¬ (fullArray n).fSize < (fullArray n).capacity := by
  simp [fullArray, capacity]

theorem kMaxCapacity_target64_one : kMaxCapacity (target64 1) = 2147483647 := by
  simp [kMaxCapacity, target64, INT_MAX]

theorem fullArray_atMax : ¬ (fullArray 2147483647).fSize < kMaxCapacity (target64 1) := by
  rw [kMaxCapacity_target64_one]
  have h : (fullArray 2147483647).fSize = 2147483647 := rfl
  rw [h]
  exact lt_irrefl _

theorem sampleArray_holds : Holds sampleArray [10, 20] := by
  simp [Holds, sampleArray]

/-- C1 (amended): for every SkTArray holding `e0..e(k-1)` in a block with room for
`capacity()` elements, and an allocator that returns room for the requested count, a call
`push_back(t)` made while `size() < capacity()` or `size() < kMaxCapacity` leaves an array of
size `k+1` holding `e0..e(k-1), t` in that order, both when the block is kept (same `fData`,
capacity and ownership) and when it is reallocated (new owned block); in the remaining case,
a full array of `kMaxCapacity` elements, the call aborts and leaves no array. -/
theorem push_back_appends (c : Target) (a : SkTArray T) (es : List T) (t : T)
    (hroom : AllocatorGivesRoom c) (hcap : a.fCapacity ≤ a.slots.length) (h : Holds a es) :
    ((a.fSize < a.capacity ∨ a.fSize < kMaxCapacity c) →
      ∃ a1, push_back c a t = some a1 ∧ a1.size = (es.length : Int) + 1 ∧
        Holds a1 (es ++ [t]) ∧
        (a.fSize < a.capacity →
          a1.fData = a.fData ∧ a1.fCapacity = a.fCapacity ∧ a1.fOwnMemory = a.fOwnMemory) ∧
        (¬ a.fSize < a.capacity →
          a1.fData = (Allocate c (a.fSize + 1) kGrowing).data ∧ a1.fOwnMemory = true)) ∧
    (¬ (a.fSize < a.capacity ∨ a.fSize < kMaxCapacity c) → push_back c a t = none) := by
  have hsz : a.fSize = (es.length : Int) := h.1
  refine ⟨fun hok => ?_, fun hno => push_back_none c a t (fun x => hno (Or.inl x))
    (fun x => hno (Or.inr x))⟩
  by_cases hspare : a.fSize < a.capacity
  · have h3 : a.capacity - a.fSize ≥ 1 := by omega
    have hlen : es.length < a.slots.length := by
      have : (a.fSize : Int) < (a.fCapacity : Int) := hspare
      omega
    refine ⟨_, by simp [push_back, push_back_raw, checkRealloc, h3]; rfl, ?_, ?_, ?_, ?_⟩
    · simp [size, hsz]
    · refine ⟨by simp [hsz], ?_⟩
      simp only [hsz, write_natCast]
      exact take_set_append a.slots es t hlen (fun i hi => holds_getElem? h i hi)
    · intro _; exact ⟨rfl, rfl, rfl⟩
    · intro hn; exact absurd hspare hn
  · have hmax : a.fSize < kMaxCapacity c := hok.resolve_left hspare
    have h3 : ¬ (a.capacity - a.fSize ≥ 1) := by omega
    have h4 : (1 : Int) ≤ kMaxCapacity c - a.fSize := by omega
    have hr := hroom (a.fSize + 1) kGrowing (by omega) (by omega)
    have hlen : es.length < (rawBlock (T := T) c (Allocate c (a.fSize + 1) kGrowing)).length := by
      simp only [rawBlock, List.length_replicate]
      omega
    refine ⟨_, by simp [push_back, push_back_raw, checkRealloc, h3, h4]; rfl, ?_, ?_, ?_, ?_⟩
    · simp [size, setItemArray, hsz]
    · refine ⟨by simp [setItemArray, hsz], ?_⟩
      simp only [setItemArray, move, hsz, write_natCast, Int.toNat_ofNat]
      have hlen2 : es.length < (moveLoop a.slots
          (rawBlock (T := T) c (Allocate c ((es.length : Int) + 1) kGrowing)) es.length).length := by
        rw [moveLoop_length]; rw [hsz] at hlen; exact hlen
      apply take_set_append _ es t hlen2
      intro i hi
      rw [moveLoop_getElem?]
      rw [hsz] at hlen
      have : i < es.length ∧ i < (rawBlock (T := T) c
          (Allocate c ((es.length : Int) + 1) kGrowing)).length := ⟨hi, by omega⟩
      rw [if_pos this, holds_getElem? h i hi]
      rfl
    · intro hn; exact absurd hn hspare
    · intro _; exact ⟨rfl, rfl⟩

/-- C1, witness: `push_back(30)` on the full two-element array `10, 20` reallocates and
leaves `10, 20, 30` in a block the array owns. -/
theorem push_back_appends_witness :
    ∃ a1, push_back (target64 4) sampleArray 30 = some a1 ∧ a1.size = 3 ∧
      Holds a1 [10, 20, 30] ∧ a1.fOwnMemory = true := by
  obtain ⟨a1, h1, h2, h3, _, h5⟩ :=
    (push_back_appends (target64 4) sampleArray [10, 20] 30
      (sampleAllocate_room 4 (by decide)) (by decide) sampleArray_holds).1
      (Or.inr (by decide))
  exact ⟨a1, h1, h2, h3, (h5 (by decide)).2⟩

/-- C1, counterexample: an `SkTArray<char>` on a 64-bit target holding `INT_MAX` elements in
a block of exactly that capacity.  `push_back` finds no spare capacity, the guard
`delta <= kMaxCapacity - fSize` is `1 <= 0`, and the call aborts: no array of size `k+1` is
left. -/
theorem push_back_full_aborts :
    AllocatorGivesRoom (target64 1) ∧
    (fullArray 2147483647).fCapacity ≤ (fullArray 2147483647).slots.length ∧
    Holds (fullArray 2147483647) (List.replicate 2147483647 0) ∧
    push_back (target64 1) (fullArray 2147483647) 7 = none ∧
    ¬ ∃ a1, push_back (target64 1) (fullArray 2147483647) 7 = some a1 ∧
        a1.size = 2147483647 + 1 := by
  have hnone : push_back (target64 1) (fullArray 2147483647) 7 = none :=
    push_back_none _ _ _ (fullArray_noSpare _) fullArray_atMax
  refine ⟨sampleAllocate_room 1 (by decide), fullArray_block _, fullArray_holds _, hnone, ?_⟩
  rintro ⟨a1, h1, _⟩
  rw [hnone] at h1
  exact Option.noConfusion h1

/-- C2: for every SkTArray, `reset()` leaves `size() == 0` and `empty()` true, and
`capacity()`, the storage pointer `fData`, the ownership flag and the number of slots of the
block are what they were before the call; every element the array held has been destroyed. -/
theorem reset_keeps_storage (a : SkTArray T) :
    a.reset.size = 0 ∧ a.reset.empty = true ∧ a.reset.capacity = a.capacity ∧
    a.reset.fData = a.fData ∧ a.reset.fOwnMemory = a.fOwnMemory ∧
    a.reset.slots.length = a.slots.length ∧
    (∀ i : Int, 0 ≤ i → i < a.fSize → a.reset.get i = none) := by
  refine ⟨by simp [reset, pop_back_n, size], by simp [reset, pop_back_n, empty], rfl, rfl, rfl,
    by simp [reset, pop_back_n, destroyLoop_length], ?_⟩
  intro i h0 h1
  have hz : a.fSize - a.fSize = ((0 : Nat) : Int) := by simp
  simp only [get, reset, pop_back_n, Slots.read, if_pos h0, hz, List.get?_eq_getElem?]
  rw [destroyLoop_getElem?]
  by_cases hlen : i.toNat < a.slots.length
  · rw [if_pos ⟨Nat.zero_le _, by omega, hlen⟩]
    rfl
  · rw [if_neg (fun hc => hlen hc.2.2), List.getElem?_eq_none (by omega)]
    rfl

end SkTArray

end Skia

namespace Skia

/-! ## The reference encoder `h` -/

theorem and_signBit (sem : Nat) : sem &&& 0x80000000 = (sem / 2 ^ 31 % 2) * 2 ^ 31 := by
  have h1 : (0x80000000 : Nat) = 2 ^ 31 := by norm_num
  rw [h1, Nat.and_two_pow, Nat.testBit_to_div_mod]
  rcases Nat.mod_two_eq_zero_or_one (sem / 2 ^ 31) with h | h <;> rw [h] <;> rfl

theorem xor_signBit (sem : Nat) (hsem : sem < 2 ^ 32) :
    sem ^^^ (sem &&& 0x80000000) = sem % 2 ^ 31 := by
  have h1 : (0x80000000 : Nat) = 2 ^ 31 := by norm_num
  rw [h1]
  apply Nat.eq_of_testBit_eq
  intro i
  rw [Nat.testBit_xor, Nat.testBit_and, Nat.testBit_two_pow, Nat.testBit_mod_two_pow]
  by_cases h31 : i < 31
  · have : ¬ (31 = i) := by omega
    simp [h31, this]
  · by_cases h32 : i = 31
    · subst h32; simp
    · have hlt : sem < 2 ^ i := lt_of_lt_of_le hsem (Nat.pow_le_pow_right (by norm_num) (by omega))
      have : ¬ (31 = i) := by omega
      simp [h31, this, Nat.testBit_lt_two_pow hlt]

/-- The encoder `h` in arithmetic: zero below `0x38800000`, otherwise the sign moved to bit
15 plus the exponent and mantissa shifted right by 13 and rebiased, as a `uint16_t`. -/
theorem h_arith (sem : Nat) (hsem : sem < 2 ^ 32) :
    h sem = if sem % 2 ^ 31 < 0x38800000 then 0
      else ((sem / 2 ^ 31) * 2 ^ 15 + (sem % 2 ^ 31) / 2 ^ 13 - 114688) % 2 ^ 16 := by
  have hx := xor_signBit sem hsem
  have ha := and_signBit sem
  simp only [h]
  rw [hx, ha]
  simp only [toInt32, SkTo_uint16, Nat.shiftRight_eq_div_pow, Nat.shiftLeft_eq]
  have hlt : sem % 2 ^ 31 < 2 ^ 31 := Nat.mod_lt _ (by norm_num)
  simp only [hlt, if_true]
  by_cases hd : sem % 2 ^ 31 < 0x38800000
  · rw [if_pos hd, if_pos (by simp only [decide_eq_true_eq]; omega)]
    rfl
  · rw [if_neg hd, if_neg (by simp only [decide_eq_true_eq]; omega)]
    omega

theorem abs_floatValue (b : Nat) :
    |floatValue b| = if b / 2 ^ 23 % 256 = 0 then ((b % 2 ^ 23 : Nat) : ℚ) / 2 ^ 149
      else (2 ^ 23 + ((b % 2 ^ 23 : Nat) : ℚ)) * 2 ^ (b / 2 ^ 23 % 256) / 2 ^ 150 := by
  simp only [floatValue]
  have hm : (0 : ℚ) ≤ ((b % 2 ^ 23 : Nat) : ℚ) := Nat.cast_nonneg _
  split_ifs <;> simp only [abs_div, abs_mul, abs_neg, abs_one, one_mul, abs_pow] <;>
    rw [abs_of_nonneg (by positivity : (0:ℚ) ≤ _)] <;>
    try rw [abs_of_nonneg (by positivity : (0:ℚ) ≤ _)]

/-- The patterns below `0x38800000` once the sign bit is cleared are exactly those of
magnitude below `2^-14`. -/
theorem small_iff (sem : Nat) :
    sem % 2 ^ 31 < 0x38800000 ↔ |floatValue sem| < 1 / 2 ^ 14 := by
  rw [abs_floatValue]
  have hM : sem % 2 ^ 23 < 2 ^ 23 := Nat.mod_lt _ (by norm_num)
  have hMq : ((sem % 2 ^ 23 : Nat) : ℚ) < 8388608 := by exact_mod_cast hM
  have hM0 : (0 : ℚ) ≤ ((sem % 2 ^ 23 : Nat) : ℚ) := Nat.cast_nonneg _
  have hiff : sem % 2 ^ 31 < 0x38800000 ↔ sem / 2 ^ 23 % 256 ≤ 112 := by omega
  rw [hiff]
  generalize ((sem % 2 ^ 23 : Nat) : ℚ) = m at hMq hM0 ⊢
  generalize sem / 2 ^ 23 % 256 = E
  by_cases hE : E = 0
  · rw [if_pos hE]
    constructor
    · intro _
      rw [div_lt_div_iff₀ (by positivity) (by positivity)]
      norm_num
      linarith
    · intro _
      omega
  · rw [if_neg hE]
    have hp0 : (0 : ℚ) < 2 ^ E := by positivity
    constructor
    · intro hE2
      have hp : (2 : ℚ) ^ E ≤ 2 ^ 112 := pow_le_pow_right₀ (by norm_num) hE2
      have := mul_lt_mul (show (2 ^ 23 + m) < 2 ^ 24 by linarith) hp hp0 (by positivity)
      rw [div_lt_div_iff₀ (by positivity) (by positivity)]
      norm_num at this ⊢
      linarith
    · intro hlt
      by_contra hge
      have hE2 : 113 ≤ E := by omega
      have hp : (2 : ℚ) ^ 113 ≤ 2 ^ E := pow_le_pow_right₀ (by norm_num) hE2
      have := mul_le_mul (show (2 : ℚ) ^ 23 ≤ (2 ^ 23 + m) by linarith) hp
        (by positivity) (by positivity)
      rw [div_lt_div_iff₀ (by positivity) (by positivity)] at hlt
      norm_num at this hlt
      linarith

/-- The patterns up to `0x477fe000` once the sign bit is cleared are exactly those of
magnitude at most `65504`, the largest finite half-float. -/
theorem le_max_iff (sem : Nat) :
    sem % 2 ^ 31 ≤ 0x477fe000 ↔ |floatValue sem| ≤ 65504 := by
  rw [abs_floatValue]
  have hM : sem % 2 ^ 23 < 2 ^ 23 := Nat.mod_lt _ (by norm_num)
  have hMq : ((sem % 2 ^ 23 : Nat) : ℚ) < 8388608 := by exact_mod_cast hM
  have hM0 : (0 : ℚ) ≤ ((sem % 2 ^ 23 : Nat) : ℚ) := Nat.cast_nonneg _
  have hiff : sem % 2 ^ 31 ≤ 0x477fe000 ↔
      (sem / 2 ^ 23 % 256 ≤ 141 ∨ (sem / 2 ^ 23 % 256 = 142 ∧ sem % 2 ^ 23 ≤ 0x7fe000)) := by
    omega
  have hcast : sem % 2 ^ 23 ≤ 0x7fe000 ↔ ((sem % 2 ^ 23 : Nat) : ℚ) ≤ 8380416 := by
    constructor
    · intro hle; exact_mod_cast hle
    · intro hle; exact_mod_cast hle
  rw [hiff, hcast]
  generalize ((sem % 2 ^ 23 : Nat) : ℚ) = m at hMq hM0 ⊢
  generalize sem / 2 ^ 23 % 256 = E
  by_cases hE : E = 0
  · rw [if_pos hE]
    constructor
    · intro _
      rw [div_le_iff₀ (by positivity)]
      norm_num
      linarith
    · intro _
      exact Or.inl (by omega)
  · rw [if_neg hE]
    have hp0 : (0 : ℚ) < 2 ^ E := by positivity
    constructor
    · rintro (hE2 | ⟨hE2, hm⟩)
      · have hp : (2 : ℚ) ^ E ≤ 2 ^ 141 := pow_le_pow_right₀ (by norm_num) hE2
        have := mul_le_mul (show (2 ^ 23 + m) ≤ 2 ^ 24 by linarith) hp (le_of_lt hp0)
          (by positivity)
        rw [div_le_iff₀ (by positivity)]
        norm_num at this ⊢
        linarith
      · subst hE2
        rw [div_le_iff₀ (by positivity)]
        norm_num
        linarith
    · intro hle
      by_contra hno
      rw [div_le_iff₀ (by positivity)] at hle
      by_cases hE3 : E = 142
      · subst hE3
        have hm : ¬ m ≤ 8380416 := fun hc => hno (Or.inr ⟨rfl, hc⟩)
        norm_num at hle
        linarith
      · have hE4 : 143 ≤ E := by
          by_contra hc
          exact hno (Or.inl (by omega))
        have hp : (2 : ℚ) ^ 143 ≤ 2 ^ E := pow_le_pow_right₀ (by norm_num) hE4
        have := mul_le_mul (show (2 : ℚ) ^ 23 ≤ (2 ^ 23 + m) by linarith) hp
          (by positivity) (by positivity)
        norm_num at this hle
        linarith

/-- The fields of `h sem` for a float of magnitude in `[2^-14, 65536)`: same sign bit,
exponent field rebiased by 112, mantissa cut to its top 10 bits. -/
theorem h_fields (sem : Nat) (hsem : sem < 2 ^ 32)
    (hlo : 0x38800000 ≤ sem % 2 ^ 31) (hhi : sem % 2 ^ 31 < 0x47800000) :
    h sem = (sem / 2 ^ 31) * 2 ^ 15 + ((sem / 2 ^ 23 % 256 - 112) * 2 ^ 10 + sem % 2 ^ 23 / 2 ^ 13) ∧
    h sem / 2 ^ 15 % 2 = sem / 2 ^ 31 % 2 ∧
    h sem / 2 ^ 10 % 32 = sem / 2 ^ 23 % 256 - 112 ∧
    h sem % 2 ^ 10 = sem % 2 ^ 23 / 2 ^ 13 ∧
    113 ≤ sem / 2 ^ 23 % 256 ∧ sem / 2 ^ 23 % 256 ≤ 142 := by
  rw [h_arith sem hsem, if_neg (by omega)]
  refine ⟨by omega, by omega, by omega, by omega, by omega, by omega⟩

/-- The values of `h sem` and of `sem` for a float of magnitude in `[2^-14, 65536)`: a common
sign `σ`, magnitudes `a` for the half and `b` for the float with `a ≤ b < a + u`, where `u`
is the spacing of half-floats at `h sem`, and `a = b` when the low 13 bits of `sem` are 0. -/
theorem h_values (sem : Nat) (hsem : sem < 2 ^ 32)
    (hlo : 0x38800000 ≤ sem % 2 ^ 31) (hhi : sem % 2 ^ 31 < 0x47800000) :
    ∃ (σ a b u : ℚ), (σ = 1 ∨ σ = -1) ∧ 0 < a ∧ a ≤ b ∧ b < a + u ∧
      u = 2 ^ (h sem / 2 ^ 10 % 32) / 2 ^ 25 ∧
      halfValue (h sem) = σ * a ∧ floatValue sem = σ * b ∧
      (sem % 2 ^ 13 = 0 → a = b) := by
  obtain ⟨_, hS, hE, hM, hE1, hE2⟩ := h_fields sem hsem hlo hhi
  have hEeq : sem / 2 ^ 23 % 256 = (sem / 2 ^ 23 % 256 - 112) + 112 := by omega
  have hm1 : sem % 2 ^ 23 / 2 ^ 13 * 8192 ≤ sem % 2 ^ 23 := by omega
  have hm2 : sem % 2 ^ 23 < (sem % 2 ^ 23 / 2 ^ 13 + 1) * 8192 := by omega
  have hm3 : sem % 2 ^ 13 = 0 → sem % 2 ^ 23 = sem % 2 ^ 23 / 2 ^ 13 * 8192 := by omega
  have hE0 : sem / 2 ^ 23 % 256 ≠ 0 := by omega
  have he0 : sem / 2 ^ 23 % 256 - 112 ≠ 0 := by omega
  simp only [halfValue, floatValue, hS, hE, hM, if_neg hE0, if_neg he0]
  rw [hEeq]
  simp only [Nat.add_sub_cancel]
  generalize sem / 2 ^ 23 % 256 - 112 = e
  have hq1 : ((sem % 2 ^ 23 / 2 ^ 13 : Nat) : ℚ) * 8192 ≤ ((sem % 2 ^ 23 : Nat) : ℚ) := by
    exact_mod_cast hm1
  have hq2 : ((sem % 2 ^ 23 : Nat) : ℚ) < (((sem % 2 ^ 23 / 2 ^ 13 : Nat) : ℚ) + 1) * 8192 := by
    exact_mod_cast hm2
  have hq3 : sem % 2 ^ 13 = 0 →
      ((sem % 2 ^ 23 : Nat) : ℚ) = ((sem % 2 ^ 23 / 2 ^ 13 : Nat) : ℚ) * 8192 := by
    intro h0; exact_mod_cast hm3 h0
  have hn0 : (0 : ℚ) ≤ ((sem % 2 ^ 23 / 2 ^ 13 : Nat) : ℚ) := Nat.cast_nonneg _
  generalize ((sem % 2 ^ 23 / 2 ^ 13 : Nat) : ℚ) = m16 at hq1 hq2 hq3 hn0 ⊢
  generalize ((sem % 2 ^ 23 : Nat) : ℚ) = M at hq1 hq2 hq3 ⊢
  have hp : (0 : ℚ) < 2 ^ e := by positivity
  refine ⟨(if sem / 2 ^ 31 % 2 = 1 then -1 else 1), (1024 + m16) * 8192 * (2 ^ e / 2 ^ 38),
    (2 ^ 23 + M) * (2 ^ e / 2 ^ 38), 8192 * (2 ^ e / 2 ^ 38), ?_, ?_, ?_, ?_, ?_, ?_, ?_, ?_⟩
  · split_ifs <;> simp
  · positivity
  · apply mul_le_mul_of_nonneg_right _ (by positivity)
    linarith
  · have hpos : (0 : ℚ) < 2 ^ e / 2 ^ 38 := by positivity
    nlinarith
  · ring
  · ring
  · rw [pow_add]; ring
  · intro h0
    rw [hq3 h0]; ring

/-- C7: for every integer `k` from 0 to 33, the binary32 pattern of `k` denotes `k`, and `h`
maps it to the binary16 pattern of `k`, which denotes `k`; in particular `h(0.0) = 0x0000`,
`h(1.0) = 0x3c00` and `h(0.5) = 0x3800`. -/
theorem h_small_integers (k : Nat) (hk : k ≤ 33) :
    floatValue (floatOfNat k) = (k : ℚ) ∧ halfValue (h (floatOfNat k)) = (k : ℚ) ∧
    h (floatOfNat k) = halfOfNat k ∧ h (floatOfNat k) < 2 ^ 15 ∧
    (floatValue 0 = 0 ∧ h 0 = 0x0000) ∧
    (floatValue 0x3f800000 = 1 ∧ h 0x3f800000 = 0x3c00 ∧ halfValue 0x3c00 = 1) ∧
    (floatValue 0x3f000000 = 1 / 2 ∧ h 0x3f000000 = 0x3800 ∧ halfValue 0x3800 = 1 / 2) := by
  have hh : h (floatOfNat k) = halfOfNat k := by
    revert k; decide
  have hlt : h (floatOfNat k) < 2 ^ 15 := by
    revert k; decide
  refine ⟨?_, ?_, hh, hlt, ⟨?_, by decide⟩, ⟨?_, by decide, ?_⟩, ⟨?_, by decide, ?_⟩⟩
  · interval_cases k <;> norm_num [floatValue, floatOfNat, log2Floor]
  · rw [hh]
    interval_cases k <;> norm_num [halfValue, halfOfNat, log2Floor]
  all_goals norm_num [floatValue, halfValue]

/-- C7, witness: the largest test value, `33.0f = 0x42040000`, is encoded as `0x5020`. -/
theorem h_small_integers_witness :
    floatOfNat 33 = 0x42040000 ∧ h 0x42040000 = 0x5020 ∧ halfValue 0x5020 = 33 := by
  have hw := h_small_integers 33 (by decide)
  have h1 : floatOfNat 33 = 0x42040000 := by decide
  have h2 : h 0x42040000 = 0x5020 := by decide
  refine ⟨h1, h2, ?_⟩
  rw [← h2, ← h1]
  exact_mod_cast hw.2.1

/-- C8: `h` returns `0x0000` for every float whose bit pattern with the sign bit cleared is
below `0x38800000`; these are exactly the patterns of magnitude below `2^-14`, and they
include every pattern with exponent field 0 (both zeros and all float denormals), whatever
the sign bit. -/
theorem h_flushes_small (sem : Nat) (hsem : sem < 2 ^ 32) :
    (sem % 2 ^ 31 < 0x38800000 ↔ |floatValue sem| < 1 / 2 ^ 14) ∧
    (sem % 2 ^ 31 < 0x38800000 → h sem = 0x0000) ∧
    (sem / 2 ^ 23 % 256 = 0 → h sem = 0x0000) := by
  refine ⟨small_iff sem, fun hlt => ?_, fun hE => ?_⟩
  · rw [h_arith sem hsem, if_pos hlt]
  · rw [h_arith sem hsem, if_pos (by omega)]

/-- C8, witness: the negative float just below `2^-14` in magnitude, `0xb87fffff`, and
negative zero are flushed to `0x0000`. -/
theorem h_flushes_small_witness : h 0xb87fffff = 0x0000 ∧ h 0x80000000 = 0x0000 :=
  ⟨(h_flushes_small 0xb87fffff (by decide)).2.1 (by decide),
   (h_flushes_small 0x80000000 (by decide)).2.2 (by decide)⟩

/-- C9 (amended): for every 32-bit float whose magnitude lies in `[2^-14, 65504]`, `h`
returns the binary16 pattern with the same sign bit, the exponent rebiased and the mantissa
cut to its top 10 bits: the half-float of the same sign obtained by rounding toward zero
(its magnitude is at most the float's and less than one half-float spacing below it), which
is the exact IEEE 754 binary16 encoding whenever the low 13 mantissa bits of the float are
zero. -/
theorem h_rounds_toward_zero (sem : Nat) (hsem : sem < 2 ^ 32)
    (hlo : 1 / 2 ^ 14 ≤ |floatValue sem|) (hhi : |floatValue sem| ≤ 65504) :
    h sem = (sem / 2 ^ 31) * 2 ^ 15 + ((sem / 2 ^ 23 % 256 - 112) * 2 ^ 10 + sem % 2 ^ 23 / 2 ^ 13) ∧
    (floatValue sem < 0 ↔ halfValue (h sem) < 0) ∧
    |halfValue (h sem)| ≤ |floatValue sem| ∧
    |floatValue sem| < |halfValue (h sem)| + 2 ^ (h sem / 2 ^ 10 % 32) / 2 ^ 25 ∧
    (sem % 2 ^ 13 = 0 → halfValue (h sem) = floatValue sem) := by
  have hlo1 : 0x38800000 ≤ sem % 2 ^ 31 := by
    by_contra hc
    exact absurd ((small_iff sem).1 (by omega)) (not_lt.2 hlo)
  have hhi1 : sem % 2 ^ 31 ≤ 0x477fe000 := (le_max_iff sem).2 hhi
  obtain ⟨hval, -⟩ := h_fields sem hsem hlo1 (by omega)
  obtain ⟨σ, a, b, u, hσ, ha, hab, hbu, hu, hh, hf, hex⟩ := h_values sem hsem hlo1 (by omega)
  have hb : 0 < b := lt_of_lt_of_le ha hab
  rw [hh, hf, ← hu]
  refine ⟨hval, ?_, ?_, ?_, ?_⟩
  · rcases hσ with h1 | h1 <;> rw [h1] <;> constructor <;> intro hx <;> linarith
  · rcases hσ with h1 | h1 <;> rw [h1] <;> simp [abs_of_pos ha, abs_of_pos hb, hab]
  · rcases hσ with h1 | h1 <;> rw [h1] <;> simp [abs_of_pos ha, abs_of_pos hb, hbu]
  · intro h0
    rw [hex h0]

theorem floatValue_ten : floatValue 0x41200000 = 10 := by
  norm_num [floatValue]

/-- C9, witness: `10.0f = 0x41200000` is representable in binary16 and `h` encodes it
exactly, as `0x4900`. -/
theorem h_rounds_toward_zero_witness :
    h 0x41200000 = 0x4900 ∧ halfValue (h 0x41200000) = floatValue 0x41200000 :=
  ⟨by decide,
   (h_rounds_toward_zero 0x41200000 (by decide)
      (by rw [floatValue_ten]; norm_num) (by rw [floatValue_ten]; norm_num)).2.2.2.2
      (by decide)⟩

/-- C9, counterexample: the float `0x3f801800 = 1 + 3/4096` lies in the normal binary16
range; `h` returns `0x3c00 = 1.0`, at distance `3/4096`, while the half-float
`0x3c01 = 1 + 1/1024` is at distance `1/4096`: the result is not the nearest half-float. -/
theorem h_not_nearest :
    floatValue 0x3f801800 = 1 + 3 / 4096 ∧
    h 0x3f801800 = 0x3c00 ∧ halfValue 0x3c00 = 1 ∧ halfValue 0x3c01 = 1 + 1 / 1024 ∧
    |halfValue 0x3c01 - floatValue 0x3f801800| <
      |halfValue (h 0x3f801800) - floatValue 0x3f801800| := by
  have h1 : h 0x3f801800 = 0x3c00 := by decide
  have e0 : floatValue 0x3f801800 = 1 + 3 / 4096 := by norm_num [floatValue]
  have e1 : halfValue 0x3c01 = 1 + 1 / 1024 := by norm_num [halfValue]
  have e2 : halfValue 0x3c00 = 1 := by norm_num [halfValue]
  refine ⟨e0, h1, e2, e1, ?_⟩
  have d1 : (1 + 1 / 1024 : ℚ) - (1 + 3 / 4096) = 1 / 4096 := by norm_num
  have d2 : (1 : ℚ) - (1 + 3 / 4096) = -(3 / 4096) := by norm_num
  rw [h1, e0, e1, e2, d1, d2, abs_neg, abs_of_pos (by norm_num), abs_of_pos (by norm_num)]
  norm_num

end Skia

namespace Skia

/-! ## The raster pipeline -/

/-- The result of `log2Floor` brackets `k` between two consecutive powers of two. -/
theorem log2Floor_spec (fuel k : Nat) (hk : 0 < k) (hf : k ≤ fuel) :
    2 ^ log2Floor fuel k ≤ k ∧ k < 2 ^ (log2Floor fuel k + 1) := by
  induction fuel generalizing k with
  | zero => omega
  | succ fuel ih =>
    simp only [log2Floor]
    split
    · simp only [pow_zero, zero_add, pow_one]; omega
    · have := ih (k / 2) (by omega) (by omega)
      generalize log2Floor fuel (k / 2) = L at this ⊢
      have h1 : 2 ^ (L + 1) = 2 * 2 ^ L := by ring
      have h2 : 2 ^ (L + 1 + 1) = 2 * 2 ^ (L + 1) := by ring
      rw [h2]
      rw [h1] at this ⊢
      generalize 2 ^ L = P at this ⊢
      omega

namespace RasterPipeline

/-- The widening of `load_f16` is exact: a finite binary16 pattern and its binary32 image
denote the same number, denormals included. -/
theorem halfToFloat_exact (hb : Nat) (hlt : hb < 2 ^ 16) (hfin : hb / 2 ^ 10 % 32 ≠ 31) :
    floatValue (halfToFloat hb) = halfValue hb := by
  have hs2 : hb / 2 ^ 15 % 2 = hb / 2 ^ 15 := by omega
  have hs1 : hb / 2 ^ 15 < 2 := by omega
  have hm : hb % 2 ^ 10 < 2 ^ 10 := Nat.mod_lt _ (by norm_num)
  by_cases he : hb / 2 ^ 10 % 32 = 0
  · by_cases hm0 : hb % 2 ^ 10 = 0
    · have hv : halfToFloat hb = hb / 2 ^ 15 % 2 * 2 ^ 31 := by
        simp only [halfToFloat]; rw [if_pos he, if_pos hm0]
      have hS : (hb / 2 ^ 15 % 2 * 2 ^ 31) / 2 ^ 31 % 2 = hb / 2 ^ 15 % 2 := by omega
      have hE : (hb / 2 ^ 15 % 2 * 2 ^ 31) / 2 ^ 23 % 256 = 0 := by omega
      have hM : (hb / 2 ^ 15 % 2 * 2 ^ 31) % 2 ^ 23 = 0 := by omega
      rw [hv]
      simp only [floatValue, halfValue, hS, hE, hM, he, hm0, if_true]
      simp
    · obtain ⟨hk1, hk2⟩ := log2Floor_spec (hb % 2 ^ 10) (hb % 2 ^ 10) (by omega) (le_refl _)
      have hv : halfToFloat hb = hb / 2 ^ 15 % 2 * 2 ^ 31 +
          (log2Floor (hb % 2 ^ 10) (hb % 2 ^ 10) + 103) * 2 ^ 23 +
          (hb % 2 ^ 10 - 2 ^ log2Floor (hb % 2 ^ 10) (hb % 2 ^ 10)) *
            2 ^ (23 - log2Floor (hb % 2 ^ 10) (hb % 2 ^ 10)) := by
        simp only [halfToFloat]; rw [if_pos he, if_neg hm0]
      rw [hv]
      simp only [halfValue, he, if_true]
      generalize log2Floor (hb % 2 ^ 10) (hb % 2 ^ 10) = k at hk1 hk2 ⊢
      generalize hb % 2 ^ 10 = m at hm hm0 hk1 hk2 ⊢
      generalize hb / 2 ^ 15 % 2 = sg at hs2 ⊢
      have hsg : sg < 2 := by omega
      have hk : k < 10 := by
        by_contra hc
        have : 2 ^ 10 ≤ 2 ^ k := Nat.pow_le_pow_right (by norm_num) (by omega)
        omega
      have hPQ : 2 ^ k * 2 ^ (23 - k) = 2 ^ 23 := by
        rw [← pow_add]; congr 1; omega
      have hpow : (2 : ℚ) ^ (23 - k) * 2 ^ (k + 103) = 2 ^ 126 := by
        rw [← pow_add]; congr 1; omega
      have hk2b : m < 2 * 2 ^ k := by rw [pow_succ] at hk2; omega
      have hQ0 : 0 < 2 ^ (23 - k) := by positivity
      have hMlt : (m - 2 ^ k) * 2 ^ (23 - k) < 2 ^ 23 := by
        rw [← hPQ]
        exact Nat.mul_lt_mul_of_pos_right (by omega) hQ0
      have hMq : (2 : ℚ) ^ 23 + (((m - 2 ^ k) * 2 ^ (23 - k) : Nat) : ℚ) =
          (m : ℚ) * 2 ^ (23 - k) := by
        have hq : ((2 ^ k * 2 ^ (23 - k) : Nat) : ℚ) = 2 ^ 23 := by rw [hPQ]; norm_num
        push_cast [Nat.cast_sub hk1] at hq ⊢
        rw [← hq]
        ring
      generalize (m - 2 ^ k) * 2 ^ (23 - k) = M1 at hMlt hMq ⊢
      have hS : (sg * 2 ^ 31 + (k + 103) * 2 ^ 23 + M1) / 2 ^ 31 % 2 = sg := by omega
      have hE : (sg * 2 ^ 31 + (k + 103) * 2 ^ 23 + M1) / 2 ^ 23 % 256 = k + 103 := by omega
      have hM : (sg * 2 ^ 31 + (k + 103) * 2 ^ 23 + M1) % 2 ^ 23 = M1 := by omega
      simp only [floatValue, hS, hE, hM, if_neg (Nat.succ_ne_zero (k + 102))]
      rw [mul_assoc, hMq, mul_assoc (m : ℚ), hpow]
      ring
  · have hv : halfToFloat hb = hb / 2 ^ 15 % 2 * 2 ^ 31 + (hb / 2 ^ 10 % 32 + 112) * 2 ^ 23 +
        hb % 2 ^ 10 * 2 ^ 13 := by
      simp only [halfToFloat]; rw [if_neg he, if_neg hfin]
    have hS : (hb / 2 ^ 15 % 2 * 2 ^ 31 + (hb / 2 ^ 10 % 32 + 112) * 2 ^ 23 +
        hb % 2 ^ 10 * 2 ^ 13) / 2 ^ 31 % 2 = hb / 2 ^ 15 % 2 := by omega
    have hE : (hb / 2 ^ 15 % 2 * 2 ^ 31 + (hb / 2 ^ 10 % 32 + 112) * 2 ^ 23 +
        hb % 2 ^ 10 * 2 ^ 13) / 2 ^ 23 % 256 = hb / 2 ^ 10 % 32 + 112 := by omega
    have hM : (hb / 2 ^ 15 % 2 * 2 ^ 31 + (hb / 2 ^ 10 % 32 + 112) * 2 ^ 23 +
        hb % 2 ^ 10 * 2 ^ 13) % 2 ^ 23 = hb % 2 ^ 10 * 2 ^ 13 := by omega
    rw [hv]
    simp only [floatValue, halfValue, hS, hE, hM, if_neg he, Nat.add_eq_zero, reduceCtorEq,
      OfNat.ofNat_ne_zero, and_false, if_false]
    push_cast
    rw [pow_add]
    ring

/-- What `floatScaled` returns is the value of the pattern times `2^149`. -/
theorem floatScaled_sound (b n : Nat) (hb : floatScaled b = some n) :
    floatValue b = (n : ℚ) / 2 ^ 149 := by
  simp only [floatScaled] at hb
  split at hb
  · rename_i hc
    obtain ⟨h31, he⟩ := hc
    have hs : b / 2 ^ 31 % 2 = 0 := by omega
    have hsign : (if b / 2 ^ 31 % 2 = 1 then (-1 : ℚ) else 1) = 1 := by rw [hs]; simp
    simp only [floatValue]
    rw [hsign]
    by_cases h0 : b / 2 ^ 23 % 256 = 0
    · rw [if_pos h0] at hb ⊢
      cases hb
      ring
    · rw [if_neg h0] at hb ⊢
      cases hb
      have he1 : b / 2 ^ 23 % 256 = (b / 2 ^ 23 % 256 - 1) + 1 := by omega
      generalize b / 2 ^ 23 % 256 - 1 = e1 at he1
      rw [he1]
      push_cast
      rw [pow_succ]
      ring
  · cases hb

/-- What `floatOfScaled` returns is a pattern of the requested value. -/
theorem floatOfScaled_sound (n b : Nat) (hn : floatOfScaled n = some b) :
    floatValue b = (n : ℚ) / 2 ^ 149 ∧ floatScaled b = some n := by
  simp only [floatOfScaled] at hn
  split at hn
  · rename_i hlt
    cases hn
    have hsc : floatScaled n = some n := by
      simp only [floatScaled]
      rw [if_pos ⟨by omega, by omega⟩]
      by_cases h0 : n / 2 ^ 23 % 256 = 0
      · rw [if_pos h0]; congr 1; omega
      · rw [if_neg h0]
        have h1 : n / 2 ^ 23 % 256 = 1 := by omega
        rw [h1]; congr 1; omega
    exact ⟨floatScaled_sound n n hsc, hsc⟩
  · rename_i hge
    generalize log2Floor n n - 23 = k at hn
    by_cases hc : n % 2 ^ k = 0 ∧ 2 ^ 23 ≤ n / 2 ^ k ∧ n / 2 ^ k < 2 ^ 24 ∧ k + 1 ≤ 254
    · simp only [hc, and_self, if_true, Option.some.injEq] at hn
      obtain ⟨hmod, hq1, hq2, hk⟩ := hc
      subst hn
      have hnq : n = n / 2 ^ k * 2 ^ k := (Nat.div_mul_cancel (Nat.dvd_of_mod_eq_zero hmod)).symm
      clear hmod
      generalize n / 2 ^ k = q at hq1 hq2 hnq ⊢
      have hE : ((k + 1) * 2 ^ 23 + (q - 2 ^ 23)) / 2 ^ 23 % 256 = k + 1 := by
        clear hnq; omega
      have hM : ((k + 1) * 2 ^ 23 + (q - 2 ^ 23)) % 2 ^ 23 = q - 2 ^ 23 := by
        clear hnq; omega
      have h31 : (k + 1) * 2 ^ 23 + (q - 2 ^ 23) < 2 ^ 31 := by
        clear hnq; omega
      have hq3 : 2 ^ 23 + (q - 2 ^ 23) = q := by
        clear hnq; omega
      have hsc : floatScaled ((k + 1) * 2 ^ 23 + (q - 2 ^ 23)) = some n := by
        simp only [floatScaled]
        rw [if_pos ⟨h31, by rw [hE]; clear hnq; omega⟩, hE, hM,
          if_neg (Nat.succ_ne_zero k), Nat.add_sub_cancel, hq3]
        exact congrArg some hnq.symm
      exact ⟨floatScaled_sound _ n hsc, hsc⟩
    · simp only [hc, if_false] at hn
      cases hn

theorem floatValue_one : floatValue 0x3f800000 = 1 := by
  norm_num [floatValue]

/-- When `faddExact` returns a pattern, its value is the exact sum. -/
theorem faddExact_sound (x y z : Nat) (hz : faddExact x y = some z) :
    floatValue z = floatValue x + floatValue y := by
  simp only [faddExact] at hz
  split at hz
  · rename_i sx sy hx hy
    rw [(floatOfScaled_sound _ z hz).1, floatScaled_sound x sx hx, floatScaled_sound y sy hy]
    push_cast
    ring
  · cases hz

/-- When `fsubExact` returns a pattern, its value is the exact difference. -/
theorem fsubExact_sound (x y z : Nat) (hz : fsubExact x y = some z) :
    floatValue z = floatValue x - floatValue y := by
  simp only [fsubExact] at hz
  split at hz
  · rename_i sx sy hx hy
    split at hz
    · rename_i hle
      rw [(floatOfScaled_sound _ z hz).1, floatScaled_sound x sx hx, floatScaled_sound y sy hy]
      push_cast [Nat.cast_sub hle]
      ring
    · cases hz
  · cases hz

/-- When `fmulExact` returns a pattern, its value is the exact product. -/
theorem fmulExact_sound (x y z : Nat) (hz : fmulExact x y = some z) :
    floatValue z = floatValue x * floatValue y := by
  simp only [fmulExact] at hz
  split at hz
  · rename_i sx sy hx hy
    split at hz
    · rename_i hdiv
      have hp : sx * sy = sx * sy / 2 ^ 149 * 2 ^ 149 :=
        (Nat.div_mul_cancel (Nat.dvd_of_mod_eq_zero hdiv)).symm
      rw [(floatOfScaled_sound _ z hz).1, floatScaled_sound x sx hx, floatScaled_sound y sy hy]
      have hq : ((sx : ℚ) * sy) = ((sx * sy / 2 ^ 149 : Nat) : ℚ) * 2 ^ 149 := by
        exact_mod_cast hp
      rw [div_mul_div_comm, hq]
      field_simp
      ring
    · cases hz
  · cases hz

/-- When `srcoverChannel` returns a pattern, its value is `s + d * (1 - sa)` exactly. -/
theorem srcoverChannel_sound (s d sa z : Nat) (hz : srcoverChannel s d sa = some z) :
    floatValue z = floatValue s + floatValue d * (1 - floatValue sa) := by
  simp only [srcoverChannel] at hz
  split at hz
  · cases hz
  · rename_i inv hinv
    split at hz
    · cases hz
    · rename_i t ht
      rw [faddExact_sound s t z hz, fmulExact_sound d inv t ht,
        fsubExact_sound _ sa inv hinv, floatValue_one]

theorem copyRow_zero (rt : Nat → Nat) (src dst y x : Nat) (mem : Memory) :
    copyRow rt src dst y x 0 mem = mem := by
  funext b r c
  simp only [copyRow]
  rw [if_neg (by omega)]

theorem copyRow_copyRow (rt : Nat → Nat) (src dst y x a w : Nat) (mem : Memory) :
    copyRow rt src dst y (x + a) w (copyRow rt src dst y x a mem) =
      copyRow rt src dst y x (a + w) mem := by
  funext b r c
  simp only [copyRow]
  by_cases h1 : b = dst ∧ r = y ∧ x + a ≤ c ∧ c < x + a + w
  · have hin : ¬ (src = dst ∧ True ∧ x ≤ c ∧ c < x + a) := by omega
    have hout : b = dst ∧ r = y ∧ x ≤ c ∧ c < x + (a + w) := by omega
    rw [if_pos h1, if_neg hin, if_pos hout]
  · rw [if_neg h1]
    by_cases h2 : b = dst ∧ r = y ∧ x ≤ c ∧ c < x + a
    · rw [if_pos h2, if_pos (by omega)]
    · rw [if_neg h2, if_neg (by omega)]

theorem runBatches_append (prec : Precision) (stages : List StageRecord) (l1 l2 : List Batch)
    (mem : Memory) :
    runBatches prec stages (l1 ++ l2) mem =
      (runBatches prec stages l1 mem).bind (runBatches prec stages l2) := by
  induction l1 generalizing mem with
  | nil => rfl
  | cons bt rest ih =>
    simp only [List.cons_append, runBatches]
    cases runBatch prec stages mem bt with
    | none => rfl
    | some m1 => exact ih m1

theorem runBatches_fullBatches (prec : Precision) (stages : List StageRecord)
    (rt : Nat → Nat) (src dst : Nat)
    (hstep : ∀ mem bt, runBatch prec stages mem bt =
      some (copyRow rt src dst bt.dy bt.dx bt.active mem))
    (N y k x : Nat) (mem : Memory) :
    runBatches prec stages (fullBatches N x y k) mem =
      some (copyRow rt src dst y x (k * N) mem) := by
  induction k generalizing x mem with
  | zero => simp [fullBatches, runBatches, copyRow_zero]
  | succ k ih =>
    simp only [fullBatches, runBatches, hstep]
    rw [ih, copyRow_copyRow, show N + k * N = (k + 1) * N by ring]

theorem run_copyRow (eng : Engine) (stages : List StageRecord) (rt : Nat → Nat) (src dst : Nat)
    (hstep : ∀ mem bt, runBatch (precisionOf stages) stages mem bt =
      some (copyRow rt src dst bt.dy bt.dx bt.active mem))
    (x y w : Nat) (mem : Memory) :
    run eng stages x y w 1 mem = some (copyRow rt src dst y x w mem) := by
  simp only [run, schedule, rowsFrom, List.append_nil, rowBatches]
  rw [runBatches_append, runBatches_fullBatches _ _ rt src dst hstep]
  simp only [Option.some_bind]
  generalize eng.stride (precisionOf stages) = N
  have hw : w / N * N + w % N = w := Nat.div_add_mod' w N
  split
  · rename_i h0
    rw [h0, Nat.add_zero] at hw
    simp only [runBatches, hw]
  · simp only [runBatches, hstep, copyRow_copyRow, hw]

theorem to_8888_from_8888 (px : Nat) (l : Lane) : to_8888 (from_8888 px l) = px % 2 ^ 32 := by
  simp only [to_8888, from_8888]
  omega

theorem to_f32_from_f32 (px : Nat) (l : Lane) : to_f32 (from_f32 px l) = px % 2 ^ 128 := by
  simp only [to_f32, from_f32]
  omega

theorem runBatch_copy_8888 (src dst : Nat) (mem : Memory) (bt : Batch) :
    runBatch .low [⟨.load_8888, src⟩, ⟨.store_8888, dst⟩] mem bt =
      some (copyRow (fun px => px % 2 ^ 32) src dst bt.dy bt.dx bt.active mem) := by
  simp only [runBatch, runStages, applyStage, Option.map_some']
  congr 1
  funext b r c
  simp only [storeLanes, loadLanes, copyRow]
  by_cases hc : b = dst ∧ r = bt.dy ∧ bt.dx ≤ c ∧ c < bt.dx + bt.active
  · rw [if_pos hc, if_pos hc, if_pos (by omega), to_8888_from_8888]
    congr 3
    omega
  · rw [if_neg hc, if_neg hc]


theorem runBatch_copy_f32 (src dst : Nat) (mem : Memory) (bt : Batch) :
    runBatch .high [⟨.load_f32, src⟩, ⟨.store_f32, dst⟩] mem bt =
      some (copyRow (fun px => px % 2 ^ 128) src dst bt.dy bt.dx bt.active mem) := by
  simp only [runBatch, runStages, applyStage, Option.map_some']
  congr 1
  funext b r c
  simp only [storeLanes, loadLanes, copyRow]
  by_cases hc : b = dst ∧ r = bt.dy ∧ bt.dx ≤ c ∧ c < bt.dx + bt.active
  · rw [if_pos hc, if_pos hc, if_pos (by omega), to_f32_from_f32]
    congr 3
    omega
  · rw [if_neg hc, if_neg hc]

theorem runBatch_copy_f16 (src dst : Nat) (mem : Memory) (bt : Batch) :
    runBatch .high [⟨.load_f16, src⟩, ⟨.store_f16, dst⟩] mem bt =
      some (copyRow (fun px => to_f16 (from_f16 px zeroLane)) src dst bt.dy bt.dx bt.active
        mem) := by
  simp only [runBatch, runStages, applyStage, Option.map_some']
  congr 1
  funext b r c
  simp only [storeLanes, loadLanes, copyRow]
  by_cases hc : b = dst ∧ r = bt.dy ∧ bt.dx ≤ c ∧ c < bt.dx + bt.active
  · rw [if_pos hc, if_pos hc, if_pos (by omega)]
    congr 4
    omega
  · rw [if_neg hc, if_neg hc]

theorem runBatch_swap_rb (src dst : Nat) (mem : Memory) (bt : Batch) :
    runBatch .low [⟨.load_8888, src⟩, ⟨.swap_rb, 0⟩, ⟨.store_8888, dst⟩] mem bt =
      some (copyRow swapRBPixel src dst bt.dy bt.dx bt.active mem) := by
  simp only [runBatch, runStages, applyStage, Option.map_some']
  congr 1
  funext b r c
  simp only [storeLanes, loadLanes, copyRow, swapRBPixel]
  by_cases hc : b = dst ∧ r = bt.dy ∧ bt.dx ≤ c ∧ c < bt.dx + bt.active
  · rw [if_pos hc, if_pos hc, if_pos (by omega)]
    congr 5
    omega
  · rw [if_neg hc, if_neg hc]

theorem runBatch_swizzle (sw : Swizzle) (src dst : Nat) (mem : Memory) (bt : Batch) :
    runBatch .low [⟨.load_rg88, src⟩, ⟨.swizzle sw.c0 sw.c1 sw.c2 sw.c3, 0⟩,
        ⟨.store_rg88, dst⟩] mem bt =
      some (copyRow (swizzleRgPixel sw) src dst bt.dy bt.dx bt.active mem) := by
  simp only [runBatch, runStages, applyStage, Option.map_some']
  congr 1
  funext b r c
  simp only [storeLanes, loadLanes, copyRow, swizzleRgPixel, oneOf]
  by_cases hc : b = dst ∧ r = bt.dy ∧ bt.dx ≤ c ∧ c < bt.dx + bt.active
  · rw [if_pos hc, if_pos hc, if_pos (by omega)]
    congr 5
    omega
  · rw [if_neg hc, if_neg hc]

theorem h_halfToFloat (hb : Nat) (hlt : hb < 2 ^ 16) (hk : HalfKept hb) :
    h (halfToFloat hb % 2 ^ 32) = hb := by
  rcases hk with h0 | ⟨h1, h2⟩
  · subst h0; decide
  · have hv : halfToFloat hb =
        hb / 2 ^ 15 % 2 * 2 ^ 31 + (hb / 2 ^ 10 % 32 + 112) * 2 ^ 23 + hb % 2 ^ 10 * 2 ^ 13 := by
      simp only [halfToFloat]
      rw [if_neg (by omega), if_neg (by omega)]
    rw [hv, h_arith _ (Nat.mod_lt _ (by norm_num))]
    split_ifs <;> omega

theorem to_f16_from_f16 (px : Nat) (l : Lane) (hp : F16PixelKept px) :
    to_f16 (from_f16 px l) = px := by
  obtain ⟨hlt, h0, h1, h2, h3⟩ := hp
  simp only [to_f16, from_f16]
  rw [h_halfToFloat _ (Nat.mod_lt _ (by norm_num)) h0,
    h_halfToFloat _ (Nat.mod_lt _ (by norm_num)) h1,
    h_halfToFloat _ (Nat.mod_lt _ (by norm_num)) h2,
    h_halfToFloat _ (Nat.mod_lt _ (by norm_num)) h3]
  omega


theorem applyStage_frame (prec : Precision) (st : StageRecord) (bt : Batch)
    (s s1 : Memory × Regs) (hs : applyStage prec st bt s = some s1) (b r c : Nat)
    (hdump : ¬ (st.kind = .store_unmasked ∧ st.ctx = b))
    (hout : ¬ (r = bt.dy ∧ bt.dx ≤ c ∧ c < bt.dx + bt.active)) : s1.1 b r c = s.1 b r c := by
  have hst : ∀ (enc : Lane → Nat),
      storeLanes enc s.1 st.ctx bt s.2 b r c = s.1 b r c := by
    intro enc
    simp only [storeLanes]
    rw [if_neg (fun hc => hout ⟨hc.2.1, hc.2.2⟩)]
  have hun : st.kind = .store_unmasked →
      storeUnmasked s.1 st.ctx bt s.2 b r c = s.1 b r c := by
    intro hk
    simp only [storeUnmasked]
    rw [if_neg (fun hc => hdump ⟨hk, hc.1.symm⟩)]
  unfold applyStage at hs
  split at hs
  all_goals first
    | (cases hs; rfl)
    | (cases hs; exact hst _)
    | (cases hs; exact hun (by assumption))
    | (split at hs <;> first | (cases hs; rfl) | cases hs)
    | cases hs

theorem runStages_frame (prec : Precision) (stages : List StageRecord) (bt : Batch)
    (s s1 : Memory × Regs) (hs : runStages prec stages bt s = some s1) (b r c : Nat)
    (hdump : ¬ dumpsTo stages b)
    (hout : ¬ (r = bt.dy ∧ bt.dx ≤ c ∧ c < bt.dx + bt.active)) : s1.1 b r c = s.1 b r c := by
  induction stages generalizing s with
  | nil => simp only [runStages] at hs; cases hs; rfl
  | cons st rest ih =>
    simp only [runStages] at hs
    cases hq : applyStage prec st bt s with
    | none => rw [hq] at hs; cases hs
    | some s2 =>
      rw [hq] at hs
      have hrest : ¬ dumpsTo rest b := fun ⟨t, ht, hk⟩ => hdump ⟨t, List.mem_cons_of_mem _ ht, hk⟩
      have hhead : ¬ (st.kind = .store_unmasked ∧ st.ctx = b) :=
        fun hk => hdump ⟨st, List.mem_cons_self _ _, hk⟩
      rw [ih s2 hs hrest, applyStage_frame prec st bt s s2 hq b r c hhead hout]

theorem runBatch_frame (prec : Precision) (stages : List StageRecord) (bt : Batch)
    (mem mem1 : Memory) (hs : runBatch prec stages mem bt = some mem1) (b r c : Nat)
    (hdump : ¬ dumpsTo stages b)
    (hout : ¬ (r = bt.dy ∧ bt.dx ≤ c ∧ c < bt.dx + bt.active)) : mem1 b r c = mem b r c := by
  simp only [runBatch] at hs
  cases hq : runStages prec stages bt (mem, fun _ => zeroLane) with
  | none => rw [hq] at hs; cases hs
  | some s1 =>
    rw [hq] at hs
    simp only [Option.map_some', Option.some.injEq] at hs
    rw [← hs]
    exact runStages_frame prec stages bt _ s1 hq b r c hdump hout

theorem mem_lanes (bt : Batch) (c r : Nat) :
    (c, r) ∈ (List.range bt.active).map (fun i => (bt.dx + i, bt.dy)) ↔
      (r = bt.dy ∧ bt.dx ≤ c ∧ c < bt.dx + bt.active) := by
  simp only [List.mem_map, List.mem_range, Prod.mk.injEq]
  constructor
  · rintro ⟨i, hi, h1, h2⟩
    omega
  · rintro ⟨h1, h2, h3⟩
    exact ⟨c - bt.dx, by omega, by omega, h1.symm⟩

theorem runBatches_frame (prec : Precision) (stages : List StageRecord) (bs : List Batch)
    (mem mem1 : Memory) (hs : runBatches prec stages bs mem = some mem1) (b r c : Nat)
    (hdump : ¬ dumpsTo stages b)
    (hout : (c, r) ∉ pixelsOf bs) : mem1 b r c = mem b r c := by
  induction bs generalizing mem with
  | nil => simp only [runBatches] at hs; cases hs; rfl
  | cons bt rest ih =>
    simp only [runBatches] at hs
    simp only [pixelsOf, List.mem_append, not_or] at hout
    cases hq : runBatch prec stages mem bt with
    | none => rw [hq] at hs; cases hs
    | some m2 =>
      rw [hq] at hs
      rw [ih m2 hs hout.2]
      exact runBatch_frame prec stages bt mem m2 hq b r c hdump
        (fun hc => hout.1 ((mem_lanes bt c r).2 hc))

theorem pixelsOf_append (l1 l2 : List Batch) :
    pixelsOf (l1 ++ l2) = pixelsOf l1 ++ pixelsOf l2 := by
  induction l1 with
  | nil => rfl
  | cons bt rest ih =>
    show pixelsOf (bt :: (rest ++ l2)) = pixelsOf (bt :: rest) ++ pixelsOf l2
    simp only [pixelsOf, ih, List.append_assoc]

theorem pixelsOf_fullBatches (N y k x : Nat) :
    pixelsOf (fullBatches N x y k) = (List.range (k * N)).map (fun i => (x + i, y)) := by
  induction k generalizing x with
  | zero => simp [fullBatches, pixelsOf]
  | succ k ih =>
    simp only [fullBatches, pixelsOf, ih]
    rw [show (k + 1) * N = N + k * N by ring, List.range_add, List.map_append, List.map_map]
    congr 1
    apply List.map_congr_left
    intro i _
    simp only [Function.comp, Prod.mk.injEq, and_true]
    omega

theorem pixelsOf_rowBatches (N x y w : Nat) :
    pixelsOf (rowBatches N x y w) = (List.range w).map (fun i => (x + i, y)) := by
  have hw : w / N * N + w % N = w := Nat.div_add_mod' w N
  simp only [rowBatches, pixelsOf_append, pixelsOf_fullBatches]
  split
  · rename_i h0
    rw [h0, Nat.add_zero] at hw
    simp only [pixelsOf, List.append_nil, hw]
  · simp only [pixelsOf, List.append_nil]
    conv_rhs => rw [← hw, List.range_add, List.map_append, List.map_map]
    congr 1
    apply List.map_congr_left
    intro i _
    simp only [Function.comp, Prod.mk.injEq, and_true]
    omega

theorem pixelsOf_rowsFrom (N x w y k : Nat) :
    pixelsOf (rowsFrom N x w y k) = rectPixels x w y k := by
  induction k generalizing y with
  | zero => rfl
  | succ k ih => simp only [rowsFrom, rectPixels, pixelsOf_append, pixelsOf_rowBatches, ih]

theorem mem_rectPixels (x w y k c r : Nat) :
    (c, r) ∈ rectPixels x w y k ↔ (x ≤ c ∧ c < x + w ∧ y ≤ r ∧ r < y + k) := by
  induction k generalizing y with
  | zero => simp [rectPixels]
  | succ k ih =>
    simp only [rectPixels, List.mem_append, ih, List.mem_map, List.mem_range, Prod.mk.injEq]
    constructor
    · rintro (⟨i, hi, h1, h2⟩ | h)
      · omega
      · omega
    · intro h
      by_cases hr : r = y
      · exact Or.inl ⟨c - x, by omega, by omega, hr.symm⟩
      · exact Or.inr (by omega)

theorem nodup_rectPixels (x w y k : Nat) : (rectPixels x w y k).Nodup := by
  induction k generalizing y with
  | zero => simp [rectPixels]
  | succ k ih =>
    simp only [rectPixels]
    rw [List.nodup_append]
    refine ⟨?_, ih (y + 1), ?_⟩
    · apply List.Nodup.map _ (List.nodup_range w)
      intro i j hij
      simp only [Prod.mk.injEq, and_true] at hij
      omega
    · intro p hp1 hp2
      obtain ⟨c, r⟩ := p
      rw [mem_rectPixels] at hp2
      simp only [List.mem_map, List.mem_range, Prod.mk.injEq] at hp1
      obtain ⟨i, _, _, h2⟩ := hp1
      omega


/-- A pipeline whose every batch is a `copyRow` with a function that fixes the source pixels
of the row copies the row. -/
theorem copiesRow_of_step (eng : Engine) (stages : List StageRecord) (rt : Nat → Nat)
    (src dst x w : Nat) (mem : Memory)
    (hstep : ∀ mem bt, runBatch (precisionOf stages) stages mem bt =
      some (copyRow rt src dst bt.dy bt.dx bt.active mem))
    (hrt : ∀ c, x ≤ c → c < x + w → rt (mem src 0 c) = mem src 0 c) :
    CopiesRow eng stages src dst x w mem := by
  refine ⟨_, run_copyRow eng stages rt src dst hstep x 0 w mem, ?_, ?_⟩
  · intro c h1 h2
    simp only [copyRow]
    rw [if_pos ⟨trivial, trivial, h1, h2⟩, hrt c h1 h2]
  · intro b r c hc
    simp only [copyRow]
    rw [if_neg hc]

/-- C3 (amended): for every SIMD width, source buffer, start column `x` and width `w`, the
pipeline `[load_fmt, store_fmt]` run over `(x, 0, w, 1)` makes destination pixels
`x..x+w-1` bit-identical to the source pixels and leaves every other pixel of every buffer
as it was: for `8888` and `f32` whatever the source pixels are, for `f16` when each of the
four half-floats of every source pixel in the range is positive zero or a normal number
(`store_f16` flushes a denormal half-float to zero). -/
theorem load_store_round_trip (eng : Engine) (src dst x w : Nat) (mem : Memory) :
    ((∀ c, x ≤ c → c < x + w → mem src 0 c < 2 ^ 32) →
      CopiesRow eng [⟨.load_8888, src⟩, ⟨.store_8888, dst⟩] src dst x w mem) ∧
    ((∀ c, x ≤ c → c < x + w → mem src 0 c < 2 ^ 128) →
      CopiesRow eng [⟨.load_f32, src⟩, ⟨.store_f32, dst⟩] src dst x w mem) ∧
    ((∀ c, x ≤ c → c < x + w → F16PixelKept (mem src 0 c)) →
      CopiesRow eng [⟨.load_f16, src⟩, ⟨.store_f16, dst⟩] src dst x w mem) := by
  refine ⟨fun hpx => ?_, fun hpx => ?_, fun hpx => ?_⟩
  · exact copiesRow_of_step eng _ (fun px => px % 2 ^ 32) src dst x w mem
      (fun m bt => runBatch_copy_8888 src dst m bt)
      (fun c h1 h2 => Nat.mod_eq_of_lt (hpx c h1 h2))
  · exact copiesRow_of_step eng _ (fun px => px % 2 ^ 128) src dst x w mem
      (fun m bt => runBatch_copy_f32 src dst m bt)
      (fun c h1 h2 => Nat.mod_eq_of_lt (hpx c h1 h2))
  · exact copiesRow_of_step eng _ (fun px => to_f16 (from_f16 px zeroLane)) src dst x w mem
      (fun m bt => runBatch_copy_f16 src dst m bt)
      (fun c h1 h2 => to_f16_from_f16 _ _ (hpx c h1 h2))

/-- C3, witness: the run of `DEF_TEST(SkRasterPipeline_JIT)`, `load_8888` then `store_8888`
over `(15, 0, 20, 1)`, copies the row. -/
theorem load_store_round_trip_witness :
    CopiesRow sampleEngine [⟨.load_8888, 1⟩, ⟨.store_8888, 2⟩] 1 2 15 20 jitMem :=
  (load_store_round_trip sampleEngine 1 2 15 20 jitMem).1
    (by intro c h1 h2; interval_cases c <;> decide)

/-- C3, counterexample: the f16 source pixel `0x0001` (red is the smallest denormal
half-float).  `[load_f16, store_f16]` over `(0, 0, 1, 1)` stores `0x0000`: `store_f16`
flushes the denormal to zero, so the destination pixel is not bit-identical to the
source pixel. -/
theorem f16_round_trip_loses_denormal :
    denormMem 1 0 0 = 0x0001 ∧
    (run sampleEngine [⟨.load_f16, 1⟩, ⟨.store_f16, 2⟩] 0 0 1 1 denormMem).map
      (fun m => m 2 0 0) = some 0x0000 ∧
    ¬ CopiesRow sampleEngine [⟨.load_f16, 1⟩, ⟨.store_f16, 2⟩] 1 2 0 1 denormMem := by
  have hrun := run_copyRow sampleEngine [⟨.load_f16, 1⟩, ⟨.store_f16, 2⟩]
    (fun px => to_f16 (from_f16 px zeroLane)) 1 2 (fun m bt => runBatch_copy_f16 1 2 m bt)
    0 0 1 denormMem
  refine ⟨rfl, ?_, ?_⟩
  · rw [hrun]
    decide
  · rintro ⟨m1, h1, h2, _⟩
    rw [hrun] at h1
    cases h1
    have := h2 0 (by decide) (by decide)
    revert this
    decide

theorem fullBatches_eq_map (N y k x : Nat) :
    fullBatches N x y k = (List.range k).map (fun j => (⟨x + j * N, y, N, N⟩ : Batch)) := by
  induction k generalizing x with
  | zero => rfl
  | succ k ih =>
    rw [fullBatches, ih, List.range_succ_eq_map, List.map_cons, List.map_map]
    simp only [Nat.zero_mul, Nat.add_zero, List.cons.injEq, true_and]
    apply List.map_congr_left
    intro j _
    simp only [Function.comp, Batch.mk.injEq, and_true, Nat.succ_eq_add_one]
    ring

/-- C4: `run(x, y, w, h)` with SIMD width `N` issues in each row `floor(w / N)` full batches
of `N` lanes, at columns `x, x+N, ...`, followed when `w mod N != 0` by one tail batch of
`w mod N` active lanes; the active lanes of all batches are, in order and without
repetition, exactly the pixels with column in `[x, x+w)` and row in `[y, y+h)`; no run of any
pipeline changes a pixel outside that rectangle (in any buffer other than the float array to
which a `store_unmasked` stage dumps the whole registers); and `run(15,0,20,1)` of the
pipeline of `DEF_TEST(SkRasterPipeline_JIT)` copies exactly indices 15..34, as the test
asserts. -/
theorem run_covers_rectangle (N x y w h : Nat) :
    rowBatches N x y w =
      (List.range (w / N)).map (fun k => (⟨x + k * N, y, N, N⟩ : Batch)) ++
        (if w % N = 0 then [] else [⟨x + w / N * N, y, w % N, N⟩]) ∧
    pixelsOf (schedule N x y w h) = rectPixels x w y h ∧
    (pixelsOf (schedule N x y w h)).Nodup ∧
    (∀ c r, (c, r) ∈ pixelsOf (schedule N x y w h) ↔
      (x ≤ c ∧ c < x + w ∧ y ≤ r ∧ r < y + h)) ∧
    (∀ (eng : Engine) (stages : List StageRecord) (mem mem1 : Memory),
      eng.stride (precisionOf stages) = N → run eng stages x y w h mem = some mem1 →
      ∀ b r c, ¬ dumpsTo stages b → ¬ (x ≤ c ∧ c < x + w ∧ y ≤ r ∧ r < y + h) →
        mem1 b r c = mem b r c) ∧
    (∀ eng : Engine, ∃ mem1, run eng jitPipeline 15 0 20 1 jitMem = some mem1 ∧
      (∀ i, i < 36 → mem1 2 0 i = if i < 15 ∨ i = 35 then 0 else i - 11) ∧
      (∀ c, mem1 1 0 c = jitMem 1 0 c)) := by
  have hpix : pixelsOf (schedule N x y w h) = rectPixels x w y h := pixelsOf_rowsFrom N x w y h
  refine ⟨?_, hpix, ?_, ?_, ?_, ?_⟩
  · rw [rowBatches, fullBatches_eq_map]
  · rw [hpix]; exact nodup_rectPixels x w y h
  · intro c r; rw [hpix]; exact mem_rectPixels x w y h c r
  · intro eng stages mem mem1 hN hrun b r c hdump hout
    simp only [run, hN] at hrun
    apply runBatches_frame _ _ _ _ _ hrun b r c hdump
    rw [hpix, mem_rectPixels]
    exact hout
  · intro eng
    refine ⟨_, run_copyRow eng jitPipeline (fun px => px % 2 ^ 32) 1 2
      (fun m bt => runBatch_copy_8888 1 2 m bt) 15 0 20 jitMem, ?_, ?_⟩
    · decide
    · intro c
      rfl

/-- C4, witness: with eight lanes, `run(15,0,20,1)` issues two full batches at columns 15
and 23 and a tail of four lanes at column 31. -/
theorem run_covers_rectangle_witness :
    schedule 8 15 0 20 1 = [⟨15, 0, 8, 8⟩, ⟨23, 0, 8, 8⟩, ⟨31, 0, 4, 8⟩] ∧
    pixelsOf (schedule 8 15 0 20 1) = rectPixels 15 20 0 1 :=
  ⟨by decide, (run_covers_rectangle 8 15 0 20 1).2.1⟩

theorem swapRBPixel_bytes (px : Nat) (hpx : px < 2 ^ 32) :
    swapRBPixel px % 256 = px / 2 ^ 16 % 256 ∧ swapRBPixel px / 2 ^ 8 % 256 = px / 2 ^ 8 % 256 ∧
    swapRBPixel px / 2 ^ 16 % 256 = px % 256 ∧ swapRBPixel px / 2 ^ 24 = px / 2 ^ 24 := by
  have hv : swapRBPixel px = px / 2 ^ 16 % 256 + px / 2 ^ 8 % 256 * 2 ^ 8 + px % 256 * 2 ^ 16 +
      px / 2 ^ 24 % 256 * 2 ^ 24 := by
    simp [swapRBPixel, to_8888, swapRB, from_8888, Nat.mod_mod]
  have ha : px / 2 ^ 24 = px / 2 ^ 24 % 256 := by omega
  rw [hv]
  clear hv
  have hr := Nat.mod_lt px (show 0 < 256 by norm_num)
  have hg := Nat.mod_lt (px / 2 ^ 8) (show 0 < 256 by norm_num)
  have hb := Nat.mod_lt (px / 2 ^ 16) (show 0 < 256 by norm_num)
  have haa := Nat.mod_lt (px / 2 ^ 24) (show 0 < 256 by norm_num)
  rw [ha]
  generalize px % 256 = r at hr ⊢
  generalize px / 2 ^ 8 % 256 = g at hg ⊢
  generalize px / 2 ^ 16 % 256 = b at hb ⊢
  generalize px / 2 ^ 24 % 256 = a at haa ⊢
  refine ⟨by omega, by omega, by omega, by omega⟩

theorem swapRBPixel_lowpRgba : ∀ i, i < 64 → swapRBPixel (lowpRgba i) = lowpWant i := by
  decide

/-- C5: for every SIMD width and every buffer of 32-bit 8888 pixels, the pipeline
`[load_8888, swap_rb, store_8888]` run in place over `(0, 0, w, 1)` writes back each pixel
with byte 0 and byte 2 exchanged and bytes 1 and 3 unchanged; so `0xff0000ff` becomes
`0xffff0000`, and the `rgba[i]` of `DEF_TEST(SkRasterPipeline_lowp)` becomes the test's
`want` for every `i` in `[0,64)`. -/
theorem swap_rb_exchanges_bytes (eng : Engine) (ptr w : Nat) (mem : Memory)
    (hpx : ∀ c, c < w → mem ptr 0 c < 2 ^ 32) :
    ∃ mem1, run eng (lowpPipeline ptr) 0 0 w 1 mem = some mem1 ∧
      (∀ c, c < w →
        mem1 ptr 0 c % 256 = mem ptr 0 c / 2 ^ 16 % 256 ∧
        mem1 ptr 0 c / 2 ^ 8 % 256 = mem ptr 0 c / 2 ^ 8 % 256 ∧
        mem1 ptr 0 c / 2 ^ 16 % 256 = mem ptr 0 c % 256 ∧
        mem1 ptr 0 c / 2 ^ 24 = mem ptr 0 c / 2 ^ 24) ∧
      (∀ c, c < w → mem ptr 0 c = 0xff0000ff → mem1 ptr 0 c = 0xffff0000) ∧
      (∀ i, i < 64 → i < w → mem ptr 0 i = lowpRgba i → mem1 ptr 0 i = lowpWant i) := by
  have hrun := run_copyRow eng (lowpPipeline ptr) swapRBPixel ptr ptr
    (fun m bt => runBatch_swap_rb ptr ptr m bt) 0 0 w mem
  have hval : ∀ c, c < w → copyRow swapRBPixel ptr ptr 0 0 w mem ptr 0 c =
      swapRBPixel (mem ptr 0 c) := by
    intro c hc
    simp only [copyRow]
    rw [if_pos ⟨trivial, trivial, Nat.zero_le c, by omega⟩]
  refine ⟨_, hrun, ?_, ?_, ?_⟩
  · intro c hc
    rw [hval c hc]
    exact swapRBPixel_bytes _ (hpx c hc)
  · intro c hc h1
    rw [hval c hc, h1]
    decide
  · intro i hi hw h1
    rw [hval i hw, h1]
    exact swapRBPixel_lowpRgba i hi

/-- C5, witness: the run of `DEF_TEST(SkRasterPipeline_lowp)` over its 64 pixels leaves the
test's `want` in every pixel. -/
theorem swap_rb_exchanges_bytes_witness :
    ∃ mem1, run sampleEngine (lowpPipeline 1) 0 0 64 1 lowpMem = some mem1 ∧
      ∀ i, i < 64 → mem1 1 0 i = lowpWant i := by
  obtain ⟨mem1, h1, _, _, h4⟩ := swap_rb_exchanges_bytes sampleEngine 1 64 lowpMem (by decide)
  exact ⟨mem1, h1, fun i hi => h4 i hi hi rfl⟩

theorem rowBatches_one (N : Nat) : rowBatches N 0 0 1 = [⟨0, 0, 1, N⟩] := by
  rcases Nat.lt_or_ge N 2 with h2 | h2
  · interval_cases N <;> rfl
  · have h1 : 1 / N = 0 := Nat.div_eq_of_lt (by omega)
    have h3 : 1 % N = 1 := Nat.mod_eq_of_lt (by omega)
    simp [rowBatches, h1, h3, fullBatches]

theorem schedule_one (N : Nat) : schedule N 0 0 1 1 = [⟨0, 0, 1, N⟩] := by
  simp only [schedule, rowsFrom, List.append_nil, rowBatches_one]

theorem runBatches_single (prec : Precision) (stages : List StageRecord) (bt : Batch)
    (mem : Memory) : runBatches prec stages [bt] mem = runBatch prec stages mem bt := by
  simp only [runBatches]
  cases runBatch prec stages mem bt with
  | none => rfl
  | some m => rfl

theorem runBatch_srcover_lanes (bt : Batch) :
    runBatch .high srcoverPipeline srcoverMem bt =
      runBatch .high srcoverPipeline srcoverMem ⟨bt.dx, bt.dy, bt.active, 0⟩ := rfl

set_option maxRecDepth 100000 in
theorem runBatch_srcover (N : Nat) :
    (runBatch .high srcoverPipeline srcoverMem ⟨0, 0, 1, N⟩).map (fun m => m 3 0 0) =
      some 0x3c00380000003800 := by
  have h0 : (runBatch .high srcoverPipeline srcoverMem ⟨0, 0, 1, 0⟩).map (fun m => m 3 0 0) =
      some 0x3c00380000003800 := by decide
  have hN : runBatch .high srcoverPipeline srcoverMem ⟨0, 0, 1, N⟩ =
      runBatch .high srcoverPipeline srcoverMem ⟨0, 0, 1, 0⟩ :=
    runBatch_srcover_lanes ⟨0, 0, 1, N⟩
  rw [hN]
  exact h0

/-- C6: for every SIMD width, running `[load_f16 src, load_f16_dst dst, srcover, store_f16]`
over one pixel with `src = 0x3800380000000000` and `dst = 0x3c00000000003c00` stores exactly
`0x3c00380000003800`: `r = 0x3800`, `g = 0x0000`, `b = 0x3800`, `a = 0x3c00`, and the number
each stored half-float denotes is `s + d * (1 - source alpha)` for the numbers the source
and destination half-floats denote. -/
theorem srcover_blue_over_red (eng : Engine) :
    srcoverMem 1 0 0 = 0x3800380000000000 ∧ srcoverMem 2 0 0 = 0x3c00000000003c00 ∧
    (run eng srcoverPipeline 0 0 1 1 srcoverMem).map (fun m => m 3 0 0) =
      some 0x3c00380000003800 ∧
    chan16 0x3c00380000003800 0 = 0x3800 ∧ chan16 0x3c00380000003800 1 = 0x0000 ∧
    chan16 0x3c00380000003800 2 = 0x3800 ∧ chan16 0x3c00380000003800 3 = 0x3c00 ∧
    (∀ k, k < 4 → halfValue (chan16 0x3c00380000003800 k) =
      halfValue (chan16 0x3800380000000000 k) +
        halfValue (chan16 0x3c00000000003c00 k) * (1 - halfValue (chan16 0x3800380000000000 3)))
    := by
  refine ⟨rfl, rfl, ?_, by decide, by decide, by decide, by decide, ?_⟩
  · have hp : precisionOf srcoverPipeline = .high := rfl
    unfold run
    rw [hp, schedule_one, runBatches_single]
    exact runBatch_srcover (eng.stride .high)
  · intro k hk
    interval_cases k <;> norm_num [chan16, halfValue]

theorem swizzleRgPixel_g1b1 : ∀ i, i < 64 →
    swizzleRgPixel g1b1 (swizzleRg i) = swizzleWant i ∧
    swizzleWant i % 256 = swizzleRg i / 256 % 256 ∧ swizzleWant i / 256 = 0xff := by
  decide

/-- C10 (amended): for every SIMD width, the swizzle `"g1b1"` applied between `load_rg88` and
`store_rg88` writes the source's channel 1 (green) into channel 0 and the constant `0xff`
into channel 1: each of the 64 pixels `{4i, 4i+1}` of
`DEF_TEST(SkRasterPipeline_swizzle)` becomes `{4i+1, 0xff}`, the test's `want`. -/
theorem swizzle_g1b1_moves_green (eng : Engine) (ptr : Nat) (mem : Memory)
    (hmem : ∀ i, i < 64 → mem ptr 0 i = swizzleRg i) :
    Swizzle.ofString "g1b1" = some g1b1 ∧
    ∃ mem1, run eng (swizzlePipeline g1b1 ptr) 0 0 64 1 mem = some mem1 ∧
      ∀ i, i < 64 → mem1 ptr 0 i = swizzleWant i ∧
        mem1 ptr 0 i % 256 = mem ptr 0 i / 256 % 256 ∧ mem1 ptr 0 i / 256 = 0xff := by
  have hrun := run_copyRow eng (swizzlePipeline g1b1 ptr) (swizzleRgPixel g1b1) ptr ptr
    (fun m bt => runBatch_swizzle g1b1 ptr ptr m bt) 0 0 64 mem
  refine ⟨by decide, _, hrun, ?_⟩
  intro i hi
  have hval : copyRow (swizzleRgPixel g1b1) ptr ptr 0 0 64 mem ptr 0 i =
      swizzleRgPixel g1b1 (mem ptr 0 i) := by
    simp only [copyRow]
    rw [if_pos ⟨trivial, trivial, Nat.zero_le i, by omega⟩]
  rw [hval, hmem i hi]
  obtain ⟨h1, h2, h3⟩ := swizzleRgPixel_g1b1 i hi
  rw [h1]
  exact ⟨rfl, h2, h3⟩

/-- C10, witness: the run of the first block of `DEF_TEST(SkRasterPipeline_swizzle)` leaves
the test's `want` in every pixel. -/
theorem swizzle_g1b1_moves_green_witness :
    ∃ mem1, run sampleEngine (swizzlePipeline g1b1 1) 0 0 64 1 swizzleMem = some mem1 ∧
      ∀ i, i < 64 → mem1 1 0 i = swizzleWant i := by
  obtain ⟨_, mem1, h1, h2⟩ := swizzle_g1b1_moves_green sampleEngine 1 swizzleMem
    (fun _ _ => rfl)
  exact ⟨mem1, h1, fun i hi => (h2 i hi).1⟩

/-- C10, counterexample: pixel 0 of the test, `{0x00, 0x01}`.  The test expects, and the run
stores, `0xff01`: channel 0 is `0x01` (the old channel 1), not `0xff`, and channel 1 is
`0xff`, not unchanged. -/
theorem swizzle_g1b1_channel0_is_green :
    swizzleMem 1 0 0 % 256 = 0 ∧ swizzleMem 1 0 0 / 256 % 256 = 1 ∧
    swizzleWant 0 % 256 = 1 ∧ swizzleWant 0 / 256 % 256 = 0xff ∧
    (run sampleEngine (swizzlePipeline g1b1 1) 0 0 64 1 swizzleMem).map (fun m => m 1 0 0) =
      some 0xff01 ∧
    ¬ ∃ mem1, run sampleEngine (swizzlePipeline g1b1 1) 0 0 64 1 swizzleMem = some mem1 ∧
        ∀ i, i < 64 → mem1 1 0 i % 256 = 0xff ∧
          mem1 1 0 i / 256 % 256 = swizzleMem 1 0 i / 256 % 256 := by
  have hrun := run_copyRow sampleEngine (swizzlePipeline g1b1 1) (swizzleRgPixel g1b1) 1 1
    (fun m bt => runBatch_swizzle g1b1 1 1 m bt) 0 0 64 swizzleMem
  refine ⟨by decide, by decide, by decide, by decide, ?_, ?_⟩
  · rw [hrun]; decide
  · rintro ⟨mem1, h1, h2⟩
    rw [hrun] at h1
    cases h1
    have := (h2 0 (by decide)).1
    revert this
    decide

/-! ### The chained-call interpreter: terminal stage, markers and callbacks -/

theorem h_lt (sem : Nat) : h sem < 2 ^ 16 := by
  simp only [h, SkTo_uint16]
  split <;> exact Nat.mod_lt _ (by norm_num)

theorem execChain_program (ch : Chain) (prec : Precision) (bt : Batch)
    (stages : List StageRecord) (d : Nat) (s : ChainState) :
    execChain ch prec bt (program stages) d s =
      match runStages prec stages bt (s.mem, s.regs) with
      | none => .error .notRepresented
      | some s1 => .ok ⟨s1.1, s1.2, s.log ++ probes ch bt stages d⟩ := by
  induction stages generalizing d s with
  | nil => simp [program, execChain, runStages, probes]
  | cons st rest ih =>
    simp only [program, List.map_cons, List.cons_append, execChain, runStages]
    cases hq : applyStage prec st bt (s.mem, s.regs) with
    | none => rfl
    | some s1 =>
      simp only []
      have hrest := ih (nextDepth ch st d)
        ⟨s1.1, s1.2, if st.kind = .callback then s.log ++ [⟨st.ctx, bt.active, d⟩] else s.log⟩
      simp only [program, Prod.mk.eta] at hrest
      refine Eq.trans hrest ?_
      cases hr : runStages prec rest bt s1 with
      | none => rfl
      | some s2 =>
        simp only [probes]
        by_cases hc : st.kind = .callback
        · simp only [hc, if_true, List.append_assoc]
        · simp only [hc, if_false, List.nil_append]

theorem execChain_noTerminal (ch : Chain) (prec : Precision) (bt : Batch)
    (stages : List StageRecord) (d : Nat) (s : ChainState)
    (hs : (runStages prec stages bt (s.mem, s.regs)).isSome) :
    execChain ch prec bt (stages.map Entry.stage) d s = .error .noNextStage := by
  induction stages generalizing d s with
  | nil => rfl
  | cons st rest ih =>
    simp only [List.map_cons, execChain]
    simp only [runStages] at hs
    cases hq : applyStage prec st bt (s.mem, s.regs) with
    | none => rw [hq] at hs; cases hs
    | some s1 =>
      rw [hq] at hs
      exact ih _ ⟨s1.1, s1.2, _⟩ hs

theorem chainBatch_eq (ch : Chain) (prec : Precision) (stages : List StageRecord)
    (mem : Memory) (log : List Probe) (bt : Batch) :
    chainBatch ch prec stages (mem, log) bt =
      match runBatch prec stages mem bt with
      | none => .error .notRepresented
      | some m => .ok (m, log ++ probes ch bt stages ch.base) := by
  simp only [chainBatch, execChain_program, runBatch]
  cases runStages prec stages bt (mem, fun _ => zeroLane) with
  | none => rfl
  | some s1 => rfl

theorem chainBatches_eq (ch : Chain) (prec : Precision) (stages : List StageRecord)
    (bs : List Batch) (mem : Memory) (log : List Probe) :
    chainBatches ch prec stages bs (mem, log) =
      match runBatches prec stages bs mem with
      | none => .error .notRepresented
      | some m => .ok (m, log ++ batchProbes ch stages bs) := by
  induction bs generalizing mem log with
  | nil => simp [chainBatches, runBatches, batchProbes]
  | cons bt rest ih =>
    simp only [chainBatches, runBatches, chainBatch_eq]
    cases runBatch prec stages mem bt with
    | none => rfl
    | some m =>
      simp only [ih, batchProbes, List.append_assoc]

theorem runChained_eq (eng : Engine) (ch : Chain) (stages : List StageRecord)
    (x y w h : Nat) (mem : Memory) :
    runChained eng ch stages x y w h mem =
      match run eng stages x y w h mem with
      | none => .error .notRepresented
      | some m => .ok (m, batchProbes ch stages
          (schedule (eng.stride (precisionOf stages)) x y w h)) := by
  simp only [runChained, run, chainBatches_eq, List.nil_append]

theorem runBatches_id (prec : Precision) (stages : List StageRecord)
    (hstep : ∀ mem bt, runBatch prec stages mem bt = some mem) (bs : List Batch) (mem : Memory) :
    runBatches prec stages bs mem = some mem := by
  induction bs with
  | nil => rfl
  | cons bt rest ih => simp only [runBatches, hstep, ih]

theorem batchProbes_nil (ch : Chain) (stages : List StageRecord)
    (hp : ∀ bt d, probes ch bt stages d = []) (bs : List Batch) :
    batchProbes ch stages bs = [] := by
  induction bs with
  | nil => rfl
  | cons bt rest ih => simp only [batchProbes, hp, ih, List.append_nil]

/-- C13: running the pipeline with no appended stage over any rectangle returns, and the
memory after the run is the memory before it: in the chained-call interpreter the program
is the terminal stage alone, no callback is invoked, and no fault occurs. -/
theorem empty_pipeline_is_noop (eng : Engine) (ch : Chain) (x y w h : Nat) (mem : Memory) :
    run eng [] x y w h mem = some mem ∧
    runChained eng ch [] x y w h mem = .ok (mem, []) ∧
    program [] = [Entry.terminal] ∧
    run eng [] 0 0 20 1 mem = some mem := by
  have hrun : ∀ x y w h, run eng [] x y w h mem = some mem := fun x y w h =>
    runBatches_id _ [] (fun _ _ => rfl) _ mem
  refine ⟨hrun x y w h, ?_, rfl, hrun 0 0 20 1⟩
  rw [runChained_eq, hrun, batchProbes_nil ch [] (fun _ _ => rfl)]

set_option maxRecDepth 100000 in
theorem srcoverLane_zeroLane : srcoverLane zeroLane = some zeroLane := by
  decide

theorem runBatch_nonsense (mem : Memory) (bt : Batch) :
    runBatch .high nonsensePipeline mem bt = some mem := by
  simp only [runBatch, nonsensePipeline, append, List.nil_append, runStages, applyStage,
    srcoverLane_zeroLane, Option.isSome_some, implies_true, if_true, Option.map_some']

/-- C14: in the program of every pipeline the entry that follows the last appended stage is
the terminal no-op stage, so every appended stage has a following entry and no chained run
faults for want of a next stage (the same stages without the terminal stage would, as soon
as the last of them had done its work); and the pipeline whose only stage is `srcover`, run
over `(0,0,20,1)`, completes and leaves the memory as it was. -/
theorem terminal_stage_follows (stages : List StageRecord) :
    (program stages)[stages.length]? = some Entry.terminal ∧
    (∀ k, k < stages.length → ∃ e, (program stages)[k + 1]? = some e) ∧
    (∀ eng ch x y w h mem, runChained eng ch stages x y w h mem ≠ .error .noNextStage) ∧
    (∀ ch prec bt d (s : ChainState), (runStages prec stages bt (s.mem, s.regs)).isSome →
      execChain ch prec bt (stages.map Entry.stage) d s = .error .noNextStage) ∧
    (∀ eng ch mem, runChained eng ch nonsensePipeline 0 0 20 1 mem = .ok (mem, []) ∧
      run eng nonsensePipeline 0 0 20 1 mem = some mem) := by
  refine ⟨?_, ?_, ?_, ?_, ?_⟩
  · simp [program]
  · intro k hk
    have hlen : k + 1 < (program stages).length := by
      simp only [program, List.length_append, List.length_map, List.length_singleton]
      omega
    exact ⟨_, List.getElem?_eq_getElem hlen⟩
  · intro eng ch x y w h mem
    rw [runChained_eq]
    cases run eng stages x y w h mem with
    | none => simp
    | some m => simp
  · intro ch prec bt d s hs
    exact execChain_noTerminal ch prec bt stages d s hs
  · intro eng ch mem
    have hp : precisionOf nonsensePipeline = .high := rfl
    have hrun : run eng nonsensePipeline 0 0 20 1 mem = some mem := by
      simp only [run, hp]
      exact runBatches_id _ _ runBatch_nonsense _ mem
    refine ⟨?_, hrun⟩
    rw [runChained_eq, hrun, batchProbes_nil ch nonsensePipeline (fun _ _ => rfl)]

theorem applyStage_stack_rewind (prec : Precision) (st : StageRecord) (bt : Batch)
    (s : Memory × Regs) (hk : st.kind = .stack_rewind) : applyStage prec st bt s = some s := by
  obtain ⟨kind, ctx⟩ := st
  simp only at hk
  subst hk
  cases prec <;> rfl

theorem removeRewinds_cons_marker (st : StageRecord) (rest : List StageRecord)
    (hk : st.kind = .stack_rewind) : removeRewinds (st :: rest) = removeRewinds rest := by
  simp [removeRewinds, List.filter_cons, hk]

theorem removeRewinds_cons_stage (st : StageRecord) (rest : List StageRecord)
    (hk : st.kind ≠ .stack_rewind) : removeRewinds (st :: rest) = st :: removeRewinds rest := by
  simp [removeRewinds, List.filter_cons, hk]

theorem runStages_removeRewinds (prec : Precision) (stages : List StageRecord) (bt : Batch)
    (s : Memory × Regs) :
    runStages prec (removeRewinds stages) bt s = runStages prec stages bt s := by
  induction stages generalizing s with
  | nil => rfl
  | cons st rest ih =>
    by_cases hk : st.kind = .stack_rewind
    · rw [removeRewinds_cons_marker st rest hk, ih]
      simp only [runStages, applyStage_stack_rewind prec st bt s hk]
    · rw [removeRewinds_cons_stage st rest hk]
      simp only [runStages]
      cases applyStage prec st bt s with
      | none => rfl
      | some s1 => exact ih s1

theorem precisionOf_removeRewinds (stages : List StageRecord) :
    precisionOf (removeRewinds stages) = precisionOf stages := by
  have hall : (removeRewinds stages).all (fun st => hasLowp st.kind) =
      stages.all (fun st => hasLowp st.kind) := by
    induction stages with
    | nil => rfl
    | cons st rest ih =>
      by_cases hk : st.kind = .stack_rewind
      · rw [removeRewinds_cons_marker st rest hk, ih]
        simp only [List.all_cons, hk, hasLowp, Bool.true_and]
      · rw [removeRewinds_cons_stage st rest hk]
        simp only [List.all_cons, ih]
  simp only [precisionOf, hall]

theorem runBatches_congr (prec : Precision) (p q : List StageRecord)
    (hpq : ∀ mem bt, runBatch prec p mem bt = runBatch prec q mem bt) (bs : List Batch)
    (mem : Memory) : runBatches prec p bs mem = runBatches prec q bs mem := by
  induction bs generalizing mem with
  | nil => rfl
  | cons bt rest ih =>
    simp only [runBatches, hpq]
    cases runBatch prec q mem bt with
    | none => rfl
    | some m => exact ih m

theorem run_removeRewinds (eng : Engine) (stages : List StageRecord) (x y w h : Nat)
    (mem : Memory) :
    run eng (removeRewinds stages) x y w h mem = run eng stages x y w h mem := by
  simp only [run, precisionOf_removeRewinds]
  exact runBatches_congr _ _ _
    (fun mem bt => by simp only [runBatch, runStages_removeRewinds]) _ _

theorem pixels_runChained (eng : Engine) (ch : Chain) (stages : List StageRecord)
    (x y w h : Nat) (mem : Memory) :
    pixels (runChained eng ch stages x y w h mem) = run eng stages x y w h mem := by
  rw [runChained_eq]
  cases run eng stages x y w h mem with
  | none => rfl
  | some m => rfl

theorem runBatch_plainPipeline (stack ptr : Nat) (mem : Memory) (bt : Batch) :
    runBatch .low (plainPipeline stack ptr) mem bt =
      runBatch .low [⟨.load_8888, ptr⟩, ⟨.swap_rb, 0⟩, ⟨.store_8888, ptr⟩] mem bt := rfl

theorem runBatch_rewindPipeline (stack ptr : Nat) (mem : Memory) (bt : Batch) :
    runBatch .low (rewindPipeline stack ptr) mem bt =
      runBatch .low [⟨.load_8888, ptr⟩, ⟨.swap_rb, 0⟩, ⟨.store_8888, ptr⟩] mem bt := rfl

theorem run_plainPipeline (eng : Engine) (stack ptr : Nat) (mem : Memory) :
    run eng (plainPipeline stack ptr) 0 0 1 1 mem = some (copyRow swapRBPixel ptr ptr 0 0 1 mem) :=
  run_copyRow eng (plainPipeline stack ptr) swapRBPixel ptr ptr
    (fun m bt => (runBatch_plainPipeline stack ptr m bt).trans (runBatch_swap_rb ptr ptr m bt))
    0 0 1 mem

theorem run_rewindPipeline (eng : Engine) (stack ptr : Nat) (mem : Memory) :
    run eng (rewindPipeline stack ptr) 0 0 1 1 mem =
      some (copyRow swapRBPixel ptr ptr 0 0 1 mem) :=
  run_copyRow eng (rewindPipeline stack ptr) swapRBPixel ptr ptr
    (fun m bt => (runBatch_rewindPipeline stack ptr m bt).trans (runBatch_swap_rb ptr ptr m bt))
    0 0 1 mem

theorem copyRow_swap_one (ptr : Nat) (mem : Memory) (hmem : mem ptr 0 0 = 0xff0000ff) :
    copyRow swapRBPixel ptr ptr 0 0 1 mem ptr 0 0 = 0xffff0000 := by
  simp only [copyRow]
  rw [if_pos ⟨trivial, trivial, Nat.le_refl 0, by omega⟩, hmem]
  decide

/-- C15: two pipelines that differ only in their stack rewind markers write the same memory
for every input, in the plain semantics of the stages and under the chained-call interpreter
(both complete with the same bytes, or neither is represented); inserting a marker at any
position `k` of a pipeline gives such a pair; and the pipelines of the two blocks of
`DEF_TEST(SkRasterPipeline_stack_rewind)`, without and with markers, both turn `0xff0000ff`
into `0xffff0000`. -/
theorem stack_rewind_keeps_pixels (eng : Engine) (p q : List StageRecord) (x y w h : Nat)
    (mem : Memory) (hq : removeRewinds q = removeRewinds p) :
    run eng q x y w h mem = run eng p x y w h mem ∧
    (∀ ch, pixels (runChained eng ch q x y w h mem) =
      pixels (runChained eng ch p x y w h mem)) ∧
    (∀ k, removeRewinds (append_stack_rewind (p.take k) ++ p.drop k) = removeRewinds p) ∧
    (∀ stack ptr, mem ptr 0 0 = 0xff0000ff →
      (run eng (plainPipeline stack ptr) 0 0 1 1 mem).map (fun m => m ptr 0 0) =
        some 0xffff0000 ∧
      (run eng (rewindPipeline stack ptr) 0 0 1 1 mem).map (fun m => m ptr 0 0) =
        some 0xffff0000) := by
  have hrun : run eng q x y w h mem = run eng p x y w h mem := by
    rw [← run_removeRewinds eng q, ← run_removeRewinds eng p, hq]
  refine ⟨hrun, ?_, ?_, ?_⟩
  · intro ch
    rw [pixels_runChained, pixels_runChained, hrun]
  · intro k
    have happ : ∀ a b : List StageRecord,
        removeRewinds (a ++ b) = removeRewinds a ++ removeRewinds b :=
      fun a b => List.filter_append a b
    have hm : removeRewinds [⟨.stack_rewind, 0⟩] = [] := rfl
    rw [append_stack_rewind, happ, happ, hm, List.append_nil, ← happ, List.take_append_drop]
  · intro stack ptr hmem
    rw [run_plainPipeline, run_rewindPipeline]
    simp only [Option.map_some', copyRow_swap_one ptr mem hmem, and_self]

/-- C15, witness: the pipeline of the second block of
`DEF_TEST(SkRasterPipeline_stack_rewind)` and the same pipeline without its two markers leave
the same memory. -/
theorem stack_rewind_keeps_pixels_witness :
    removeRewinds (rewindPipeline 7 1) = removeRewinds (removeRewinds (rewindPipeline 7 1)) ∧
    removeRewinds (rewindPipeline 7 1) ≠ rewindPipeline 7 1 ∧
    run sampleEngine (rewindPipeline 7 1) 0 0 1 1 rewindMem =
      run sampleEngine (removeRewinds (rewindPipeline 7 1)) 0 0 1 1 rewindMem :=
  ⟨by decide, by decide,
    (stack_rewind_keeps_pixels sampleEngine (removeRewinds (rewindPipeline 7 1))
      (rewindPipeline 7 1) 0 0 1 1 rewindMem (by decide)).1⟩

theorem probes_length (ch : Chain) (bt : Batch) (stages : List StageRecord) (d : Nat) :
    (probes ch bt stages d).length = callbacks stages := by
  induction stages generalizing d with
  | nil => rfl
  | cons st rest ih =>
    by_cases hc : st.kind = .callback
    · simp [probes, callbacks, List.filter_cons, hc, ih]
    · simp [probes, callbacks, List.filter_cons, hc, ih]

theorem probes_rewind (ch : Chain) (bt : Batch) (pre post : List StageRecord) (k c d : Nat) :
    probes ch bt (pre ++ ⟨.stack_rewind, k⟩ :: ⟨.callback, c⟩ :: post) d =
      probes ch bt pre d ++
        ⟨c, bt.active, ch.base⟩ :: probes ch bt post (ch.base + ch.grow .callback) := by
  induction pre generalizing d with
  | nil => simp [probes, nextDepth]
  | cons st rest ih =>
    rw [List.cons_append]
    simp only [probes, ih, List.append_assoc]

theorem probes_monotone (ch : Chain) (bt : Batch) (stages : List StageRecord) (d : Nat)
    (hno : ∀ st, st ∈ stages → st.kind ≠ .stack_rewind) :
    (∀ p, p ∈ probes ch bt stages d → d ≤ p.depth) ∧
    ((probes ch bt stages d).map Probe.depth).Pairwise (· ≤ ·) := by
  induction stages generalizing d with
  | nil => simp [probes]
  | cons st rest ih =>
    have hst : st.kind ≠ .stack_rewind := hno st (List.mem_cons_self _ _)
    have hnext : nextDepth ch st d = d + ch.grow st.kind := by simp [nextDepth, hst]
    obtain ⟨h1, h2⟩ := ih (d + ch.grow st.kind) (fun t ht => hno t (List.mem_cons_of_mem _ ht))
    simp only [probes, hnext]
    by_cases hc : st.kind = .callback
    · simp only [hc, if_true, List.singleton_append, List.mem_cons, List.map_cons,
        List.pairwise_cons, List.mem_map]
      rw [hc] at h1 h2
      refine ⟨?_, ?_, h2⟩
      · rintro p (rfl | hp)
        · exact Nat.le_refl _
        · have := h1 p hp; omega
      · rintro a ⟨p, hp, rfl⟩
        have := h1 p hp; omega
    · simp only [hc, if_false, List.nil_append]
      refine ⟨?_, h2⟩
      intro p hp
      have := h1 p hp; omega

theorem schedule_single (N x y : Nat) : schedule N x y 1 1 = [⟨x, y, 1, N⟩] := by
  rcases Nat.lt_or_ge N 2 with h2 | h2
  · interval_cases N <;> simp [schedule, rowsFrom, rowBatches, fullBatches]
  · have h1 : 1 / N = 0 := Nat.div_eq_of_lt (by omega)
    have h3 : 1 % N = 1 := Nat.mod_eq_of_lt (by omega)
    simp [schedule, rowsFrom, rowBatches, h1, h3, fullBatches]

/-- C16: under the chained-call interpreter, for every frame growth per call: a callback that
is the first stage of the pipeline logs the base depth; a callback placed immediately after
a stack rewind marker logs the base depth too, whatever precedes the marker; and in a
pipeline without markers the depths logged by the successive callbacks of a batch are
non-decreasing.  In both blocks of `DEF_TEST(SkRasterPipeline_stack_rewind)` the logged
depths pass `StackCheckerCtx::validate`, and the pixel becomes `0xffff0000`. -/
theorem callback_after_rewind_at_baseline (ch : Chain) (prec : Precision) (bt : Batch)
    (s s1 : ChainState) :
    (∀ c rest, execChain ch prec bt (program (⟨.callback, c⟩ :: rest)) ch.base s = .ok s1 →
      s1.log[s.log.length]? = some ⟨c, bt.active, ch.base⟩) ∧
    (∀ pre k c post d,
      execChain ch prec bt
        (program (pre ++ ⟨.stack_rewind, k⟩ :: ⟨.callback, c⟩ :: post)) d s = .ok s1 →
      s1.log[s.log.length + callbacks pre]? = some ⟨c, bt.active, ch.base⟩) ∧
    (∀ stages d, (∀ st, st ∈ stages → st.kind ≠ .stack_rewind) →
      execChain ch prec bt (program stages) d s = .ok s1 →
      ∃ new, s1.log = s.log ++ new ∧ new.length = callbacks stages ∧
        (∀ p, p ∈ new → d ≤ p.depth) ∧ (new.map Probe.depth).Pairwise (· ≤ ·)) ∧
    (∀ eng stack ptr mem, mem ptr 0 0 = 0xff0000ff →
      ∃ mem1 log,
        runChained eng ch (rewindPipeline stack ptr) 0 0 1 1 mem = .ok (mem1, log) ∧
        mem1 ptr 0 0 = 0xffff0000 ∧
        log.map Probe.depth =
          [ch.base, ch.base + ch.grow .callback + ch.grow .load_8888, ch.base,
           ch.base + ch.grow .callback + ch.grow .swap_rb, ch.base] ∧
        validate (log.map Probe.depth) rewindExpected = true) ∧
    (∀ eng stack ptr mem, mem ptr 0 0 = 0xff0000ff →
      ∃ mem1 log,
        runChained eng ch (plainPipeline stack ptr) 0 0 1 1 mem = .ok (mem1, log) ∧
        mem1 ptr 0 0 = 0xffff0000 ∧
        log.map Probe.depth =
          [ch.base, ch.base + ch.grow .callback + ch.grow .load_8888,
           ch.base + ch.grow .callback + ch.grow .load_8888 + ch.grow .callback +
             ch.grow .swap_rb] ∧
        validate (log.map Probe.depth) plainExpected = true) := by
  have hlog : ∀ stages d, execChain ch prec bt (program stages) d s = .ok s1 →
      s1.log = s.log ++ probes ch bt stages d := by
    intro stages d hexec
    rw [execChain_program] at hexec
    cases hr : runStages prec stages bt (s.mem, s.regs) with
    | none => rw [hr] at hexec; cases hexec
    | some s2 =>
      rw [hr] at hexec
      simp only [Except.ok.injEq] at hexec
      rw [← hexec]
  refine ⟨?_, ?_, ?_, ?_, ?_⟩
  · intro c rest hexec
    rw [hlog _ _ hexec, probes, if_pos rfl, List.singleton_append,
      List.getElem?_append_right (Nat.le_refl _), Nat.sub_self, List.getElem?_cons_zero]
  · intro pre k c post d hexec
    rw [hlog _ _ hexec, probes_rewind, ← List.append_assoc]
    rw [List.getElem?_append_right (by simp [probes_length])]
    simp [probes_length]
  · intro stages d hno hexec
    obtain ⟨h1, h2⟩ := probes_monotone ch bt stages d hno
    exact ⟨_, hlog _ _ hexec, probes_length ch bt stages d, h1, h2⟩
  · intro eng stack ptr mem hmem
    have hp : precisionOf (rewindPipeline stack ptr) = .low := rfl
    have hrc : runChained eng ch (rewindPipeline stack ptr) 0 0 1 1 mem =
        .ok (copyRow swapRBPixel ptr ptr 0 0 1 mem,
          batchProbes ch (rewindPipeline stack ptr) [⟨0, 0, 1, eng.stride .low⟩]) := by
      rw [runChained_eq, run_rewindPipeline, hp, schedule_single]
    refine ⟨_, _, hrc, copyRow_swap_one ptr mem hmem, ?_, ?_⟩
    · simp [batchProbes, probes, rewindPipeline, append, append_stack_rewind, nextDepth]
    · simp [batchProbes, probes, rewindPipeline, append, append_stack_rewind, nextDepth,
        validate, validateFrom, rewindExpected, GrowthBehavior]
  · intro eng stack ptr mem hmem
    have hp : precisionOf (plainPipeline stack ptr) = .low := rfl
    have hrc : runChained eng ch (plainPipeline stack ptr) 0 0 1 1 mem =
        .ok (copyRow swapRBPixel ptr ptr 0 0 1 mem,
          batchProbes ch (plainPipeline stack ptr) [⟨0, 0, 1, eng.stride .low⟩]) := by
      rw [runChained_eq, run_plainPipeline, hp, schedule_single]
    refine ⟨_, _, hrc, copyRow_swap_one ptr mem hmem, ?_, ?_⟩
    · simp [batchProbes, probes, plainPipeline, append, nextDepth]
    · simp [batchProbes, probes, plainPipeline, append, nextDepth,
        validate, validateFrom, plainExpected, GrowthBehavior]

/-! ### `immediate_f`, `store_unmasked` and the swizzles -/

theorem runBatch_immediate (v dst : Nat) (mem : Memory) (bt : Batch) :
    runBatch .high (immediatePipeline v dst) mem bt =
      some (fun b r c => if b = dst ∧ r = 0 ∧ c < bt.lanes then v % 2 ^ 32 else mem b r c) := by
  simp only [runBatch, immediatePipeline, append, List.nil_append, List.cons_append, runStages,
    applyStage, Option.map_some']
  congr 1
  funext b r c
  simp only [storeUnmasked, immediateLane, Nat.mod_mod]

/-- C17: for every SIMD width and every single pixel `(x, y)`, the run of
`[immediate_f(v), store_unmasked(dst)]` over that pixel completes and writes the constant
into float `i` of `dst` for every `i` below the high-precision SIMD width, one active lane
or not, and leaves every other float of `dst` and all other memory as it was; with
`immVal = 123.0f` and an array of zeros this is what
`DEF_TEST(SkRasterPipeline_ImmediateStoreUnmasked)` asserts. -/
theorem store_unmasked_writes_full_batch (eng : Engine) (v dst x y : Nat) (mem : Memory) :
    ∃ mem1, run eng (immediatePipeline v dst) x y 1 1 mem = some mem1 ∧
      (∀ i, i < eng.highpStride → mem1 dst 0 i = v % 2 ^ 32) ∧
      (∀ i, eng.highpStride ≤ i → mem1 dst 0 i = mem dst 0 i) ∧
      (∀ b r c, ¬ (b = dst ∧ r = 0 ∧ c < eng.highpStride) → mem1 b r c = mem b r c) ∧
      immVal % 2 ^ 32 = immVal ∧ floatValue immVal = 123 ∧
      (v = immVal → (∀ i, mem dst 0 i = 0) →
        ∀ i, mem1 dst 0 i = if i < eng.highpStride then immVal else 0) := by
  have hp : precisionOf (immediatePipeline v dst) = .high := rfl
  have hrun : run eng (immediatePipeline v dst) x y 1 1 mem =
      some (fun b r c => if b = dst ∧ r = 0 ∧ c < eng.highpStride then v % 2 ^ 32
        else mem b r c) := by
    unfold run
    rw [hp, schedule_single, runBatches_single, runBatch_immediate]
    rfl
  refine ⟨_, hrun, ?_, ?_, ?_, by decide, ?_, ?_⟩
  · intro i hi
    rw [if_pos ⟨rfl, rfl, hi⟩]
  · intro i hi
    rw [if_neg (by omega)]
  · intro b r c hc
    rw [if_neg hc]
  · norm_num [floatValue, immVal]
  · intro hv hz i
    subst hv
    by_cases hi : i < eng.highpStride
    · rw [if_pos ⟨rfl, rfl, hi⟩, if_pos hi]
      decide
    · rw [if_neg (by omega), if_neg hi, hz]

theorem swizzleLane_rgba (one : Nat) (l : Lane) : swizzleLane one .r .g .b .a l = l := rfl

theorem swizzleLane_bgra (one : Nat) (l : Lane) : swizzleLane one .b .g .r .a l = swapRB l := rfl

theorem runStages_swizzle_apply (sw : Swizzle) (prec : Precision) (bt : Batch) (mem : Memory)
    (regs : Regs) :
    runStages prec (sw.apply []) bt (mem, regs) =
      some (mem, fun i => swizzleLane (oneOf prec) sw.c0 sw.c1 sw.c2 sw.c3 (regs i)) := by
  by_cases h1 : sw = ⟨.r, .g, .b, .a⟩
  · subst h1
    simp only [Swizzle.apply, if_true, runStages, swizzleLane_rgba]
  · by_cases h2 : sw = ⟨.b, .g, .r, .a⟩
    · subst h2
      have happ : Swizzle.apply ⟨.b, .g, .r, .a⟩ [] = [⟨.swap_rb, 0⟩] := rfl
      rw [happ]
      cases prec <;> simp only [runStages, applyStage, swizzleLane_bgra]
    · have happ : sw.apply [] = [⟨.swizzle sw.c0 sw.c1 sw.c2 sw.c3, 0⟩] := by
        simp only [Swizzle.apply, if_neg h1, if_neg h2, List.nil_append]
      rw [happ]
      cases prec <;> simp only [runStages, applyStage]

theorem swizzleRgPixel_g1b1_eq (px : Nat) :
    swizzleRgPixel g1b1 px = px / 2 ^ 8 % 256 + 0xff * 2 ^ 8 := by
  simp [swizzleRgPixel, g1b1, to_rg88, swizzleLane, select, from_rg88]

theorem swizzleRg_pixels : ∀ i, i < 64 →
    swizzleRg i = (4 * i) ||| ((4 * i + 1) <<< 8) ∧
    swizzleRg i / 2 ^ 8 % 256 + 0xff * 2 ^ 8 = (4 * i + 1) ||| (0xff <<< 8) := by
  decide

/-- C11: a swizzle built from the four characters of a descriptor (`r`, `g`, `b`, `a`, `0`,
`1`) is realised, in either precision, by stages that map every lane `(r, g, b, a)` to the
lane whose output channel `k` is what character `k` selects: the named source channel, zero
for `0`, the constant one of the precision for `1`.  For `"g1b1"` this is `(g, 1, b, 1)`, and
`[load_rg88, swizzle, store_rg88]` rewrites every rg88 pixel of the range to its old channel
1 in channel 0 and `0xff` in channel 1: the pixel `(4i) | (4i+1)<<8` of
`DEF_TEST(SkRasterPipeline_swizzle)` becomes `(4i+1) | 0xff<<8`. -/
theorem swizzle_selects_channels (sw : Swizzle) (prec : Precision) (bt : Batch) (mem : Memory)
    (regs : Regs) :
    runStages prec (sw.apply []) bt (mem, regs) =
      some (mem, fun i => swizzleLane (oneOf prec) sw.c0 sw.c1 sw.c2 sw.c3 (regs i)) ∧
    (∀ l : Lane,
      (swizzleLane (oneOf prec) sw.c0 sw.c1 sw.c2 sw.c3 l).r = select (oneOf prec) l sw.c0 ∧
      (swizzleLane (oneOf prec) sw.c0 sw.c1 sw.c2 sw.c3 l).g = select (oneOf prec) l sw.c1 ∧
      (swizzleLane (oneOf prec) sw.c0 sw.c1 sw.c2 sw.c3 l).b = select (oneOf prec) l sw.c2 ∧
      (swizzleLane (oneOf prec) sw.c0 sw.c1 sw.c2 sw.c3 l).a = select (oneOf prec) l sw.c3) ∧
    (∀ (one : Nat) (l : Lane), select one l .r = l.r ∧ select one l .g = l.g ∧
      select one l .b = l.b ∧ select one l .a = l.a ∧ select one l .zero = 0 ∧
      select one l .one = one) ∧
    (Channel.ofChar 'r' = some .r ∧ Channel.ofChar 'g' = some .g ∧
      Channel.ofChar 'b' = some .b ∧ Channel.ofChar 'a' = some .a ∧
      Channel.ofChar '0' = some .zero ∧ Channel.ofChar '1' = some .one) ∧
    (oneOf .low = 255 ∧ floatValue (oneOf .high) = 1) ∧
    Swizzle.ofString "g1b1" = some g1b1 ∧
    (∀ l : Lane, swizzleLane (oneOf prec) g1b1.c0 g1b1.c1 g1b1.c2 g1b1.c3 l =
      { l with r := l.g, g := oneOf prec, b := l.b, a := oneOf prec }) ∧
    (∀ (eng : Engine) (ptr x w : Nat) (m : Memory),
      ∃ m1, run eng (swizzlePipeline g1b1 ptr) x 0 w 1 m = some m1 ∧
        ∀ c, x ≤ c → c < x + w → m1 ptr 0 c = m ptr 0 c / 2 ^ 8 % 256 + 0xff * 2 ^ 8) ∧
    (∀ i, i < 64 → swizzleRg i = (4 * i) ||| ((4 * i + 1) <<< 8) ∧
      swizzleRg i / 2 ^ 8 % 256 + 0xff * 2 ^ 8 = (4 * i + 1) ||| (0xff <<< 8)) := by
  refine ⟨runStages_swizzle_apply sw prec bt mem regs, fun l => ⟨rfl, rfl, rfl, rfl⟩,
    fun one l => ⟨rfl, rfl, rfl, rfl, rfl, rfl⟩, by decide, ⟨rfl, ?_⟩, by decide,
    fun l => rfl, ?_, swizzleRg_pixels⟩
  · norm_num [floatValue, oneOf]
  · intro eng ptr x w m
    refine ⟨_, run_copyRow eng (swizzlePipeline g1b1 ptr) (swizzleRgPixel g1b1) ptr ptr
      (fun m bt => runBatch_swizzle g1b1 ptr ptr m bt) x 0 w m, ?_⟩
    intro c h1 h2
    simp only [copyRow]
    rw [if_pos ⟨trivial, trivial, h1, h2⟩, swizzleRgPixel_g1b1_eq]

theorem runBatch_swizzle_rgf (sw : Swizzle) (src dst : Nat) (mem : Memory) (bt : Batch) :
    runBatch .high [⟨.load_rgf32, src⟩, ⟨.swizzle sw.c0 sw.c1 sw.c2 sw.c3, 0⟩,
        ⟨.store_f16, dst⟩] mem bt =
      some (copyRow (swizzleRgfPixel sw) src dst bt.dy bt.dx bt.active mem) := by
  simp only [runBatch, runStages, applyStage, Option.map_some']
  congr 1
  funext b r c
  simp only [storeLanes, loadLanes, copyRow, swizzleRgfPixel, oneOf]
  by_cases hc : b = dst ∧ r = bt.dy ∧ bt.dx ≤ c ∧ c < bt.dx + bt.active
  · rw [if_pos hc, if_pos hc, if_pos (by omega)]
    congr 5
    omega
  · rw [if_neg hc, if_neg hc]

theorem swizzleRgfPixel_zgra (px : Nat) :
    swizzleRgfPixel zgra px =
      h 0 + h (px / 2 ^ 32 % 2 ^ 32) * 2 ^ 16 + h (px % 2 ^ 32) * 2 ^ 32 +
        h 0x3f800000 * 2 ^ 48 := by
  simp [swizzleRgfPixel, zgra, to_f16, swizzleLane, select, from_rgf32, Nat.mod_mod]

theorem chan16_pack (a b c d : Nat) (ha : a < 2 ^ 16) (hb : b < 2 ^ 16) (hc : c < 2 ^ 16)
    (hd : d < 2 ^ 16) :
    chan16 (a + b * 2 ^ 16 + c * 2 ^ 32 + d * 2 ^ 48) 0 = a ∧
    chan16 (a + b * 2 ^ 16 + c * 2 ^ 32 + d * 2 ^ 48) 1 = b ∧
    chan16 (a + b * 2 ^ 16 + c * 2 ^ 32 + d * 2 ^ 48) 2 = c ∧
    chan16 (a + b * 2 ^ 16 + c * 2 ^ 32 + d * 2 ^ 48) 3 = d := by
  simp only [chan16]
  norm_num
  refine ⟨by omega, by omega, by omega, by omega⟩

set_option maxRecDepth 100000 in
theorem swizzleRgf_pixels : ∀ i, i < 64 →
    swizzleRgfPixel zgra (swizzleRgf i) = swizzleWantF i := by
  decide

/-- C12: for every SIMD width, the swizzle `"0gra"` applied between `load_rgf32` and
`store_f16` writes, for every two-channel float pixel `(r, g)` of the range, the four
half-floats `h(0)`, `h(g)`, `h(r)`, `h(1)` in that order (`h` the reference encoder, `0` and
`1` the floats zero and one, the alpha of the two-channel load being one); for the 64 pixels
`(i+1, 2i+1)` of `DEF_TEST(SkRasterPipeline_swizzle)` that is the test's `want`. -/
theorem swizzle_0gra_emits_zero_green_red_one (eng : Engine) (src dst x w : Nat)
    (mem : Memory) :
    Swizzle.ofString "0gra" = some zgra ∧
    (∃ mem1, run eng (swizzlePipelineF zgra src dst) x 0 w 1 mem = some mem1 ∧
      ∀ c, x ≤ c → c < x + w →
        chan16 (mem1 dst 0 c) 0 = h 0 ∧
        chan16 (mem1 dst 0 c) 1 = h (mem src 0 c / 2 ^ 32 % 2 ^ 32) ∧
        chan16 (mem1 dst 0 c) 2 = h (mem src 0 c % 2 ^ 32) ∧
        chan16 (mem1 dst 0 c) 3 = h 0x3f800000 ∧
        mem1 dst 0 c = h 0 + h (mem src 0 c / 2 ^ 32 % 2 ^ 32) * 2 ^ 16 +
          h (mem src 0 c % 2 ^ 32) * 2 ^ 32 + h 0x3f800000 * 2 ^ 48) ∧
    (floatValue 0 = 0 ∧ floatValue 0x3f800000 = 1 ∧ (from_rgf32 (mem src 0 x) zeroLane).a =
      0x3f800000) ∧
    (∃ mem1, run eng (swizzlePipelineF zgra 1 2) 0 0 64 1 swizzleMemF = some mem1 ∧
      ∀ i, i < 64 → mem1 2 0 i = swizzleWantF i) := by
  have hrun : ∀ (s d x w : Nat) (m : Memory),
      run eng (swizzlePipelineF zgra s d) x 0 w 1 m =
        some (copyRow (swizzleRgfPixel zgra) s d 0 x w m) := fun s d x w m =>
    run_copyRow eng (swizzlePipelineF zgra s d) (swizzleRgfPixel zgra) s d
      (fun m bt => runBatch_swizzle_rgf zgra s d m bt) x 0 w m
  refine ⟨by decide, ⟨_, hrun src dst x w mem, ?_⟩, ⟨?_, ?_, rfl⟩, ⟨_, hrun 1 2 0 64 swizzleMemF, ?_⟩⟩
  · intro c h1 h2
    have hval : copyRow (swizzleRgfPixel zgra) src dst 0 x w mem dst 0 c =
        swizzleRgfPixel zgra (mem src 0 c) := by
      simp only [copyRow]
      rw [if_pos ⟨trivial, trivial, h1, h2⟩]
    rw [hval, swizzleRgfPixel_zgra]
    obtain ⟨e0, e1, e2, e3⟩ := chan16_pack _ _ _ _ (h_lt 0)
      (h_lt (mem src 0 c / 2 ^ 32 % 2 ^ 32)) (h_lt (mem src 0 c % 2 ^ 32)) (h_lt 0x3f800000)
    exact ⟨e0, e1, e2, e3, rfl⟩
  · norm_num [floatValue]
  · norm_num [floatValue]
  · intro i hi
    have hval : copyRow (swizzleRgfPixel zgra) 1 2 0 0 64 swizzleMemF 2 0 i =
        swizzleRgfPixel zgra (swizzleMemF 1 0 i) := by
      simp only [copyRow]
      rw [if_pos ⟨trivial, trivial, Nat.zero_le i, by omega⟩]
    rw [hval]
    exact swizzleRgf_pixels i hi

end RasterPipeline

/-! ## `SkTArray`: copying and moving -/

namespace SkTArray

variable {T : Type}

theorem copyLoop_eq_moveLoop (src dst : Slots T) (k : Nat) :
    copyLoop src dst k = moveLoop src dst k := by
  induction k with
  | zero => rfl
  | succ k ih => simp only [copyLoop, moveLoop, ih]

/-- After the loop of `move` or `copy` over `es.length` slots from a block that holds `es`, the
destination holds `es`. -/
theorem take_moveLoop (src dst : Slots T) (es : List T)
    (hsrc : src.take es.length = es.map some) (hlen : es.length ≤ dst.length) :
    (moveLoop src dst es.length).take es.length = es.map some := by
  apply List.ext_getElem?
  intro i
  have h2 := congrArg (fun l => l[i]?) hsrc
  simp only [List.getElem?_take, List.getElem?_map] at h2 ⊢
  rw [moveLoop_getElem?]
  by_cases hi : i < es.length
  · rw [if_pos hi] at h2 ⊢
    rw [if_pos ⟨hi, by omega⟩, h2, List.getElem?_eq_getElem hi]
    rfl
  · rw [if_neg hi] at h2 ⊢
    exact h2

theorem holds_read {a : SkTArray T} {es : List T} (h : Holds a es) (i : Nat)
    (hi : i < es.length) : a.slots.read (i : Int) = es[i]? := by
  rw [read_natCast, holds_getElem? h i hi]
  rfl

theorem eqLoop_true [DecidableEq T] (l r : Slots T) (n k : Nat)
    (h : ∀ i : Nat, k ≤ i → i < k + n → l.read (i : Int) = r.read (i : Int)) :
    eqLoop l r n (k : Int) = true := by
  induction n generalizing k with
  | zero => rfl
  | succ n ih =>
    have hk := h k (Nat.le_refl _) (by omega)
    have hnext : ((k : Int) + 1) = ((k + 1 : Nat) : Int) := by push_cast; rfl
    simp only [eqLoop, hk, ne_eq, not_true_eq_false, if_false, hnext]
    exact ih (k + 1) (fun i h1 h2 => h i (by omega) (by omega))

theorem operatorEq_of_holds [DecidableEq T] (a b : SkTArray T) (es : List T)
    (ha : Holds a es) (hb : Holds b es) : operatorEq a b = true := by
  have h1 : a.size = (es.length : Int) := ha.1
  have h2 : b.size = (es.length : Int) := hb.1
  simp only [operatorEq, h1, h2, ne_eq, not_true_eq_false, if_false, Int.toNat_ofNat]
  have h0 : (0 : Int) = ((0 : Nat) : Int) := rfl
  rw [h0]
  apply eqLoop_true
  intro i _ hi
  rw [holds_read ha i (by omega), holds_read hb i (by omega)]

theorem kMaxCapacity_le (c : Target) : kMaxCapacity c ≤ 2147483647 := by
  simp only [kMaxCapacity, INT_MAX]
  have : min (c.SIZE_MAX / c.sizeofT) 2147483647 ≤ 2147483647 := Nat.min_le_right _ _
  omega

theorem init_zero (c : Target) :
    init (T := T) c 0 =
      { fData := 0, slots := [], fSize := 0, fCapacity := 0, fOwnMemory := true } := by
  simp [init, storeCapacity]

/-- What `init(n)` leaves for `n > 0` within the capacity bound: size `n`, and an owned block
from the allocator with room for `max(n, kMinHeapAllocCount)` elements. -/
theorem init_pos (c : Target) (n : Nat) (hroom : AllocatorGivesRoom c)
    (hmin : kMinHeapAllocCount ≤ kMaxCapacity c) (hn : (n : Int) ≤ kMaxCapacity c)
    (h0 : n ≠ 0) :
    (init (T := T) c (n : Int)).fSize = (n : Int) ∧
    n ≤ (init (T := T) c (n : Int)).slots.length ∧
    (init (T := T) c (n : Int)).fOwnMemory = true ∧
    (init (T := T) c (n : Int)).fData =
      (Allocate c (max (n : Int) kMinHeapAllocCount) 1).data := by
  have hmax := kMaxCapacity_le c
  have h8 : kMinHeapAllocCount = 8 := rfl
  rw [h8] at hmin ⊢
  have hcap : ((storeCapacity (SkToU32_int (max (n : Int) 8)) : Nat) : Int) = max (n : Int) 8 := by
    simp only [storeCapacity, SkToU32_int]
    omega
  have hr := hroom (max (n : Int) 8) 1 (by omega) (by omega)
  have hne : ¬ ((n : Int) = 0) := by omega
  simp only [init, hne, if_false, h8, hcap, setItemArray, rawBlock, List.length_replicate]
  refine ⟨trivial, ?_, trivial, trivial⟩
  omega

theorem holds_copy (a : SkTArray T) (src : Slots T) (es : List T)
    (hsz : a.fSize = (es.length : Int)) (hlen : es.length ≤ a.slots.length)
    (hsrc : src.take es.length = es.map some) : Holds (a.copy src) es := by
  refine ⟨hsz, ?_⟩
  simp only [copy, size, hsz, Int.toNat_ofNat, copyLoop_eq_moveLoop]
  exact take_moveLoop src a.slots es hsrc hlen

theorem init_holds_room (c : Target) (n : Nat) (hroom : AllocatorGivesRoom c)
    (hmin : kMinHeapAllocCount ≤ kMaxCapacity c) (hn : (n : Int) ≤ kMaxCapacity c) :
    (init (T := T) c (n : Int)).fSize = (n : Int) ∧
    n ≤ (init (T := T) c (n : Int)).slots.length ∧
    (init (T := T) c (n : Int)).fOwnMemory = true := by
  by_cases h0 : n = 0
  · subst h0
    simp only [Nat.cast_zero, init_zero]
    exact ⟨trivial, Nat.zero_le _, trivial⟩
  · obtain ⟨h1, h2, h3, _⟩ := init_pos (T := T) c n hroom hmin hn h0
    exact ⟨h1, h2, h3⟩

theorem clear_fSize (a : SkTArray T) : a.clear.fSize = 0 := by
  simp [clear, pop_back_n]

theorem clear_length (a : SkTArray T) : a.clear.slots.length = a.slots.length := by
  simp [clear, pop_back_n, destroyLoop_length]

/-- After `clear()`, `checkRealloc(n, kExactFit)` for `n` within the capacity bound does not
abort and leaves an empty array whose block has room for `n` elements. -/
theorem checkRealloc_clear (c : Target) (a : SkTArray T) (n : Nat)
    (hroom : AllocatorGivesRoom c) (hcap : a.fCapacity ≤ a.slots.length)
    (hn : (n : Int) ≤ kMaxCapacity c) :
    ∃ a1, checkRealloc c a.clear (n : Int) kExactFit = some a1 ∧ n ≤ a1.slots.length ∧
      a1.fSize = 0 := by
  have hs := clear_fSize a
  have hl := clear_length a
  have hc : a.clear.capacity = (a.fCapacity : Int) := rfl
  by_cases h1 : a.clear.capacity - a.clear.fSize ≥ (n : Int)
  · refine ⟨a.clear, by simp only [checkRealloc, h1, if_true], ?_, hs⟩
    rw [hl]
    rw [hs, hc] at h1
    omega
  · have h2 : (n : Int) ≤ kMaxCapacity c - a.clear.fSize := by rw [hs]; omega
    have hr := hroom (n : Int) kExactFit (by omega) hn
    refine ⟨_, by simp only [checkRealloc, h1, if_false, h2, not_true_eq_false]; rfl, ?_, ?_⟩
    · simp only [setItemArray, move, hs, Int.toNat_zero, moveLoop, rawBlock,
        List.length_replicate, zero_add]
      omega
    · simp only [setItemArray, hs]

/-- The block a moved-from array leaves behind holds no object in its former slots. -/
theorem moved_read (a : SkTArray T) (i : Int) (h0 : 0 ≤ i) (h1 : i < a.fSize) :
    a.moved.read i = none := by
  have hz : (0 : Int) = ((0 : Nat) : Int) := rfl
  simp only [moved, Slots.read, if_pos h0, List.get?_eq_getElem?]
  rw [hz, destroyLoop_getElem?]
  by_cases hlen : i.toNat < a.slots.length
  · rw [if_pos ⟨Nat.zero_le _, by omega, hlen⟩]
    rfl
  · rw [if_neg (fun hc => hlen hc.2.2), List.getElem?_eq_none (by omega)]
    rfl

/-- C18: for every SkTArray `that` holding `e0..e(k-1)` within the capacity bound, and an
allocator that returns room for the requested count (the minimum heap allocation of 8
included): the copy constructor builds an array that owns its block, has the size of `that`
and holds `e0..e(k-1)` in order, and `operator==` of it with `that` is true; copy-assigning
`that` to another array `a` does not abort and leaves `a` with the size and the elements of
`that`, `operator==` true; `that` is a `const` reference in both and keeps its value; and
copy-assigning an array to itself returns it as it is. -/
theorem copy_gives_equal_array [DecidableEq T] (c : Target) (that : SkTArray T) (es : List T)
    (hroom : AllocatorGivesRoom c) (hmin : kMinHeapAllocCount ≤ kMaxCapacity c)
    (hthat : Holds that es) (hsz : that.fSize ≤ kMaxCapacity c) :
    (Holds (copyConstruct c that) es ∧ (copyConstruct c that).size = that.size ∧
      operatorEq (copyConstruct c that) that = true ∧
      (copyConstruct c that).fOwnMemory = true) ∧
    (∀ a : SkTArray T, a.fCapacity ≤ a.slots.length →
      ∃ a1, copyAssign c a (.other that) = some a1 ∧ Holds a1 es ∧ a1.size = that.size ∧
        operatorEq a1 that = true) ∧
    (∀ a : SkTArray T, copyAssign c a .self = some a) := by
  have hf : that.fSize = (es.length : Int) := hthat.1
  have hn : (es.length : Int) ≤ kMaxCapacity c := by rw [← hf]; exact hsz
  refine ⟨?_, ?_, fun a => rfl⟩
  · obtain ⟨h1, h2, h3⟩ := init_holds_room (T := T) c es.length hroom hmin hn
    have hh : Holds (copyConstruct c that) es := by
      simp only [copyConstruct, fromArray, hf]
      exact holds_copy _ that.slots es h1 h2 hthat.2
    refine ⟨hh, hh.1.trans hf.symm, operatorEq_of_holds _ _ es hh hthat, ?_⟩
    · simp only [copyConstruct, fromArray, copy, hf, h3]
  · intro a hcap
    obtain ⟨a1, h1, h2, h3⟩ := checkRealloc_clear c a es.length hroom hcap hn
    have hh : Holds (copy { a1 with fSize := that.fSize } that.slots) es :=
      holds_copy _ that.slots es hf h2 hthat.2
    refine ⟨_, ?_, hh, hh.1.trans hf.symm, operatorEq_of_holds _ _ es hh hthat⟩
    rw [← hf] at h1
    simp only [copyAssign, size, h1]

/-- C18, witness: copying the array `10, 20`, by construction and by assignment over the array
`1, 2, 3`, gives an array holding `10, 20` that compares equal to the original. -/
theorem copy_gives_equal_array_witness :
    Holds (copyConstruct (target64 4) sampleArray) [10, 20] ∧
    operatorEq (copyConstruct (target64 4) sampleArray) sampleArray = true ∧
    ∃ a1, copyAssign (target64 4) sampleDest (.other sampleArray) = some a1 ∧
      Holds a1 [10, 20] := by
  have h := copy_gives_equal_array (target64 4) sampleArray [10, 20]
    (sampleAllocate_room 4 (by decide)) (by decide) sampleArray_holds (by decide)
  obtain ⟨a1, h1, h2, _⟩ := h.2.1 sampleDest (by decide)
  exact ⟨h.1.1, h.1.2.2.1, a1, h1, h2⟩

/-- C19: move construction from an SkTArray `that` holding `e0..e(k-1)`.  When `that` owns its
block, the new array takes the pointer, the block, the size and the capacity, and `that` is
left with a null pointer, size 0 and capacity 0.  When `that` uses storage it does not own
(the preallocated block of an `SkSTArray`), and the allocator returns room for the requested
count, the new array owns a block it allocated, into which the elements have been moved, and
`that` is left on its own storage with size 0 and no object in its former slots.  In both
cases the new array holds `e0..e(k-1)` in order. -/
theorem move_construct_takes_elements (c : Target) (that : SkTArray T) (es : List T)
    (hthat : Holds that es) :
    (that.fOwnMemory = true →
      Holds (moveConstruct c that).1 es ∧ (moveConstruct c that).2.size = 0 ∧
      (moveConstruct c that).1.fData = that.fData ∧
      (moveConstruct c that).1.slots = that.slots ∧
      (that.fCapacity < 2 ^ 31 → (moveConstruct c that).1.fCapacity = that.fCapacity) ∧
      (moveConstruct c that).1.fOwnMemory = true ∧
      (moveConstruct c that).2.fData = 0 ∧ (moveConstruct c that).2.capacity = 0 ∧
      (moveConstruct c that).2.fOwnMemory = true) ∧
    (that.fOwnMemory = false → AllocatorGivesRoom c →
      kMinHeapAllocCount ≤ kMaxCapacity c → that.fSize ≤ kMaxCapacity c →
      Holds (moveConstruct c that).1 es ∧ (moveConstruct c that).2.size = 0 ∧
      (moveConstruct c that).1.fOwnMemory = true ∧
      (es ≠ [] → (moveConstruct c that).1.fData =
        (Allocate c (max that.fSize kMinHeapAllocCount) 1).data) ∧
      (moveConstruct c that).2.fData = that.fData ∧
      (moveConstruct c that).2.fCapacity = that.fCapacity ∧
      (moveConstruct c that).2.fOwnMemory = false ∧
      (∀ i : Int, 0 ≤ i → i < that.fSize → (moveConstruct c that).2.get i = none)) := by
  have hf : that.fSize = (es.length : Int) := hthat.1
  constructor
  · intro hown
    simp only [moveConstruct, hown, if_true, size, capacity, storeCapacity]
    refine ⟨⟨hf, hthat.2⟩, trivial, trivial, trivial, ?_, trivial, trivial, by decide, trivial⟩
    intro hlt
    exact Nat.mod_eq_of_lt hlt
  · intro hown hroom hmin hsz
    have hn : (es.length : Int) ≤ kMaxCapacity c := by rw [← hf]; exact hsz
    obtain ⟨h1, h2, h3⟩ := init_holds_room (T := T) c es.length hroom hmin hn
    simp only [moveConstruct, hown, Bool.false_eq_true, if_false, size, get]
    refine ⟨⟨?_, ?_⟩, trivial, ?_, ?_, trivial, trivial, trivial, ?_⟩
    · simp only [hf, h1]
    · simp only [move, hf, Int.toNat_ofNat]
      exact take_moveLoop that.slots _ es hthat.2 h2
    · simp only [hf, h3]
    · intro hne
      have h0 : es.length ≠ 0 := fun h => hne (List.length_eq_zero.mp h)
      simp only [hf]
      exact (init_pos (T := T) c es.length hroom hmin hn h0).2.2.2
    · intro i h0 hi
      exact moved_read that i h0 hi

/-- C19, witness: move construction from the array `10, 20`, once when it owns its block and
once when it lives in a preallocated block of four. -/
theorem move_construct_takes_elements_witness :
    (Holds (moveConstruct (target64 4) sampleArray).1 [10, 20] ∧
      (moveConstruct (target64 4) sampleArray).2.size = 0 ∧
      (moveConstruct (target64 4) sampleArray).1.fData = sampleArray.fData) ∧
    (Holds (moveConstruct (target64 4) sampleInline).1 [10, 20] ∧
      (moveConstruct (target64 4) sampleInline).2.size = 0 ∧
      (moveConstruct (target64 4) sampleInline).1.fOwnMemory = true) := by
  have h1 := (move_construct_takes_elements (target64 4) sampleArray [10, 20]
    sampleArray_holds).1 rfl
  have h2 := (move_construct_takes_elements (target64 4) sampleInline [10, 20]
    (by simp [Holds, sampleInline])).2 rfl (sampleAllocate_room 4 (by decide)) (by decide)
    (by decide)
  exact ⟨⟨h1.1, h1.2.1, h1.2.2.1⟩, ⟨h2.1, h2.2.1, h2.2.2.1⟩⟩

/-- C20: for every SkTArray `that` holding `e0..e(k-1)` within the capacity bound, every other
array `a` whose block has room for `capacity()` elements, and an allocator that returns room
for the requested count: move-assigning `that` to `a` does not abort, leaves `a` holding
`e0..e(k-1)` in order, and leaves `that` on its own storage with size 0 and no object in its
former slots; move-assigning an array to itself returns it as it is, size and elements
included. -/
theorem move_assign_replaces_contents (c : Target) (a that : SkTArray T) (es : List T)
    (hroom : AllocatorGivesRoom c) (hcap : a.fCapacity ≤ a.slots.length)
    (hthat : Holds that es) (hsz : that.fSize ≤ kMaxCapacity c) :
    (∃ a1 that1, moveAssign c a (.other that) = some (a1, .other that1) ∧ Holds a1 es ∧
      a1.size = (es.length : Int) ∧ that1.size = 0 ∧ that1.empty = true ∧
      that1.fData = that.fData ∧ that1.fCapacity = that.fCapacity ∧
      (∀ i : Int, 0 ≤ i → i < that.fSize → that1.get i = none)) ∧
    moveAssign c a .self = some (a, .self) ∧
    (∀ ds, Holds a ds → ∃ a1, moveAssign c a .self = some (a1, .self) ∧ Holds a1 ds ∧
      a1.size = a.size) := by
  have hf : that.fSize = (es.length : Int) := hthat.1
  have hn : (es.length : Int) ≤ kMaxCapacity c := by rw [← hf]; exact hsz
  refine ⟨?_, rfl, fun ds hds => ⟨a, rfl, hds, rfl⟩⟩
  obtain ⟨a1, h1, h2, _⟩ := checkRealloc_clear c a es.length hroom hcap hn
  refine ⟨{ a1 with fSize := that.fSize, slots := that.move a1.slots },
    { that with slots := that.moved, fSize := 0 }, by simp only [moveAssign, size, hf, h1],
    ⟨hf, ?_⟩, hf, rfl, rfl, rfl, rfl, ?_⟩
  · simp only [move, hf, Int.toNat_ofNat]
    exact take_moveLoop that.slots _ es hthat.2 h2
  · intro i h0 hi
    exact moved_read that i h0 hi

/-- C20, witness: move-assigning the array `10, 20` of a preallocated block to the array
`1, 2, 3` leaves `10, 20` in the destination and size 0 in the source. -/
theorem move_assign_replaces_contents_witness :
    ∃ a1 that1, moveAssign (target64 4) sampleDest (.other sampleInline) =
        some (a1, .other that1) ∧ Holds a1 [10, 20] ∧ that1.size = 0 := by
  obtain ⟨a1, that1, h1, h2, _, h3, _⟩ :=
    (move_assign_replaces_contents (target64 4) sampleDest sampleInline [10, 20]
      (sampleAllocate_room 4 (by decide)) (by decide) (by simp [Holds, sampleInline])
      (by decide)).1
  exact ⟨a1, that1, h1, h2, h3⟩

/-! ### Growth, removal and storage: lemmas -/

theorem placeLoop_length (s : Slots T) (start : Int) (v : Nat → Option T) (n : Nat) :
    (placeLoop s start v n).length = s.length := by
  induction n with
  | zero => rfl
  | succ n ih =>
    simp only [placeLoop, Slots.write]
    split
    · simp [ih]
    · exact ih

/-- After a construction loop of `n` objects from slot `s0`, slot `s0 + j` holds object `j` and
the other slots are as before. -/
theorem placeLoop_getElem? (s : Slots T) (s0 n i : Nat) (v : Nat → Option T) :
    (placeLoop s (s0 : Int) v n)[i]? =
      if s0 ≤ i ∧ i < s0 + n ∧ i < s.length then some (v (i - s0)) else s[i]? := by
  induction n with
  | zero =>
    simp only [placeLoop]
    rw [if_neg (by omega)]
  | succ n ih =>
    have hw : ((s0 : Int) + (n : Int)) = ((s0 + n : Nat) : Int) := by push_cast; rfl
    simp only [placeLoop, Nat.cast_add] at ih ⊢
    rw [hw, write_natCast, List.getElem?_set, placeLoop_length, ih]
    by_cases hki : s0 + n = i
    · subst hki
      by_cases hk : s0 + n < s.length
      · simp [hk]
      · have : s[s0 + n]? = none := List.getElem?_eq_none (by omega)
        simp [hk, this]
    · rw [if_neg hki]
      by_cases h1 : s0 ≤ i ∧ i < s0 + n ∧ i < s.length
      · rw [if_pos h1, if_pos ⟨h1.1, by omega, h1.2.2⟩]
      · rw [if_neg h1, if_neg (by omega)]

/-- Constructing the objects `ts` behind a block prefix that holds `es` gives a prefix that
holds `es ++ ts`. -/
theorem take_placeLoop (s : Slots T) (es ts : List T) (v : Nat → Option T)
    (hs : s.take es.length = es.map some) (hlen : es.length + ts.length ≤ s.length)
    (hv : ∀ i, i < ts.length → v i = ts[i]?) :
    (placeLoop s (es.length : Int) v ts.length).take (es.length + ts.length) =
      (es ++ ts).map some := by
  apply List.ext_getElem?
  intro i
  have h2 := congrArg (fun l => l[i]?) hs
  simp only [List.getElem?_take, List.getElem?_map] at h2 ⊢
  rw [placeLoop_getElem?]
  by_cases hi : i < es.length
  · rw [if_pos hi] at h2
    rw [if_pos (by omega), if_neg (by omega), h2, List.getElem?_append_left hi]
  · by_cases hi2 : i < es.length + ts.length
    · rw [if_pos hi2, if_pos ⟨by omega, hi2, by omega⟩, hv _ (by omega),
        List.getElem?_append_right (by omega)]
      have hlt : i - es.length < ts.length := by omega
      rw [List.getElem?_eq_getElem hlt]
      rfl
    · rw [if_neg hi2, List.getElem?_eq_none (by simp; omega)]
      rfl

theorem inv_bits {c : Target} {a : SkTArray T} (h : Inv c a) : a.fCapacity < 2 ^ 31 := by
  have h1 := h.2.2.1
  have h2 := kMaxCapacity_le c
  simp only [capacity] at h1
  omega

theorem inv_of_holds_size {c : Target} {a : SkTArray T} {es : List T} (h : Inv c a)
    (hh : Holds a es) : (es.length : Int) ≤ kMaxCapacity c ∧ es.length ≤ a.slots.length := by
  obtain ⟨_, h2, h3, h4⟩ := h
  have := hh.1
  simp only [capacity] at h2 h3
  constructor <;> omega

theorem checkRealloc_keep (c : Target) (a : SkTArray T) (delta : Int) (g : ℚ)
    (h : delta ≤ a.capacity - a.fSize) : checkRealloc c a delta g = some a := by
  simp only [checkRealloc, ge_iff_le, h, if_true]

theorem checkRealloc_abort (c : Target) (a : SkTArray T) (delta : Int) (g : ℚ)
    (h1 : ¬ delta ≤ a.capacity - a.fSize) (h2 : ¬ delta ≤ kMaxCapacity c - a.fSize) :
    checkRealloc c a delta g = none := by
  simp only [checkRealloc, ge_iff_le, h1, if_false, h2, not_false_eq_true, if_true]

theorem checkRealloc_grow (c : Target) (a : SkTArray T) (delta : Int) (g : ℚ)
    (h1 : ¬ delta ≤ a.capacity - a.fSize) (h2 : delta ≤ kMaxCapacity c - a.fSize) :
    checkRealloc c a delta g =
      some (setItemArray c a (Allocate c (a.fSize + delta) g)
        (a.move (rawBlock c (Allocate c (a.fSize + delta) g)))) := by
  simp only [checkRealloc, ge_iff_le, h1, if_false, h2, not_true_eq_false]

/-- The array `checkRealloc` builds when it reallocates: an owned block from the allocator with
room for the new count, holding the elements the array held. -/
theorem grow_spec (c : Target) (a : SkTArray T) (delta : Int) (g : ℚ)
    (hroom : AllocatorGivesRoom c) (h0 : 0 ≤ a.fSize) (hd : 0 ≤ delta)
    (h2 : delta ≤ kMaxCapacity c - a.fSize) :
    Inv c (setItemArray c a (Allocate c (a.fSize + delta) g)
      (a.move (rawBlock c (Allocate c (a.fSize + delta) g)))) ∧
    delta ≤ (setItemArray c a (Allocate c (a.fSize + delta) g)
      (a.move (rawBlock c (Allocate c (a.fSize + delta) g)))).capacity - a.fSize ∧
    ∀ es, Holds a es → Holds (setItemArray c a (Allocate c (a.fSize + delta) g)
      (a.move (rawBlock c (Allocate c (a.fSize + delta) g)))) es := by
  have hmax := kMaxCapacity_le c
  have hr := hroom (a.fSize + delta) g (by omega) (by omega)
  generalize hal : Allocate c (a.fSize + delta) g = al at hr ⊢
  generalize hroomN : al.size / c.sizeofT = room at hr
  have hcapv : storeCapacity (SkToU32 (min room (SkToSizeT (kMaxCapacity c)))) =
      min room (kMaxCapacity c).toNat := by
    simp only [storeCapacity, SkToU32, SkToSizeT]
    have : min room (kMaxCapacity c).toNat ≤ (kMaxCapacity c).toNat := Nat.min_le_right _ _
    omega
  have hlen : (a.move (rawBlock (T := T) c al)).length = room := by
    simp only [move, moveLoop_length, rawBlock, List.length_replicate, hroomN]
  refine ⟨⟨h0, ?_, ?_, ?_⟩, ?_, ?_⟩
  · simp only [setItemArray, capacity, hroomN, hcapv]
    omega
  · simp only [setItemArray, capacity, hroomN, hcapv]
    omega
  · simp only [setItemArray, hroomN, hcapv, hlen]
    exact Nat.min_le_left _ _
  · simp only [setItemArray, capacity, hroomN, hcapv]
    omega
  · intro es hh
    refine ⟨hh.1, ?_⟩
    have hsz := hh.1
    simp only [setItemArray, move, hsz, Int.toNat_ofNat]
    apply take_moveLoop a.slots _ es hh.2
    simp only [rawBlock, List.length_replicate, hroomN]
    omega

/-- What `checkRealloc(delta, g)` does on an array that satisfies the invariant, when it does
not abort: the size and the elements are kept, the invariant holds, and `delta` more objects
fit; the array is returned as it is when they already fitted. -/
theorem checkRealloc_spec (c : Target) (a : SkTArray T) (delta : Int) (g : ℚ)
    (hroom : AllocatorGivesRoom c) (hinv : Inv c a) (hd : 0 ≤ delta)
    (hok : delta ≤ a.capacity - a.fSize ∨ delta ≤ kMaxCapacity c - a.fSize) :
    ∃ a1, checkRealloc c a delta g = some a1 ∧ Inv c a1 ∧ a1.fSize = a.fSize ∧
      delta ≤ a1.capacity - a1.fSize ∧ (∀ es, Holds a es → Holds a1 es) ∧
      (delta ≤ a.capacity - a.fSize → a1 = a) ∧
      (¬ delta ≤ a.capacity - a.fSize →
        a1.fOwnMemory = true ∧ a1.fData = (Allocate c (a.fSize + delta) g).data) := by
  by_cases h1 : delta ≤ a.capacity - a.fSize
  · exact ⟨a, checkRealloc_keep c a delta g h1, hinv, rfl, h1, fun _ h => h, fun _ => rfl,
      fun h => absurd h1 h⟩
  · have h2 : delta ≤ kMaxCapacity c - a.fSize := hok.resolve_left h1
    obtain ⟨g1, g2, g3⟩ := grow_spec c a delta g hroom hinv.1 hd h2
    exact ⟨_, checkRealloc_grow c a delta g h1 h2, g1, rfl, g2, g3, fun h => absurd h h1,
      fun _ => ⟨rfl, rfl⟩⟩

theorem checkRealloc_inv (c : Target) (a a1 : SkTArray T) (delta : Int) (g : ℚ)
    (hroom : AllocatorGivesRoom c) (hinv : Inv c a) (hd : 0 ≤ delta)
    (h : checkRealloc c a delta g = some a1) :
    Inv c a1 ∧ a1.fSize = a.fSize ∧ delta ≤ a1.capacity - a1.fSize := by
  by_cases hok : delta ≤ a.capacity - a.fSize ∨ delta ≤ kMaxCapacity c - a.fSize
  · obtain ⟨a2, e, i1, i2, i3, _⟩ := checkRealloc_spec c a delta g hroom hinv hd hok
    rw [e] at h
    cases h
    exact ⟨i1, i2, i3⟩
  · rw [checkRealloc_abort c a delta g (fun x => hok (Or.inl x)) (fun x => hok (Or.inr x))] at h
    cases h

theorem inv_pop_back_n (c : Target) (a : SkTArray T) (n : Int) (h : Inv c a) (h0 : 0 ≤ n)
    (hn : n ≤ a.fSize) : Inv c (a.pop_back_n n) := by
  obtain ⟨h1, h2, h3, h4⟩ := h
  refine ⟨?_, ?_, h3, ?_⟩
  · simp only [pop_back_n]; omega
  · simp only [pop_back_n, capacity] at h2 ⊢; omega
  · simp only [pop_back_n, destroyLoop_length]; exact h4

theorem pop_back_eq (a : SkTArray T) : a.pop_back = a.pop_back_n 1 := by
  simp only [pop_back, pop_back_n, Int.toNat_one, destroyLoop, Nat.cast_zero, add_zero]

theorem holds_pop_back_n (a : SkTArray T) (es : List T) (n : Nat) (h : Holds a es)
    (hn : n ≤ es.length) : Holds (a.pop_back_n (n : Int)) (es.take (es.length - n)) := by
  have hsz : a.fSize = (es.length : Int) := h.1
  have hcast : (es.length : Int) - (n : Int) = ((es.length - n : Nat) : Int) := by omega
  refine ⟨?_, ?_⟩
  · simp only [pop_back_n, hsz, List.length_take]
    omega
  · simp only [pop_back_n, hsz, hcast, Int.toNat_ofNat, List.length_take]
    apply List.ext_getElem?
    intro i
    simp only [List.getElem?_take, List.getElem?_map]
    rw [destroyLoop_getElem?]
    by_cases hi : i < min (es.length - n) es.length
    · have hi2 : i < es.length := by omega
      rw [if_pos hi, if_neg (by omega), if_pos (by omega), holds_getElem? h i hi2,
        List.getElem?_eq_getElem hi2]
      rfl
    · rw [if_neg hi, if_neg (by omega)]
      rfl

/-- The slots `pop_back_n(n)` leaves behind the new size hold no object. -/
theorem pop_back_n_destroys (a : SkTArray T) (es : List T) (n : Nat) (h : Holds a es)
    (hn : n ≤ es.length) (i : Nat) (h1 : es.length - n ≤ i) (h2 : i < es.length) :
    (a.pop_back_n (n : Int)).get (i : Int) = none := by
  have hsz : a.fSize = (es.length : Int) := h.1
  have hcast : (es.length : Int) - (n : Int) = ((es.length - n : Nat) : Int) := by omega
  simp only [get, read_natCast, pop_back_n, hsz, hcast, Int.toNat_ofNat]
  rw [destroyLoop_getElem?]
  by_cases hlen : i < a.slots.length
  · rw [if_pos ⟨h1, by omega, hlen⟩]
    rfl
  · rw [if_neg (fun hc => hlen hc.2.2), List.getElem?_eq_none (by omega)]
    rfl

/-- C22: for every SkTArray holding `e0..e(s-1)` and every `n` with `0 <= n <= s`,
`pop_back_n(n)` leaves size `s - n`, the first `s - n` elements as they were, the `n` last
slots without an object, and the capacity, the storage pointer and the ownership flag
unchanged; `pop_back()` is the same state change as `pop_back_n(1)`, so on a non-empty array
it leaves `e0..e(s-2)`. -/
theorem pop_back_n_keeps_front (a : SkTArray T) (es : List T) (n : Nat) (h : Holds a es)
    (hn : n ≤ es.length) :
    (a.pop_back_n (n : Int)).size = (es.length : Int) - (n : Int) ∧
    Holds (a.pop_back_n (n : Int)) (es.take (es.length - n)) ∧
    (∀ i : Nat, i < es.length - n → (a.pop_back_n (n : Int)).get (i : Int) = es[i]?) ∧
    (∀ i : Nat, es.length - n ≤ i → i < es.length →
      (a.pop_back_n (n : Int)).get (i : Int) = none) ∧
    (a.pop_back_n (n : Int)).capacity = a.capacity ∧
    (a.pop_back_n (n : Int)).fData = a.fData ∧
    (a.pop_back_n (n : Int)).fOwnMemory = a.fOwnMemory ∧
    a.pop_back = a.pop_back_n 1 ∧
    (1 ≤ es.length → Holds a.pop_back (es.take (es.length - 1)) ∧
      a.pop_back.size = (es.length : Int) - 1 ∧ a.pop_back.capacity = a.capacity) := by
  have hsz : a.fSize = (es.length : Int) := h.1
  have hh := holds_pop_back_n a es n h hn
  refine ⟨by simp only [pop_back_n, size, hsz], hh, ?_,
    fun i h1 h2 => pop_back_n_destroys a es n h hn i h1 h2, rfl, rfl, rfl, pop_back_eq a, ?_⟩
  · intro i hi
    have hlen : i < (es.take (es.length - n)).length := by
      simp only [List.length_take]; omega
    have := holds_read hh i hlen
    simp only [get]
    rw [this, List.getElem?_take, if_pos hi]
  · intro h1
    rw [pop_back_eq]
    have := holds_pop_back_n a es 1 h h1
    refine ⟨this, by simp only [pop_back_n, size, hsz], rfl⟩

/-- C22, witness: `pop_back_n(2)` on the array `1, 2, 3` leaves `1` with capacity 3. -/
theorem pop_back_n_keeps_front_witness :
    Holds (sampleDest.pop_back_n 2) [1] ∧ (sampleDest.pop_back_n 2).capacity = 3 := by
  have h := pop_back_n_keeps_front sampleDest [1, 2, 3] 2 (by simp [Holds, sampleDest])
    (by decide)
  exact ⟨h.2.1, h.2.2.2.2.1⟩

theorem inv_removeShuffle (c : Target) (a : SkTArray T) (n : Int) (h : Inv c a)
    (h0 : 0 ≤ n) (hn : n < a.fSize) : Inv c (a.removeShuffle n) := by
  obtain ⟨h1, h2, h3, h4⟩ := h
  have hlen : (a.removeShuffle n).slots.length = a.slots.length := by
    simp only [removeShuffle, moveSlot, Slots.write]
    repeat' split
    all_goals simp
  refine ⟨?_, ?_, h3, ?_⟩
  · simp only [removeShuffle]; omega
  · simp only [removeShuffle, capacity] at h2 ⊢; omega
  · rw [hlen]; exact h4

/-- The slots of the block after `removeShuffle(n)` on an array that holds `es`, `n < s`. -/
theorem removeShuffle_getElem? (a : SkTArray T) (es : List T) (n : Nat) (last : T)
    (h : Holds a es) (hlast : es[es.length - 1]? = some last) (i : Nat)
    (hi : i < es.length - 1) :
    (a.removeShuffle (n : Int)).slots[i]? = some (if i = n then some last else es[i]?) := by
  have hsz : a.fSize = (es.length : Int) := h.1
  have hcast : (es.length : Int) - 1 = ((es.length - 1 : Nat) : Int) := by omega
  have hlen : es.length ≤ a.slots.length := by
    have := congrArg List.length h.2
    simp only [List.length_take, List.length_map] at this
    omega
  simp only [removeShuffle, hsz, hcast, moveSlot, write_natCast, read_natCast, ne_eq,
    Nat.cast_inj]
  by_cases hnl : n = es.length - 1
  · rw [if_neg (by simpa using hnl), List.getElem?_set]
    rw [if_neg (by omega), if_neg (by omega), holds_getElem? h i (by omega)]
  · rw [if_pos (by simpa using hnl)]
    simp only [List.getElem?_set, List.length_set]
    rw [if_neg (by omega)]
    by_cases hin : n = i
    · subst hin
      rw [if_pos rfl, if_pos (by omega), if_neg hnl, holds_getElem? h _ (by omega), hlast,
        if_pos rfl]
      rfl
    · rw [if_neg hin, if_neg hin, holds_getElem? h i (by omega), if_neg (fun e => hin e.symm)]

theorem holds_removeShuffle (a : SkTArray T) (es : List T) (n : Nat) (last : T)
    (h : Holds a es) (hn : n < es.length) (hlast : es[es.length - 1]? = some last) :
    Holds (a.removeShuffle (n : Int)) ((es.set n last).take (es.length - 1)) := by
  have hsz : a.fSize = (es.length : Int) := h.1
  refine ⟨?_, ?_⟩
  · simp only [removeShuffle, hsz, List.length_take, List.length_set]
    omega
  · apply List.ext_getElem?
    intro i
    simp only [List.getElem?_take, List.length_take, List.length_set, List.getElem?_map,
      List.getElem?_set]
    by_cases hi : i < min (es.length - 1) es.length
    · have hi1 : i < es.length - 1 := by omega
      rw [if_pos hi, if_pos hi1, removeShuffle_getElem? a es n last h hlast i hi1]
      by_cases hin : n = i
      · subst hin
        rw [if_pos rfl, if_pos rfl, if_pos (by omega)]
        rfl
      · rw [if_neg (fun e => hin e.symm), if_neg hin, List.getElem?_eq_getElem (by omega)]
        rfl
    · rw [if_neg hi, if_neg (by omega)]
      rfl

/-- Putting the last element in place of element `n` and dropping the last position leaves
the elements other than element `n`, up to order. -/
theorem set_dropLast_perm (es : List T) (n : Nat) (last : T) (hn : n < es.length)
    (hlast : es.getLast? = some last) :
    ((es.set n last).dropLast).Perm (es.eraseIdx n) := by
  induction es generalizing n with
  | nil => simp at hn
  | cons x rest ih =>
    cases rest with
    | nil =>
      have h0 : n = 0 := by simpa using hn
      subst h0
      simp
    | cons y r =>
      have hl : (y :: r).getLast? = some last := by
        simpa [List.getLast?_cons_cons] using hlast
      cases n with
      | zero =>
        simp only [List.set_cons_zero, List.dropLast_cons₂, List.eraseIdx_cons_zero]
        have hsplit : (y :: r).dropLast ++ [last] = y :: r :=
          List.dropLast_append_getLast? last hl
        have hp : (last :: (y :: r).dropLast).Perm ((y :: r).dropLast ++ [last]) :=
          (List.perm_append_singleton last _).symm
        rw [hsplit] at hp
        exact hp
      | succ m =>
        have hm : m < (y :: r).length := by simpa using hn
        have := ih m hm hl
        cases m with
        | zero =>
          simp only [List.set_cons_succ, List.set_cons_zero, List.dropLast_cons₂,
            List.eraseIdx_cons_succ, List.eraseIdx_cons_zero] at this ⊢
          exact List.Perm.cons x this
        | succ k =>
          simp only [List.set_cons_succ, List.dropLast_cons₂, List.eraseIdx_cons_succ] at this ⊢
          exact List.Perm.cons x this

theorem getLast?_eq_getElem? (es : List T) : es.getLast? = es[es.length - 1]? := by
  rw [List.getLast?_eq_getElem?]

/-- C30: for every SkTArray holding `e0..e(s-1)`, `s >= 1`, and every index `n` with
`0 <= n < s`, `removeShuffle(n)` leaves size `s - 1`; position `n`, when it is not the last
one, holds the former last element; every other position below `s - 1` holds what it held;
and the elements left are the old ones without element `n`, up to order.  The capacity, the
storage pointer and the ownership flag are unchanged. -/
theorem removeShuffle_moves_last (a : SkTArray T) (es : List T) (n : Nat) (last : T)
    (h : Holds a es) (hn : n < es.length) (hlast : es.getLast? = some last) :
    (a.removeShuffle (n : Int)).size = (es.length : Int) - 1 ∧
    Holds (a.removeShuffle (n : Int)) ((es.set n last).dropLast) ∧
    (n ≠ es.length - 1 → (a.removeShuffle (n : Int)).get (n : Int) = some last) ∧
    (∀ i : Nat, i < es.length - 1 → i ≠ n →
      (a.removeShuffle (n : Int)).get (i : Int) = es[i]?) ∧
    ((es.set n last).dropLast).Perm (es.eraseIdx n) ∧
    (a.removeShuffle (n : Int)).capacity = a.capacity ∧
    (a.removeShuffle (n : Int)).fData = a.fData ∧
    (a.removeShuffle (n : Int)).fOwnMemory = a.fOwnMemory := by
  have hsz : a.fSize = (es.length : Int) := h.1
  have hl : es[es.length - 1]? = some last := by rw [← getLast?_eq_getElem?]; exact hlast
  have hdl : (es.set n last).dropLast = (es.set n last).take (es.length - 1) := by
    rw [List.dropLast_eq_take, List.length_set]
  refine ⟨by simp only [removeShuffle, size, hsz], ?_, ?_, ?_, set_dropLast_perm es n last hn hlast,
    rfl, rfl, rfl⟩
  · rw [hdl]
    exact holds_removeShuffle a es n last h hn hl
  · intro hne
    simp only [get, read_natCast]
    rw [removeShuffle_getElem? a es n last h hl n (by omega), if_pos rfl]
    rfl
  · intro i hi hin
    simp only [get, read_natCast]
    rw [removeShuffle_getElem? a es n last h hl i hi, if_neg hin]
    rfl

/-- C30, witness: `removeShuffle(0)` on the array `1, 2, 3` leaves `3, 2`. -/
theorem removeShuffle_moves_last_witness :
    Holds (sampleDest.removeShuffle 0) [3, 2] ∧ (sampleDest.removeShuffle 0).size = 2 := by
  have h := removeShuffle_moves_last sampleDest [1, 2, 3] 0 3 (by simp [Holds, sampleDest])
    (by decide) rfl
  exact ⟨h.2.1, h.1⟩

theorem placeLoop_one (s : Slots T) (start : Int) (v : Nat → Option T) :
    placeLoop s start v 1 = s.write start (v 0) := by
  simp only [placeLoop, Nat.cast_zero, add_zero]

theorem inv_place (c : Target) (a1 : SkTArray T) (k : Int) (n : Nat) (start : Int)
    (v : Nat → Option T) (h : Inv c a1) (h0 : 0 ≤ k) (hk : k ≤ a1.capacity - a1.fSize) :
    Inv c { a1 with fSize := a1.fSize + k, slots := placeLoop a1.slots start v n } := by
  obtain ⟨h1, h2, h3, h4⟩ := h
  refine ⟨?_, ?_, h3, ?_⟩
  · simp only; omega
  · simp only [capacity] at hk ⊢; omega
  · simp only [placeLoop_length]; exact h4

theorem holds_place (a1 : SkTArray T) (es ts : List T) (v : Nat → Option T)
    (h : Holds a1 es) (hlen : es.length + ts.length ≤ a1.slots.length)
    (hv : ∀ i, i < ts.length → v i = ts[i]?) :
    Holds { a1 with fSize := a1.fSize + (ts.length : Int),
                    slots := placeLoop a1.slots a1.fSize v ts.length } (es ++ ts) := by
  have hsz : a1.fSize = (es.length : Int) := h.1
  refine ⟨?_, ?_⟩
  · simp only [hsz, List.length_append]; omega
  · simp only [hsz, List.length_append]
    exact take_placeLoop a1.slots es ts v h.2 hlen hv

/-- The common part of the operations that append: `checkRealloc(k, g)` followed by the
construction of the `k` objects `ts` behind the old elements. -/
theorem grow_place_spec (c : Target) (a : SkTArray T) (es ts : List T) (g : ℚ)
    (v : Nat → Option T) (hroom : AllocatorGivesRoom c) (hinv : Inv c a) (hh : Holds a es)
    (hv : ∀ i, i < ts.length → v i = ts[i]?)
    (hok : (ts.length : Int) ≤ a.capacity - a.fSize ∨
      (ts.length : Int) ≤ kMaxCapacity c - a.fSize) :
    ∃ a1, checkRealloc c a (ts.length : Int) g = some a1 ∧ a1.fSize = a.fSize ∧
      Inv c { a1 with fSize := a1.fSize + (ts.length : Int),
                      slots := placeLoop a1.slots a1.fSize v ts.length } ∧
      Holds { a1 with fSize := a1.fSize + (ts.length : Int),
                      slots := placeLoop a1.slots a1.fSize v ts.length } (es ++ ts) ∧
      ((ts.length : Int) ≤ a.capacity - a.fSize → a1 = a) ∧
      (¬ (ts.length : Int) ≤ a.capacity - a.fSize →
        a1.fOwnMemory = true ∧ a1.fData = (Allocate c (a.fSize + (ts.length : Int)) g).data) := by
  obtain ⟨a1, e, i1, i2, i3, i4, i5, i6⟩ :=
    checkRealloc_spec c a (ts.length : Int) g hroom hinv (by omega) hok
  have hh1 := i4 es hh
  have hsz : a1.fSize = (es.length : Int) := hh1.1
  have hlen : es.length + ts.length ≤ a1.slots.length := by
    have h4 := i1.2.2.2
    simp only [capacity] at i3
    omega
  exact ⟨a1, e, i2, inv_place c a1 _ _ _ v i1 (by omega) i3, holds_place a1 es ts v hh1 hlen hv,
    i5, i6⟩

theorem replicate_getElem? (k : Nat) (d : T) (i : Nat) (hi : i < (List.replicate k d).length) :
    some d = (List.replicate k d)[i]? := by
  rw [List.getElem?_eq_getElem hi, List.getElem_replicate]

/-- What `push_back(t)` does on an array that satisfies the invariant and holds `es`, when
there is spare capacity or the size is below `kMaxCapacity`. -/
theorem push_back_spec (c : Target) (a : SkTArray T) (es : List T) (t : T)
    (hroom : AllocatorGivesRoom c) (hinv : Inv c a) (hh : Holds a es)
    (hok : a.fSize < a.capacity ∨ a.fSize < kMaxCapacity c) :
    ∃ a1, push_back c a t = some a1 ∧ Inv c a1 ∧ Holds a1 (es ++ [t]) ∧
      (a.fSize < a.capacity → a1.fData = a.fData ∧ a1.fCapacity = a.fCapacity ∧
        a1.fOwnMemory = a.fOwnMemory ∧ a1.slots.length = a.slots.length) ∧
      (¬ a.fSize < a.capacity → a1.fOwnMemory = true ∧
        a1.fData = (Allocate c (a.fSize + 1) kGrowing).data) := by
  obtain ⟨a1, e, i2, i3, i4, i5, i6⟩ := grow_place_spec c a es [t] kGrowing (fun _ => some t)
    hroom hinv hh (fun i hi => by
      have : i = 0 := by simpa using hi
      subst this; rfl)
    (by simp only [List.length_singleton, Nat.cast_one]; omega)
  simp only [List.length_singleton, Nat.cast_one, placeLoop_one] at e i3 i4 i5 i6
  refine ⟨_, ?_, i3, i4, ?_, ?_⟩
  · simp only [push_back, push_back_raw, e]
  · intro hs
    have := i5 (by omega)
    subst this
    refine ⟨rfl, rfl, rfl, ?_⟩
    simp only [Slots.write]
    split <;> simp
  · intro hs
    exact i6 (by omega)

/-- As long as there is spare capacity for them, a sequence of `push_back` calls appends its
values and keeps the block, the capacity and the ownership flag. -/
theorem push_back_all_spare (c : Target) (a : SkTArray T) (es ts : List T)
    (hroom : AllocatorGivesRoom c) (hinv : Inv c a) (hh : Holds a es)
    (hts : (ts.length : Int) ≤ a.capacity - a.fSize) :
    ∃ a2, push_back_all c a ts = some a2 ∧ Inv c a2 ∧ Holds a2 (es ++ ts) ∧
      a2.fData = a.fData ∧ a2.fCapacity = a.fCapacity ∧ a2.fOwnMemory = a.fOwnMemory ∧
      a2.slots.length = a.slots.length := by
  induction ts generalizing a es with
  | nil => exact ⟨a, rfl, hinv, by simpa using hh, rfl, rfl, rfl, rfl⟩
  | cons t rest ih =>
    simp only [List.length_cons, Nat.cast_add, Nat.cast_one] at hts
    have hs : a.fSize < a.capacity := by omega
    obtain ⟨a1, e, i1, i2, i3, _⟩ := push_back_spec c a es t hroom hinv hh (Or.inl hs)
    obtain ⟨f1, f2, f3, f4⟩ := i3 hs
    have hsz1 : a1.fSize = a.fSize + 1 := by
      have h1 := i2.1
      have h2 := hh.1
      simp only [List.length_append, List.length_singleton, Nat.cast_add, Nat.cast_one] at h1
      omega
    have hc1 : a1.capacity = a.capacity := by simp only [capacity, f2]
    obtain ⟨a2, e2, j1, j2, j3, j4, j5, j6⟩ := ih a1 (es ++ [t]) i1 i2 (by omega)
    refine ⟨a2, by simp only [push_back_all, e, e2], j1, ?_, by rw [j3, f1], by rw [j4, f2],
      by rw [j5, f3], by rw [j6, f4]⟩
    simpa using j2

theorem holds_nil_of_size (a : SkTArray T) (h : a.fSize = 0) : Holds a [] := by
  exact ⟨by simpa using h, rfl⟩

theorem inv_clear (c : Target) (a : SkTArray T) (h : Inv c a) : Inv c a.clear := by
  obtain ⟨h1, h2, h3, h4⟩ := h
  refine ⟨?_, ?_, h3, ?_⟩
  · simp only [clear_fSize]; exact le_refl _
  · rw [clear_fSize]
    simp only [clear, pop_back_n, capacity]
    omega
  · rw [clear_length]
    exact h4

theorem sampleAllocate_room32 (s : Nat) (hs : 0 < s) : AllocatorGivesRoom (target32 s) := by
  intro n g h0 _
  simp only [Allocate, target32, sampleAllocate]
  rw [Nat.mul_div_cancel _ hs]
  split <;> omega

theorem kMaxCapacity_target32_four : kMaxCapacity (target32 4) = 1073741823 := by
  simp [kMaxCapacity, target32, INT_MAX]

theorem inv_defaultConstruct (c : Target) : Inv c (defaultConstruct (T := T) c) := by
  have h0 : (0 : Int) ≤ kMaxCapacity c := by
    unfold kMaxCapacity
    exact Nat.cast_nonneg _
  simp only [defaultConstruct, init_zero]
  exact ⟨le_refl _, le_refl _, h0, Nat.le_refl _⟩

theorem holds_defaultConstruct (c : Target) : Holds (defaultConstruct (T := T) c) [] := by
  simp only [defaultConstruct, init_zero]
  exact ⟨rfl, rfl⟩

/-- What `push_back_n(k)` does on an array that satisfies the invariant and holds `es`, when
`k` more objects fit in the capacity or the new size stays within `kMaxCapacity`. -/
theorem push_back_n_spec (c : Target) (a : SkTArray T) (es : List T) (k : Nat) (d : T)
    (hroom : AllocatorGivesRoom c) (hinv : Inv c a) (hh : Holds a es)
    (hok : (k : Int) ≤ a.capacity - a.fSize ∨ (k : Int) ≤ kMaxCapacity c - a.fSize) :
    ∃ a1, push_back_n c a (k : Int) d = some a1 ∧ Inv c a1 ∧
      Holds a1 (es ++ List.replicate k d) := by
  have hlen : (List.replicate k d).length = k := List.length_replicate k d
  obtain ⟨a1, e, i2, i3, i4, _⟩ := grow_place_spec c a es (List.replicate k d) kGrowing
    (fun _ => some d) hroom hinv hh (fun i hi => replicate_getElem? k d i hi)
    (by rw [hlen]; exact hok)
  rw [hlen] at e i3 i4
  exact ⟨_, by simp only [push_back_n, push_back_raw, e, Int.toNat_ofNat], i3, i4⟩

theorem push_back_n_abort (c : Target) (a : SkTArray T) (k : Int) (d : T)
    (h1 : ¬ k ≤ a.capacity - a.fSize) (h2 : ¬ k ≤ kMaxCapacity c - a.fSize) :
    push_back_n c a k d = none := by
  simp only [push_back_n, push_back_raw, checkRealloc_abort c a k kGrowing h1 h2]

/-- C23 (amended): for every SkTArray holding `e0..e(s-1)` and every `newCount` with
`0 <= newCount <= kMaxCapacity`, given an allocator that returns room for the requested
count, `resize_back(newCount)` leaves size `newCount`, the first `min(s, newCount)` elements
as they were and in order, and every element it adds default-initialized; for
`newCount > kMaxCapacity` the call aborts inside `checkRealloc` and leaves no array. -/
theorem resize_back_sets_size (c : Target) (a : SkTArray T) (es : List T) (newCount : Nat)
    (d : T) (hroom : AllocatorGivesRoom c) (hinv : Inv c a) (hh : Holds a es) :
    ((newCount : Int) ≤ kMaxCapacity c →
      ∃ a1, resize_back c a (newCount : Int) d = some a1 ∧ a1.size = (newCount : Int) ∧
        Holds a1 (es.take newCount ++ List.replicate (newCount - es.length) d) ∧
        (es.take newCount).length = min es.length newCount ∧ Inv c a1) ∧
    (kMaxCapacity c < (newCount : Int) → resize_back c a (newCount : Int) d = none) := by
  have hsz : a.fSize = (es.length : Int) := hh.1
  obtain ⟨h1, h2, h3, h4⟩ := hinv
  have hlt : (es.take newCount).length = min es.length newCount := by
    simp only [List.length_take]; omega
  constructor
  · intro hle
    by_cases hg : (newCount : Int) > a.size
    · have hcast : (newCount : Int) - a.fSize = ((newCount - es.length : Nat) : Int) := by
        simp only [size] at hg; omega
      obtain ⟨a1, e, i1, i2⟩ := push_back_n_spec c a es (newCount - es.length) d hroom
        ⟨h1, h2, h3, h4⟩ hh (Or.inr (by omega))
      have htake : es.take newCount = es := List.take_of_length_le (by
        simp only [size] at hg; omega)
      refine ⟨a1, by simp only [resize_back, hg, if_true, hcast, e], ?_, by rw [htake]; exact i2,
        hlt, i1⟩
      have := i2.1
      simp only [List.length_append, List.length_replicate] at this
      simp only [size] at hg ⊢
      omega
    · by_cases hl : (newCount : Int) < a.size
      · have hcast : a.fSize - (newCount : Int) = ((es.length - newCount : Nat) : Int) := by
          simp only [size] at hl; omega
        have hp := holds_pop_back_n a es (es.length - newCount) hh (by omega)
        have hsub : es.length - (es.length - newCount) = newCount := by
          simp only [size] at hl; omega
        have hrep : newCount - es.length = 0 := by
          simp only [size] at hl; omega
        rw [hsub] at hp
        refine ⟨a.pop_back_n ((es.length - newCount : Nat) : Int),
          by simp only [resize_back, hg, if_false, hl, if_true, hcast], ?_, ?_, hlt,
          inv_pop_back_n c a _ ⟨h1, h2, h3, h4⟩ (by omega) (by omega)⟩
        · simp only [pop_back_n, size] at hl ⊢; omega
        · rw [hrep, List.replicate_zero, List.append_nil]; exact hp
      · have heq : newCount = es.length := by simp only [size] at hg hl; omega
        refine ⟨a, by simp only [resize_back, hg, if_false, hl], ?_, ?_, hlt, ⟨h1, h2, h3, h4⟩⟩
        · simp only [size, hsz, heq]
        · rw [heq, Nat.sub_self, List.replicate_zero, List.append_nil, List.take_length]
          exact hh
  · intro hgt
    simp only [capacity] at h2 h3
    have hg : (newCount : Int) > a.size := by simp only [size]; omega
    simp only [resize_back, hg, if_true]
    exact push_back_n_abort c a _ d (by simp only [capacity]; omega) (by omega)

theorem sampleDest_inv (s : Nat) (hs : 0 < s) (hs2 : s ≤ 2 ^ 32) :
    Inv (target64 s) sampleDest := by
  refine ⟨by decide, by decide, ?_, by decide⟩
  have h1 : (3 : Nat) ≤ (2 ^ 64 - 1) / s := by
    rw [Nat.le_div_iff_mul_le hs]
    omega
  simp only [kMaxCapacity, target64, INT_MAX, capacity, sampleDest]
  omega

theorem sampleDest_holds : Holds sampleDest [1, 2, 3] := by
  simp [Holds, sampleDest]

/-- C23, witness: `resize_back(5)` on the array `1, 2, 3` leaves `1, 2, 3, 0, 0`, and
`resize_back(1)` leaves `1`. -/
theorem resize_back_sets_size_witness :
    (∃ a1, resize_back (target64 4) sampleDest 5 0 = some a1 ∧ Holds a1 [1, 2, 3, 0, 0]) ∧
    (∃ a1, resize_back (target64 4) sampleDest 1 0 = some a1 ∧ Holds a1 [1]) := by
  have hinv : Inv (target64 4) sampleDest := sampleDest_inv 4 (by decide) (by decide)
  have hh : Holds sampleDest [1, 2, 3] := sampleDest_holds
  obtain ⟨a1, e1, _, h1, _⟩ := (resize_back_sets_size (target64 4) sampleDest [1, 2, 3] 5 0
    (sampleAllocate_room 4 (by decide)) hinv hh).1 (by decide)
  obtain ⟨a2, e2, _, h2, _⟩ := (resize_back_sets_size (target64 4) sampleDest [1, 2, 3] 1 0
    (sampleAllocate_room 4 (by decide)) hinv hh).1 (by decide)
  exact ⟨⟨a1, e1, h1⟩, ⟨a2, e2, h2⟩⟩

/-- C23, counterexample: an empty `SkTArray<int>` on a 32-bit target (`sizeof(int) = 4`,
`kMaxCapacity = 1073741823`).  `resize_back(1073741824)` calls `push_back_n(1073741824)`;
`checkRealloc` finds no capacity, its guard `delta <= kMaxCapacity - fSize` fails, and the
call aborts: no array of size `1073741824` is left. -/
theorem resize_back_beyond_max_aborts :
    AllocatorGivesRoom (target32 4) ∧
    Inv (target32 4) (defaultConstruct (T := Nat) (target32 4)) ∧
    Holds (defaultConstruct (T := Nat) (target32 4)) [] ∧
    kMaxCapacity (target32 4) = 1073741823 ∧
    resize_back (target32 4) (defaultConstruct (T := Nat) (target32 4)) 1073741824 0 = none ∧
    ¬ ∃ a1, resize_back (target32 4) (defaultConstruct (T := Nat) (target32 4)) 1073741824 0 =
        some a1 ∧ a1.size = 1073741824 := by
  have hnone : resize_back (target32 4) (defaultConstruct (T := Nat) (target32 4))
      1073741824 0 = none := by decide
  refine ⟨sampleAllocate_room32 4 (by decide), inv_defaultConstruct _, holds_defaultConstruct _,
    kMaxCapacity_target32_four, hnone, ?_⟩
  rintro ⟨a1, h1, _⟩
  rw [hnone] at h1
  exact Option.noConfusion h1

/-- C24 (amended): for every SkTArray holding `e0..e(s-1)` and every `n` with
`0 <= n <= kMaxCapacity - s`, given an allocator that returns room for the requested count,
`reserve_back(n)` leaves the size and the elements unchanged and `capacity() - size() >= n`,
and every sequence of at most `n` following `push_back` calls appends its values without
reallocation: the capacity, the data buffer and the ownership flag stay as they were right
after `reserve_back`.  For `n > kMaxCapacity - s` the call aborts inside `checkRealloc`. -/
theorem reserve_back_makes_room (c : Target) (a : SkTArray T) (es : List T) (n : Nat)
    (hroom : AllocatorGivesRoom c) (hinv : Inv c a) (hh : Holds a es) :
    ((n : Int) ≤ kMaxCapacity c - a.size →
      ∃ a1, reserve_back c a (n : Int) = some a1 ∧ a1.size = a.size ∧ Holds a1 es ∧
        (n : Int) ≤ a1.capacity - a1.size ∧
        ∀ ts : List T, ts.length ≤ n →
          ∃ a2, push_back_all c a1 ts = some a2 ∧ Holds a2 (es ++ ts) ∧
            a2.capacity = a1.capacity ∧ a2.fData = a1.fData ∧
            a2.fOwnMemory = a1.fOwnMemory) ∧
    (kMaxCapacity c - a.size < (n : Int) → reserve_back c a (n : Int) = none) := by
  constructor
  · intro hle
    simp only [size] at hle
    have hex : ∃ a1, reserve_back c a (n : Int) = some a1 ∧ Inv c a1 ∧ a1.fSize = a.fSize ∧
        Holds a1 es ∧ (n : Int) ≤ a1.capacity - a1.fSize := by
      by_cases hn : (n : Int) > 0
      · obtain ⟨a1, e, i1, i2, i3, i4, _⟩ := checkRealloc_spec c a (n : Int) kExactFit hroom
          hinv (by omega) (Or.inr hle)
        exact ⟨a1, by simp only [reserve_back, hn, if_true, e], i1, i2, i4 es hh, i3⟩
      · refine ⟨a, by simp only [reserve_back, hn, if_false], hinv, rfl, hh, ?_⟩
        have := hinv.2.1
        omega
    obtain ⟨a1, e, i1, i2, i3, i4⟩ := hex
    refine ⟨a1, e, i2, i3, i4, ?_⟩
    intro ts hts
    obtain ⟨a2, e2, _, j2, j3, j4, j5, _⟩ := push_back_all_spare c a1 es ts hroom i1 i3
      (by omega)
    exact ⟨a2, e2, j2, by simp only [capacity, j4], j3, j5⟩
  · intro hgt
    obtain ⟨h1, h2, h3, h4⟩ := hinv
    simp only [size] at hgt
    have hn : (n : Int) > 0 := by omega
    simp only [reserve_back, hn, if_true]
    exact checkRealloc_abort c a _ _ (by omega) (by omega)

/-- C24, witness: `reserve_back(2)` on the full array `1, 2, 3` makes room for two, and two
`push_back` calls then keep the buffer. -/
theorem reserve_back_makes_room_witness :
    ∃ a1, reserve_back (target64 4) sampleDest 2 = some a1 ∧ Holds a1 [1, 2, 3] ∧
      ∃ a2, push_back_all (target64 4) a1 [4, 5] = some a2 ∧ Holds a2 [1, 2, 3, 4, 5] ∧
        a2.fData = a1.fData := by
  obtain ⟨a1, e, _, h1, _, h2⟩ := (reserve_back_makes_room (target64 4) sampleDest [1, 2, 3] 2
    (sampleAllocate_room 4 (by decide)) (sampleDest_inv 4 (by decide) (by decide))
    sampleDest_holds).1 (by decide)
  obtain ⟨a2, e2, j1, _, j2, _⟩ := h2 [4, 5] (by decide)
  exact ⟨a1, e, h1, a2, e2, j1, j2⟩

/-- C24, counterexample: the `SkTArray<char>` `1, 2, 3` on a 64-bit target
(`kMaxCapacity = INT_MAX`) with `n = INT_MAX`.  `checkRealloc` finds no room, its guard
`delta <= kMaxCapacity - fSize` is `2147483647 <= 2147483644`, and `reserve_back` aborts:
no array with `capacity() - size() >= n` is left. -/
theorem reserve_back_beyond_max_aborts :
    AllocatorGivesRoom (target64 1) ∧ Inv (target64 1) sampleDest ∧
    Holds sampleDest [1, 2, 3] ∧ kMaxCapacity (target64 1) = 2147483647 ∧
    reserve_back (target64 1) sampleDest 2147483647 = none ∧
    ¬ ∃ a1, reserve_back (target64 1) sampleDest 2147483647 = some a1 ∧
        (2147483647 : Int) ≤ a1.capacity - a1.size := by
  have hnone : reserve_back (target64 1) sampleDest 2147483647 = none := by decide
  refine ⟨sampleAllocate_room 1 (by decide), sampleDest_inv 1 (by decide) (by decide),
    sampleDest_holds, kMaxCapacity_target64_one, hnone, ?_⟩
  rintro ⟨a1, h1, _⟩
  rw [hnone] at h1
  exact Option.noConfusion h1

/-- C25 (amended): for every SkTArray holding `e0..e(s-1)` and every `n` with
`0 <= n <= kMaxCapacity`, given an allocator that returns room for the requested count,
`reserve(n)` leaves `capacity() >= n` with the size and the elements unchanged; when `n` is
smaller than the size the array is returned as it is.  For `n > kMaxCapacity` the call aborts
inside `checkRealloc`. -/
theorem reserve_gives_capacity (c : Target) (a : SkTArray T) (es : List T) (n : Nat)
    (hroom : AllocatorGivesRoom c) (hinv : Inv c a) (hh : Holds a es) :
    ((n : Int) ≤ kMaxCapacity c →
      ∃ a1, reserve c a (n : Int) = some a1 ∧ (n : Int) ≤ a1.capacity ∧ a1.size = a.size ∧
        Holds a1 es ∧ ((n : Int) < a.size → a1 = a)) ∧
    (kMaxCapacity c < (n : Int) → reserve c a (n : Int) = none) := by
  obtain ⟨h1, h2, h3, h4⟩ := hinv
  constructor
  · intro hle
    by_cases hge : (n : Int) ≥ a.size
    · simp only [size] at hge
      by_cases hn : (n : Int) - a.fSize > 0
      · obtain ⟨a1, e, _, i2, i3, i4, _⟩ := checkRealloc_spec c a ((n : Int) - a.fSize)
          kExactFit hroom ⟨h1, h2, h3, h4⟩ (by omega) (Or.inr (by omega))
        refine ⟨a1, by simp only [reserve, size, hge, if_true, reserve_back, hn, e], ?_, i2,
          i4 es hh, ?_⟩
        · omega
        · intro hlt; simp only [size] at hlt; omega
      · refine ⟨a, by simp only [reserve, size, hge, if_true, reserve_back, hn, if_false], ?_,
          rfl, hh, fun _ => rfl⟩
        omega
    · refine ⟨a, by simp only [reserve, hge, if_false], ?_, rfl, hh, fun _ => rfl⟩
      simp only [size] at hge
      omega
  · intro hgt
    simp only [capacity] at h2 h3
    have hge : (n : Int) ≥ a.size := by simp only [size]; omega
    have hn : (n : Int) - a.size > 0 := by simp only [size]; omega
    simp only [reserve, hge, if_true, reserve_back, hn]
    exact checkRealloc_abort c a _ _ (by simp only [capacity, size]; omega)
      (by simp only [size]; omega)

/-- C25, witness: `reserve(7)` on the array `1, 2, 3` gives capacity at least 7, and
`reserve(2)` returns the array as it is. -/
theorem reserve_gives_capacity_witness :
    (∃ a1, reserve (target64 4) sampleDest 7 = some a1 ∧ (7 : Int) ≤ a1.capacity ∧
      Holds a1 [1, 2, 3]) ∧
    reserve (target64 4) sampleDest 2 = some sampleDest := by
  obtain ⟨a1, e, h1, _, h2, _⟩ := (reserve_gives_capacity (target64 4) sampleDest [1, 2, 3] 7
    (sampleAllocate_room 4 (by decide)) (sampleDest_inv 4 (by decide) (by decide))
    sampleDest_holds).1 (by decide)
  exact ⟨⟨a1, e, h1, h2⟩, by decide⟩

theorem sampleDest_inv32 : Inv (target32 4) sampleDest := by
  refine ⟨by decide, by decide, ?_, by decide⟩
  rw [kMaxCapacity_target32_four]
  decide

/-- C25, counterexample: the `SkTArray<int>` `1, 2, 3` on a 32-bit target
(`kMaxCapacity = 1073741823`) with `n = 1073741824`.  `reserve` calls
`reserve_back(1073741821)`, the guard of `checkRealloc` fails, and the call aborts: no array
with `capacity() >= n` is left. -/
theorem reserve_beyond_max_aborts :
    AllocatorGivesRoom (target32 4) ∧ Inv (target32 4) sampleDest ∧
    Holds sampleDest [1, 2, 3] ∧ kMaxCapacity (target32 4) = 1073741823 ∧
    reserve (target32 4) sampleDest 1073741824 = none ∧
    ¬ ∃ a1, reserve (target32 4) sampleDest 1073741824 = some a1 ∧
        (1073741824 : Int) ≤ a1.capacity := by
  have hnone : reserve (target32 4) sampleDest 1073741824 = none := by decide
  refine ⟨sampleAllocate_room32 4 (by decide), sampleDest_inv32, sampleDest_holds,
    kMaxCapacity_target32_four, hnone, ?_⟩
  rintro ⟨a1, h1, _⟩
  rw [hnone] at h1
  exact Option.noConfusion h1

/-- What `clear()` followed by `checkRealloc(k, kExactFit)` leaves, for `k` within
`kMaxCapacity`: an empty array that satisfies the invariant, with room for `k` objects; it
is the cleared array itself when its capacity suffices, and a fresh exact-fit allocation
otherwise. -/
theorem clear_realloc_spec (c : Target) (a : SkTArray T) (k : Nat)
    (hroom : AllocatorGivesRoom c) (hinv : Inv c a) (hk : (k : Int) ≤ kMaxCapacity c) :
    ∃ a1, checkRealloc c a.clear (k : Int) kExactFit = some a1 ∧ Inv c a1 ∧ a1.fSize = 0 ∧
      (k : Int) ≤ a1.capacity ∧ k ≤ a1.slots.length ∧
      ((k : Int) ≤ a.capacity → a1 = a.clear) ∧
      (¬ (k : Int) ≤ a.capacity → a1.fOwnMemory = true ∧
        a1.fData = (Allocate c (k : Int) kExactFit).data ∧
        a1.fCapacity = storeCapacity (SkToU32 (min ((Allocate c (k : Int) kExactFit).size /
          c.sizeofT) (SkToSizeT (kMaxCapacity c))))) := by
  have hs := clear_fSize a
  have hc : a.clear.capacity = a.capacity := rfl
  have hi := inv_clear c a hinv
  by_cases h1 : (k : Int) ≤ a.clear.capacity - a.clear.fSize
  · have hle : (k : Int) ≤ a.capacity := by rw [hs, hc] at h1; omega
    refine ⟨a.clear, checkRealloc_keep c a.clear _ _ h1, hi, hs, by rw [hc]; exact hle, ?_,
      fun _ => rfl, fun h => absurd hle h⟩
    have := hi.2.2.2
    simp only [capacity] at hle hc
    have hcc : a.clear.fCapacity = a.fCapacity := rfl
    omega
  · have h2 : (k : Int) ≤ kMaxCapacity c - a.clear.fSize := by rw [hs]; omega
    obtain ⟨g1, g2, _⟩ := grow_spec c a.clear (k : Int) kExactFit hroom (by rw [hs])
      (by omega) h2
    have hz : a.clear.fSize + (k : Int) = (k : Int) := by rw [hs]; omega
    rw [hz] at g1 g2
    refine ⟨_, by rw [checkRealloc_grow c a.clear _ _ h1 h2, hz], g1, by simp only [setItemArray, hs],
      by rw [hs] at g2; omega, ?_, fun h => absurd (by rw [hs, hc]; omega) h1,
      fun _ => ⟨rfl, rfl, rfl⟩⟩
    have h4 := g1.2.2.2
    rw [hs] at g2
    simp only [capacity] at g2
    omega

/-- C28 (amended): for every SkTArray, whatever it held before, given an allocator that
returns room for the requested count: for every `n` with `0 <= n <= kMaxCapacity`, `reset(n)`
leaves the array with exactly `n` elements, each default-constructed; for every C array of
`count <= kMaxCapacity` elements, `reset(array, count)` leaves it with exactly those
elements in order.  For `n` or `count` above `kMaxCapacity` the call aborts inside
`checkRealloc`. -/
theorem reset_n_default_constructs (c : Target) (a : SkTArray T) (n : Nat) (d : T)
    (hroom : AllocatorGivesRoom c) (hinv : Inv c a) :
    ((n : Int) ≤ kMaxCapacity c →
      ∃ a1, reset_n c a (n : Int) d = some a1 ∧ a1.size = (n : Int) ∧
        Holds a1 (List.replicate n d) ∧ Inv c a1) ∧
    (kMaxCapacity c < (n : Int) → reset_n c a (n : Int) d = none) ∧
    (∀ (array : Slots T) (es : List T), array.take es.length = es.map some →
      (es.length : Int) ≤ kMaxCapacity c →
      ∃ a1, reset_array c a array (es.length : Int) = some a1 ∧
        a1.size = (es.length : Int) ∧ Holds a1 es ∧ Inv c a1) ∧
    (∀ (array : Slots T) (count : Int), kMaxCapacity c < count →
      reset_array c a array count = none) := by
  have hs := clear_fSize a
  have hc : a.clear.capacity = a.capacity := rfl
  have habort : ∀ k : Int, kMaxCapacity c < k → checkRealloc c a.clear k kExactFit = none := by
    intro k hk
    have h3 := hinv.2.2.1
    exact checkRealloc_abort c a.clear k _ (by rw [hs, hc]; omega) (by rw [hs]; omega)
  refine ⟨?_, ?_, ?_, ?_⟩
  · intro hle
    obtain ⟨a1, e, i1, i2, i3, i4, _⟩ := clear_realloc_spec c a n hroom hinv hle
    have hlen : (List.replicate n d).length = n := List.length_replicate n d
    have hh := holds_place a1 [] (List.replicate n d) (fun _ => some d)
      (holds_nil_of_size a1 i2) (by simp only [List.length_nil, hlen]; omega)
      (fun i hi => replicate_getElem? n d i hi)
    have hi := inv_place c a1 (n : Int) n 0 (fun _ => some d) i1 (by omega)
      (by rw [i2]; omega)
    simp only [hlen, i2, zero_add, List.nil_append] at hh hi
    exact ⟨{ a1 with fSize := (n : Int),
                     slots := placeLoop a1.slots 0 (fun _ => some d) n },
      by simp only [reset_n, e, Int.toNat_ofNat], rfl, hh, hi⟩
  · intro hgt
    simp only [reset_n, habort _ hgt]
  · intro array es harr hle
    obtain ⟨a1, e, i1, i2, i3, i4, _⟩ := clear_realloc_spec c a es.length hroom hinv hle
    have hh : Holds (copy { a1 with fSize := (es.length : Int) } array) es :=
      holds_copy _ array es rfl i4 harr
    refine ⟨_, by simp only [reset_array, e], hh.1, hh, ?_⟩
    obtain ⟨j1, j2, j3, j4⟩ := i1
    refine ⟨by simp only [copy]; omega, ?_, j3, ?_⟩
    · simp only [copy, capacity] at i3 ⊢; exact i3
    · simp only [copy, size, Int.toNat_ofNat, copyLoop_eq_moveLoop, moveLoop_length]
      exact j4
  · intro array count hgt
    simp only [reset_array, habort _ hgt]

/-- C28, witness: `reset(2)` on the array `1, 2, 3` leaves `0, 0`, and `reset(array, 4)` with
the C array `5, 6, 7, 8` leaves `5, 6, 7, 8`. -/
theorem reset_n_default_constructs_witness :
    (∃ a1, reset_n (target64 4) sampleDest 2 0 = some a1 ∧ Holds a1 [0, 0]) ∧
    (∃ a1, reset_array (target64 4) sampleDest [some 5, some 6, some 7, some 8] 4 = some a1 ∧
      Holds a1 [5, 6, 7, 8]) := by
  have h := reset_n_default_constructs (target64 4) sampleDest 2 0
    (sampleAllocate_room 4 (by decide)) (sampleDest_inv 4 (by decide) (by decide))
  obtain ⟨a1, e1, _, h1, _⟩ := h.1 (by decide)
  obtain ⟨a2, e2, _, h2, _⟩ := h.2.2.1 [some 5, some 6, some 7, some 8] [5, 6, 7, 8] rfl
    (by decide)
  exact ⟨⟨a1, e1, h1⟩, ⟨a2, e2, h2⟩⟩

/-- C28, counterexample: the `SkTArray<int>` `1, 2, 3` on a 32-bit target
(`kMaxCapacity = 1073741823`).  `reset(1073741824)` clears the array, the guard of
`checkRealloc` fails, and the call aborts: no array with `1073741824` elements is left. -/
theorem reset_n_beyond_max_aborts :
    AllocatorGivesRoom (target32 4) ∧ Inv (target32 4) sampleDest ∧
    kMaxCapacity (target32 4) = 1073741823 ∧
    reset_n (target32 4) sampleDest 1073741824 0 = none ∧
    ¬ ∃ a1, reset_n (target32 4) sampleDest 1073741824 0 = some a1 ∧
        a1.size = 1073741824 := by
  have hnone : reset_n (target32 4) sampleDest 1073741824 0 = none := by decide
  refine ⟨sampleAllocate_room32 4 (by decide), sampleDest_inv32, kMaxCapacity_target32_four,
    hnone, ?_⟩
  rintro ⟨a1, h1, _⟩
  rw [hnone] at h1
  exact Option.noConfusion h1

/-- What `init(n)` leaves for `n > 0` within the capacity bound, beyond `init_pos`: the
invariant, and a capacity of at least `max(n, kMinHeapAllocCount)`. -/
theorem init_inv_pos (c : Target) (n : Nat) (hroom : AllocatorGivesRoom c)
    (hmin : kMinHeapAllocCount ≤ kMaxCapacity c) (hn : (n : Int) ≤ kMaxCapacity c)
    (h0 : n ≠ 0) :
    Inv c (init (T := T) c (n : Int)) ∧
    max (n : Int) kMinHeapAllocCount ≤ (init (T := T) c (n : Int)).capacity := by
  have hmax := kMaxCapacity_le c
  have h8 : kMinHeapAllocCount = 8 := rfl
  rw [h8] at hmin ⊢
  have hcap : ((storeCapacity (SkToU32_int (max (n : Int) 8)) : Nat) : Int) = max (n : Int) 8 := by
    simp only [storeCapacity, SkToU32_int]
    omega
  have hr := hroom (max (n : Int) 8) 1 (by omega) (by omega)
  have hne : ¬ ((n : Int) = 0) := by omega
  generalize hal : Allocate c (max (n : Int) 8) 1 = al at hr
  generalize hroomN : al.size / c.sizeofT = room at hr
  have hcapv : storeCapacity (SkToU32 (min room (SkToSizeT (kMaxCapacity c)))) =
      min room (kMaxCapacity c).toNat := by
    simp only [storeCapacity, SkToU32, SkToSizeT]
    have : min room (kMaxCapacity c).toNat ≤ (kMaxCapacity c).toNat := Nat.min_le_right _ _
    omega
  simp only [init, hne, if_false, h8, hcap, hal, setItemArray, rawBlock, List.length_replicate,
    hroomN, hcapv, Inv, capacity]
  refine ⟨⟨by omega, by omega, by omega, Nat.min_le_left _ _⟩, by omega⟩

theorem inv_init (c : Target) (n : Nat) (hroom : AllocatorGivesRoom c)
    (hmin : kMinHeapAllocCount ≤ kMaxCapacity c) (hn : (n : Int) ≤ kMaxCapacity c) :
    Inv c (init (T := T) c (n : Int)) := by
  by_cases h0 : n = 0
  · subst h0
    exact inv_defaultConstruct c
  · exact (init_inv_pos c n hroom hmin hn h0).1

theorem initWithPreallocatedStorage_heap (c : Target) (count : Int) (storage : Nat)
    (block : Slots T) (N : Nat) (h : count > (N : Int)) :
    initWithPreallocatedStorage c count storage block (N : Int) = init c count := by
  have hne : ¬ count = 0 := by omega
  simp only [initWithPreallocatedStorage, h, if_true, init, hne, if_false, setItemArray]

theorem initWithPreallocatedStorage_inline (c : Target) (count : Int) (storage : Nat)
    (block : Slots T) (N : Nat) (h : ¬ count > (N : Int)) (hN : (N : Int) ≤ kMaxCapacity c) :
    initWithPreallocatedStorage c count storage block (N : Int) =
      { fData := storage, slots := block, fSize := count, fCapacity := N,
        fOwnMemory := false } := by
  have hmax := kMaxCapacity_le c
  have hcap : storeCapacity (SkToU32_int (N : Int)) = N := by
    simp only [storeCapacity, SkToU32_int]
    omega
  simp only [initWithPreallocatedStorage, h, if_false, hcap]

theorem inv_constructWithStorage (c : Target) (N storage : Nat)
    (hN : (N : Int) ≤ kMaxCapacity c) :
    Inv c (constructWithStorage (T := T) c N storage) ∧
    Holds (constructWithStorage (T := T) c N storage) [] := by
  rw [constructWithStorage, initWithPreallocatedStorage_inline c 0 storage _ N (by omega) hN]
  refine ⟨⟨le_refl _, ?_, hN, ?_⟩, rfl, rfl⟩
  · simp only [capacity]; omega
  · simp only [List.length_replicate, le_refl]

/-- An array whose block is full and whose size has reached `kMaxCapacity`, as left by
`kMaxCapacity` calls of `push_back` on the inline block of that many slots: the next
`push_back` aborts. -/
theorem inline_full_aborts (c : Target) (N storage : Nat) (ts : List T) (t : T)
    (hroom : AllocatorGivesRoom c) (hts : ts.length = N) (hN : (N : Int) = kMaxCapacity c) :
    ∃ a1, push_back_all c (constructWithStorage c N storage) ts = some a1 ∧ Holds a1 ts ∧
      push_back c a1 t = none := by
  obtain ⟨i1, i2⟩ := inv_constructWithStorage (T := T) c N storage (by omega)
  have h0 : constructWithStorage (T := T) c N storage =
      { fData := storage, slots := List.replicate N none, fSize := 0, fCapacity := N,
        fOwnMemory := false } := by
    rw [constructWithStorage, initWithPreallocatedStorage_inline c 0 storage _ N (by omega)
      (by omega)]
  obtain ⟨a1, e, j1, j2, _, j4, _⟩ := push_back_all_spare c _ [] ts hroom i1 i2 (by
    rw [h0]; simp only [capacity]; omega)
  have hsz : a1.fSize = (ts.length : Int) := by simpa using j2.1
  have hc : a1.fCapacity = N := by rw [j4, h0]
  refine ⟨a1, e, by simpa using j2, push_back_none c a1 t ?_ ?_⟩
  · simp only [capacity, hc, hsz, hts]; omega
  · rw [hsz, hts]; omega

/-- C26 (amended): given an allocator that returns room for the requested count, a
default-constructed `SkSTArray<N,T>` is empty, with capacity `N`, on its inline block, which
it does not own; it stays there through its first `N` `push_back` calls (capacity `N`,
ownership flag false, the values held in order); when `N < kMaxCapacity`, the `(N+1)`-th
`push_back` leaves all `N` elements and the new one, in order, in a heap block that the
array owns; when `N = kMaxCapacity` the `(N+1)`-th `push_back` aborts. -/
theorem inline_storage_until_full (c : Target) (N storage : Nat)
    (hroom : AllocatorGivesRoom c) (hN : (N : Int) ≤ kMaxCapacity c) :
    ((constructWithStorage (T := T) c N storage).size = 0 ∧
      (constructWithStorage (T := T) c N storage).empty = true ∧
      (constructWithStorage (T := T) c N storage).capacity = (N : Int) ∧
      (constructWithStorage (T := T) c N storage).fOwnMemory = false ∧
      (constructWithStorage (T := T) c N storage).fData = storage) ∧
    (∀ ts : List T, ts.length ≤ N →
      ∃ a1, push_back_all c (constructWithStorage c N storage) ts = some a1 ∧ Holds a1 ts ∧
        a1.capacity = (N : Int) ∧ a1.fOwnMemory = false ∧ a1.fData = storage) ∧
    (∀ (ts : List T) (t : T), ts.length = N → (N : Int) < kMaxCapacity c →
      ∃ a1 a2, push_back_all c (constructWithStorage c N storage) ts = some a1 ∧
        push_back c a1 t = some a2 ∧ Holds a2 (ts ++ [t]) ∧ a2.fOwnMemory = true ∧
        a2.fData = (Allocate c ((N : Int) + 1) kGrowing).data ∧
        (N : Int) + 1 ≤ a2.capacity) ∧
    (∀ (ts : List T) (t : T), ts.length = N → (N : Int) = kMaxCapacity c →
      ∃ a1, push_back_all c (constructWithStorage c N storage) ts = some a1 ∧
        push_back c a1 t = none) := by
  obtain ⟨i1, i2⟩ := inv_constructWithStorage (T := T) c N storage hN
  have h0 : constructWithStorage (T := T) c N storage =
      { fData := storage, slots := List.replicate N none, fSize := 0, fCapacity := N,
        fOwnMemory := false } := by
    rw [constructWithStorage, initWithPreallocatedStorage_inline c 0 storage _ N (by omega) hN]
  have hpush : ∀ ts : List T, ts.length ≤ N →
      ∃ a1, push_back_all c (constructWithStorage c N storage) ts = some a1 ∧ Inv c a1 ∧
        Holds a1 ts ∧ a1.fCapacity = N ∧ a1.fOwnMemory = false ∧ a1.fData = storage := by
    intro ts hts
    obtain ⟨a1, e, j1, j2, j3, j4, j5, _⟩ := push_back_all_spare c _ [] ts hroom i1 i2 (by
      rw [h0]; simp only [capacity]; omega)
    exact ⟨a1, e, j1, by simpa using j2, by rw [j4, h0], by rw [j5, h0], by rw [j3, h0]⟩
  refine ⟨?_, ?_, ?_, ?_⟩
  · rw [h0]
    exact ⟨rfl, rfl, rfl, rfl, rfl⟩
  · intro ts hts
    obtain ⟨a1, e, _, j2, j3, j4, j5⟩ := hpush ts hts
    exact ⟨a1, e, j2, by simp only [capacity, j3], j4, j5⟩
  · intro ts t hts hlt
    obtain ⟨a1, e, j1, j2, j3, j4, j5⟩ := hpush ts (by omega)
    have hsz : a1.fSize = (N : Int) := by rw [j2.1, hts]
    have hfull : ¬ a1.fSize < a1.capacity := by simp only [capacity, j3, hsz]; omega
    obtain ⟨a2, e2, k1, k2, _, k4⟩ := push_back_spec c a1 ts t hroom j1 j2
      (Or.inr (by rw [hsz]; exact hlt))
    obtain ⟨k5, k6⟩ := k4 hfull
    rw [hsz] at k6
    refine ⟨a1, a2, e, e2, k2, k5, k6, ?_⟩
    have h1 := k2.1
    have h2 := k1.2.1
    simp only [List.length_append, List.length_singleton, hts, Nat.cast_add, Nat.cast_one] at h1
    omega
  · intro ts t hts heq
    obtain ⟨a1, e, _, h3⟩ := inline_full_aborts c N storage ts t hroom hts heq
    exact ⟨a1, e, h3⟩

/-- C26, witness: an `SkSTArray<2, int>` holds `1, 2` on its inline block, and the third
`push_back` moves `1, 2` and appends `3` in a heap block that the array owns. -/
theorem inline_storage_until_full_witness :
    (∃ a1, push_back_all (target64 4) (constructWithStorage (target64 4) 2 512) [1, 2] =
        some a1 ∧ Holds a1 [1, 2] ∧ a1.fOwnMemory = false ∧ a1.fData = 512) ∧
    (∃ a1 a2, push_back_all (target64 4) (constructWithStorage (target64 4) 2 512) [1, 2] =
        some a1 ∧ push_back (target64 4) a1 3 = some a2 ∧ Holds a2 [1, 2, 3] ∧
        a2.fOwnMemory = true) := by
  have h := inline_storage_until_full (T := Nat) (target64 4) 2 512
    (sampleAllocate_room 4 (by decide)) (by decide)
  obtain ⟨a1, e, h1, _, h2, h3⟩ := h.2.1 [1, 2] (by decide)
  obtain ⟨b1, b2, e1, e2, h4, h5, _⟩ := h.2.2.1 [1, 2] 3 rfl (by decide)
  exact ⟨⟨a1, e, h1, h2, h3⟩, ⟨b1, b2, e1, e2, h4, h5⟩⟩

/-- C26, counterexample: an `SkSTArray<INT_MAX, char>` on a 64-bit target
(`kMaxCapacity = INT_MAX`).  After `INT_MAX` calls of `push_back` the inline block is full
and the size is `kMaxCapacity`; the next `push_back` finds no room, the guard of
`checkRealloc` is `1 <= 0`, and the call aborts instead of moving the elements to the
heap. -/
theorem inline_storage_at_max_aborts :
    AllocatorGivesRoom (target64 1) ∧
    ((2147483647 : Nat) : Int) = kMaxCapacity (target64 1) ∧
    ∃ a1, push_back_all (target64 1) (constructWithStorage (target64 1) 2147483647 512)
        (List.replicate 2147483647 0) = some a1 ∧
      Holds a1 (List.replicate 2147483647 0) ∧ push_back (target64 1) a1 7 = none ∧
      ¬ ∃ a2, push_back (target64 1) a1 7 = some a2 ∧ a2.fOwnMemory = true := by
  have hk : ((2147483647 : Nat) : Int) = kMaxCapacity (target64 1) := by
    rw [kMaxCapacity_target64_one]
    rfl
  obtain ⟨a1, e, h1, h2⟩ := inline_full_aborts (target64 1) 2147483647 512
    (List.replicate 2147483647 0) 7 (sampleAllocate_room 1 (by decide))
    (List.length_replicate _ _) hk
  refine ⟨sampleAllocate_room 1 (by decide), hk, a1, e, h1, h2, ?_⟩
  rintro ⟨a2, h3, _⟩
  rw [h2] at h3
  exact Option.noConfusion h3

/-- C27: for every `N`, every C array holding `e0..e(k-1)` (with `N` and `k` within the
capacity bound) and an allocator that returns room for the requested count, the minimum heap
allocation of 8 included: `SkSTArray<N,T>(array, k)` uses the inline block, with capacity
exactly `N` and the ownership flag false, when `k <= N`, and otherwise a heap block that the
array owns, with capacity at least `max(k, 8)`; in both cases the array has size `k` and
holds `e0..e(k-1)` in order. -/
theorem from_array_picks_storage (c : Target) (N storage : Nat) (array : Slots T)
    (es : List T) (hroom : AllocatorGivesRoom c) (hmin : kMinHeapAllocCount ≤ kMaxCapacity c)
    (hN : (N : Int) ≤ kMaxCapacity c) (harr : array.take es.length = es.map some)
    (hk : (es.length : Int) ≤ kMaxCapacity c) :
    Holds (fromArrayWithStorage c N storage array (es.length : Int)) es ∧
    (fromArrayWithStorage c N storage array (es.length : Int)).size = (es.length : Int) ∧
    Inv c (fromArrayWithStorage c N storage array (es.length : Int)) ∧
    (es.length ≤ N →
      (fromArrayWithStorage c N storage array (es.length : Int)).fData = storage ∧
      (fromArrayWithStorage c N storage array (es.length : Int)).capacity = (N : Int) ∧
      (fromArrayWithStorage c N storage array (es.length : Int)).fOwnMemory = false) ∧
    (N < es.length →
      (fromArrayWithStorage c N storage array (es.length : Int)).fOwnMemory = true ∧
      (fromArrayWithStorage c N storage array (es.length : Int)).fData =
        (Allocate c (max (es.length : Int) kMinHeapAllocCount) 1).data ∧
      max (es.length : Int) kMinHeapAllocCount ≤
        (fromArrayWithStorage c N storage array (es.length : Int)).capacity) := by
  have hinvcopy : ∀ a : SkTArray T, Inv c a → Inv c (a.copy array) := by
    intro a ⟨j1, j2, j3, j4⟩
    refine ⟨j1, j2, j3, ?_⟩
    simp only [copy, copyLoop_eq_moveLoop, moveLoop_length]
    exact j4
  by_cases hle : es.length ≤ N
  · have h0 := initWithPreallocatedStorage_inline (T := T) c (es.length : Int) storage
      (List.replicate N none) N (by omega) hN
    have hh : Holds (fromArrayWithStorage c N storage array (es.length : Int)) es := by
      rw [fromArrayWithStorage, h0]
      exact holds_copy _ array es rfl (by simp only [List.length_replicate]; exact hle) harr
    have hi : Inv c (fromArrayWithStorage c N storage array (es.length : Int)) := by
      rw [fromArrayWithStorage, h0]
      apply hinvcopy
      refine ⟨by simp only; omega, by simp only [capacity]; omega, hN, ?_⟩
      simp only [List.length_replicate, le_refl]
    refine ⟨hh, hh.1, hi, fun _ => ?_, fun h => absurd hle (by omega)⟩
    rw [fromArrayWithStorage, h0]
    exact ⟨rfl, rfl, rfl⟩
  · have hgt : (es.length : Int) > (N : Int) := by omega
    have h0 := initWithPreallocatedStorage_heap (T := T) c (es.length : Int) storage
      (List.replicate N none) N hgt
    have hne : es.length ≠ 0 := by omega
    obtain ⟨p1, p2, p3, p4⟩ := init_pos (T := T) c es.length hroom hmin hk hne
    obtain ⟨q1, q2⟩ := init_inv_pos (T := T) c es.length hroom hmin hk hne
    have hh : Holds (fromArrayWithStorage c N storage array (es.length : Int)) es := by
      rw [fromArrayWithStorage, h0]
      exact holds_copy _ array es p1 p2 harr
    refine ⟨hh, hh.1, ?_, fun h => absurd h hle, fun _ => ?_⟩
    · rw [fromArrayWithStorage, h0]
      exact hinvcopy _ q1
    · rw [fromArrayWithStorage, h0]
      exact ⟨p3, p4, q2⟩

/-- C27, witness: an `SkSTArray<4, int>` built from the C array `5, 6, 7` lives on its inline
block, and an `SkSTArray<2, int>` built from it lives in a heap block of capacity 8. -/
theorem from_array_picks_storage_witness :
    (Holds (fromArrayWithStorage (target64 4) 4 512 [some 5, some 6, some 7] 3) [5, 6, 7] ∧
      (fromArrayWithStorage (target64 4) 4 512 [some 5, some 6, some 7] 3).fOwnMemory =
        false) ∧
    (Holds (fromArrayWithStorage (target64 4) 2 512 [some 5, some 6, some 7] 3) [5, 6, 7] ∧
      (fromArrayWithStorage (target64 4) 2 512 [some 5, some 6, some 7] 3).fOwnMemory =
        true) := by
  have h1 := from_array_picks_storage (target64 4) 4 512 [some 5, some 6, some 7] [5, 6, 7]
    (sampleAllocate_room 4 (by decide)) (by decide) (by decide) rfl (by decide)
  have h2 := from_array_picks_storage (target64 4) 2 512 [some 5, some 6, some 7] [5, 6, 7]
    (sampleAllocate_room 4 (by decide)) (by decide) (by decide) rfl (by decide)
  exact ⟨⟨h1.1, (h1.2.2.2.1 (by decide)).2.2⟩, ⟨h2.1, (h2.2.2.2.2 (by decide)).1⟩⟩

theorem storeCapacity_of_inv {c : Target} {a : SkTArray T} (h : Inv c a) :
    storeCapacity a.fCapacity = a.fCapacity := by
  have := inv_bits h
  simp only [storeCapacity]
  omega

theorem inv_zero (c : Target) :
    Inv c ({ fData := 0, slots := [], fSize := 0, fCapacity := storeCapacity 0,
             fOwnMemory := true } : SkTArray T) := by
  have h := inv_defaultConstruct (T := T) c
  simp only [defaultConstruct, init_zero] at h
  exact h

theorem inv_moved (c : Target) (a : SkTArray T) (h : Inv c a) :
    Inv c { a with slots := a.moved, fSize := 0 } := by
  obtain ⟨h1, h2, h3, h4⟩ := h
  refine ⟨le_refl _, ?_, h3, ?_⟩
  · simp only [capacity] at h2 ⊢; omega
  · simp only [moved, destroyLoop_length]; exact h4

/-- What the move constructor leaves: the new array holds the elements, and both arrays
satisfy the invariant. -/
theorem moveConstruct_spec (c : Target) (that : SkTArray T) (es : List T)
    (hroom : AllocatorGivesRoom c) (hmin : kMinHeapAllocCount ≤ kMaxCapacity c)
    (hinv : Inv c that) (hh : Holds that es) :
    Holds (moveConstruct c that).1 es ∧ Inv c (moveConstruct c that).1 ∧
    Inv c (moveConstruct c that).2 ∧ (moveConstruct c that).2.fSize = 0 := by
  have hf : that.fSize = (es.length : Int) := hh.1
  obtain ⟨hk, _⟩ := inv_of_holds_size hinv hh
  by_cases hown : that.fOwnMemory = true
  · simp only [moveConstruct, hown, if_true, storeCapacity_of_inv hinv]
    exact ⟨⟨hf, hh.2⟩, hinv, inv_zero c, trivial⟩
  · have hown2 : that.fOwnMemory = false := by simpa using hown
    obtain ⟨p1, p2, _⟩ := init_holds_room (T := T) c es.length hroom hmin hk
    obtain ⟨q1, q2, q3, q4⟩ := inv_init (T := T) c es.length hroom hmin hk
    simp only [moveConstruct, hown2, Bool.false_eq_true, if_false, hf]
    refine ⟨⟨p1, ?_⟩, ⟨q1, q2, q3, ?_⟩, ?_, trivial⟩
    · simp only [move, hf, Int.toNat_ofNat]
      exact take_moveLoop that.slots _ es hh.2 p2
    · simp only [move, moveLoop_length]
      exact q4
    · have := inv_moved c that hinv
      simpa using this

/-- What move assignment between two different arrays leaves: the destination holds the
elements, the source is on its own block with size 0, and both satisfy the invariant. -/
theorem moveAssign_spec (c : Target) (a that : SkTArray T) (es : List T)
    (hroom : AllocatorGivesRoom c) (ha : Inv c a) (hinv : Inv c that) (hh : Holds that es) :
    ∃ a1, moveAssign c a (.other that) =
        some (a1, .other { that with slots := that.moved, fSize := 0 }) ∧
      Holds a1 es ∧ Inv c a1 := by
  have hf : that.fSize = (es.length : Int) := hh.1
  obtain ⟨hk, _⟩ := inv_of_holds_size hinv hh
  obtain ⟨a1, e, i1, i2, i3, i4, _⟩ := clear_realloc_spec c a es.length hroom ha hk
  refine ⟨{ a1 with fSize := that.fSize, slots := that.move a1.slots },
    by simp only [moveAssign, size, hf, e], ⟨hf, ?_⟩, ?_⟩
  · simp only [move, hf, Int.toNat_ofNat]
    exact take_moveLoop that.slots _ es hh.2 i4
  · obtain ⟨j1, j2, j3, j4⟩ := i1
    refine ⟨by simp only [hf]; omega, by simp only [hf, capacity] at i3 ⊢; exact i3, j3, ?_⟩
    simp only [move, moveLoop_length]
    exact j4

/-- What `swap` between two different arrays leaves: each holds what the other held, and both
satisfy the invariant; two arrays that own their blocks exchange them. -/
theorem swap_spec (c : Target) (a b : SkTArray T) (as bs : List T)
    (hroom : AllocatorGivesRoom c) (hmin : kMinHeapAllocCount ≤ kMaxCapacity c)
    (ha : Inv c a) (hb : Inv c b) (hha : Holds a as) (hhb : Holds b bs) :
    ∃ a1 b1, swap c a (.other b) = some (a1, .other b1) ∧ Holds a1 bs ∧ Holds b1 as ∧
      Inv c a1 ∧ Inv c b1 ∧
      (a.fOwnMemory = true → b.fOwnMemory = true →
        a1.fData = b.fData ∧ b1.fData = a.fData ∧ a1.slots = b.slots ∧ b1.slots = a.slots ∧
        a1.fCapacity = b.fCapacity ∧ b1.fCapacity = a.fCapacity) := by
  by_cases hown : (a.fOwnMemory && b.fOwnMemory) = true
  · refine ⟨{ a with fData := b.fData, slots := b.slots, fSize := b.fSize,
                     fCapacity := storeCapacity b.fCapacity },
      { b with fData := a.fData, slots := a.slots, fSize := a.fSize,
               fCapacity := storeCapacity a.fCapacity },
      by simp only [swap, hown, if_true], ⟨hhb.1, hhb.2⟩, ⟨hha.1, hha.2⟩, ?_, ?_, ?_⟩
    · rw [storeCapacity_of_inv hb]; exact hb
    · rw [storeCapacity_of_inv ha]; exact ha
    · intro _ _
      exact ⟨rfl, rfl, rfl, rfl, storeCapacity_of_inv hb, storeCapacity_of_inv ha⟩
  · obtain ⟨m1, m2, m3, _⟩ := moveConstruct_spec c b bs hroom hmin hb hhb
    obtain ⟨b1, e1, n1, n2⟩ := moveAssign_spec c (moveConstruct c b).2 a as hroom m3 ha hha
    obtain ⟨a1, e2, k1, k2⟩ := moveAssign_spec c { a with slots := a.moved, fSize := 0 }
      (moveConstruct c b).1 bs hroom (inv_moved c a ha) m2 m1
    refine ⟨a1, b1, ?_, k1, n1, k2, n2, ?_⟩
    · simp only [swap, hown, Bool.false_eq_true, if_false, e1, Operand.get, e2]
    · intro h1 h2
      rw [h1, h2] at hown
      exact absurd rfl hown

/-- C21: for every two SkTArrays `a` and `b` holding `a0..a(k-1)` and `b0..b(m-1)`, given an
allocator that returns room for the requested count, `a.swap(b)` does not abort and leaves
`a` holding `b0..b(m-1)` and `b` holding `a0..a(k-1)`, each in the original order: by an
exchange of the blocks, sizes and capacities when both own their memory, by three moves of
the elements otherwise; a second swap restores both element sequences; and swapping an array
with itself returns it as it is. -/
theorem swap_exchanges_elements (c : Target) (a b : SkTArray T) (as bs : List T)
    (hroom : AllocatorGivesRoom c) (hmin : kMinHeapAllocCount ≤ kMaxCapacity c)
    (ha : Inv c a) (hb : Inv c b) (hha : Holds a as) (hhb : Holds b bs) :
    (∃ a1 b1, swap c a (.other b) = some (a1, .other b1) ∧ Holds a1 bs ∧ Holds b1 as ∧
      a1.size = b.size ∧ b1.size = a.size ∧
      (a.fOwnMemory = true → b.fOwnMemory = true →
        a1.fData = b.fData ∧ b1.fData = a.fData ∧ a1.slots = b.slots ∧ b1.slots = a.slots ∧
        a1.fCapacity = b.fCapacity ∧ b1.fCapacity = a.fCapacity) ∧
      ∃ a2 b2, swap c a1 (.other b1) = some (a2, .other b2) ∧ Holds a2 as ∧ Holds b2 bs) ∧
    swap c a .self = some (a, .self) := by
  obtain ⟨a1, b1, e, h1, h2, i1, i2, h3⟩ := swap_spec c a b as bs hroom hmin ha hb hha hhb
  obtain ⟨a2, b2, e2, j1, j2, _⟩ := swap_spec c a1 b1 bs as hroom hmin i1 i2 h1 h2
  exact ⟨⟨a1, b1, e, h1, h2, h1.1.trans hhb.1.symm, h2.1.trans hha.1.symm, h3,
    a2, b2, e2, j1, j2⟩, rfl⟩

/-- C21, witness: swapping the array `10, 20` of a preallocated block with the heap array
`1, 2, 3` leaves `1, 2, 3` in the first and `10, 20` in the second. -/
theorem swap_exchanges_elements_witness :
    ∃ a1 b1, swap (target64 4) sampleInline (.other sampleDest) = some (a1, .other b1) ∧
      Holds a1 [1, 2, 3] ∧ Holds b1 [10, 20] := by
  have hinl : Inv (target64 4) sampleInline := by
    refine ⟨by decide, by decide, ?_, by decide⟩
    have h1 : (4 : Nat) ≤ (2 ^ 64 - 1) / 4 := by decide
    simp only [kMaxCapacity, target64, INT_MAX, capacity, sampleInline]
    omega
  obtain ⟨a1, b1, e, h1, h2, _⟩ := (swap_exchanges_elements (target64 4) sampleInline
    sampleDest [10, 20] [1, 2, 3] (sampleAllocate_room 4 (by decide)) (by decide) hinl
    (sampleDest_inv 4 (by decide) (by decide)) (by simp [Holds, sampleInline])
    sampleDest_holds).1
  exact ⟨a1, b1, e, h1, h2⟩

theorem write_length (s : Slots T) (i : Int) (v : Option T) :
    (s.write i v).length = s.length := by
  simp only [Slots.write]
  split
  · exact List.length_set _ _ _
  · rfl

/-- The invariant speaks of the size, the capacity and the room of the block only. -/
theorem inv_of_eq {c : Target} {a b : SkTArray T} (h : Inv c a) (h1 : b.fSize = a.fSize)
    (h2 : b.fCapacity = a.fCapacity) (h3 : b.slots.length = a.slots.length) : Inv c b := by
  obtain ⟨i1, i2, i3, i4⟩ := h
  simp only [capacity] at i2 i3
  refine ⟨by omega, by simp only [capacity]; omega, by simp only [capacity]; omega, by omega⟩

theorem inv_setSize {c : Target} {a : SkTArray T} (h : Inv c a) (k : Int) (s : Slots T)
    (h0 : 0 ≤ k) (hk : k ≤ a.capacity) (hs : s.length = a.slots.length) :
    Inv c { a with fSize := k, slots := s } := by
  obtain ⟨_, _, i3, i4⟩ := h
  exact ⟨h0, hk, i3, by simp only [hs]; exact i4⟩

theorem copyLoop_length (src dst : Slots T) (k : Nat) :
    (copyLoop src dst k).length = dst.length := by
  rw [copyLoop_eq_moveLoop, moveLoop_length]

theorem inv_copy (c : Target) (a : SkTArray T) (src : Slots T) (h : Inv c a) :
    Inv c (a.copy src) :=
  inv_of_eq h rfl rfl (copyLoop_length _ _ _)

theorem inv_init_int (c : Target) (count : Int) (hroom : AllocatorGivesRoom c)
    (hmin : kMinHeapAllocCount ≤ kMaxCapacity c) (h0 : 0 ≤ count)
    (hk : count ≤ kMaxCapacity c) : Inv c (init (T := T) c count) := by
  obtain ⟨n, rfl⟩ := Int.eq_ofNat_of_zero_le h0
  exact inv_init c n hroom hmin hk

theorem inv_fromArray (c : Target) (array : Slots T) (count : Int)
    (hroom : AllocatorGivesRoom c) (hmin : kMinHeapAllocCount ≤ kMaxCapacity c)
    (h0 : 0 ≤ count) (hk : count ≤ kMaxCapacity c) : Inv c (fromArray c array count) :=
  inv_copy c _ array (inv_init_int c count hroom hmin h0 hk)

theorem inv_size_le {c : Target} {a : SkTArray T} (h : Inv c a) : a.fSize ≤ kMaxCapacity c :=
  le_trans h.2.1 h.2.2.1

theorem inv_copyConstruct (c : Target) (that : SkTArray T) (hroom : AllocatorGivesRoom c)
    (hmin : kMinHeapAllocCount ≤ kMaxCapacity c) (h : Inv c that) :
    Inv c (copyConstruct c that) :=
  inv_fromArray c _ _ hroom hmin h.1 (inv_size_le h)

theorem inv_moveConstruct (c : Target) (that : SkTArray T) (hroom : AllocatorGivesRoom c)
    (hmin : kMinHeapAllocCount ≤ kMaxCapacity c) (h : Inv c that) :
    Inv c (moveConstruct c that).1 ∧ Inv c (moveConstruct c that).2 := by
  by_cases hown : that.fOwnMemory = true
  · simp only [moveConstruct, hown, if_true, storeCapacity_of_inv h]
    exact ⟨h, inv_zero c⟩
  · have hown2 : that.fOwnMemory = false := by simpa using hown
    simp only [moveConstruct, hown2, Bool.false_eq_true, if_false]
    refine ⟨inv_of_eq (inv_init_int c that.fSize hroom hmin h.1 (inv_size_le h)) rfl rfl ?_, ?_⟩
    · simp only [move, moveLoop_length]
    · have := inv_moved c that h
      simpa using this

/-- The array left by `checkRealloc(n, g)` followed by `fSize += n` and the construction of
objects in the block satisfies the invariant. -/
theorem inv_grow_place (c : Target) (a a1 : SkTArray T) (n : Int) (g : ℚ) (s : Slots T)
    (hroom : AllocatorGivesRoom c) (h : Inv c a) (h0 : 0 ≤ n)
    (e : checkRealloc c a n g = some a1) (hs : s.length = a1.slots.length) :
    Inv c { a1 with fSize := a1.fSize + n, slots := s } := by
  obtain ⟨i1, _, i3⟩ := checkRealloc_inv c a a1 n g hroom h h0 e
  exact inv_setSize i1 _ s (by have := i1.1; omega) (by omega) hs

theorem inv_push_back (c : Target) (a a1 : SkTArray T) (t : T) (hroom : AllocatorGivesRoom c)
    (h : Inv c a) (e : push_back c a t = some a1) : Inv c a1 := by
  simp only [push_back, push_back_raw] at e
  cases hc : checkRealloc c a 1 kGrowing with
  | none => rw [hc] at e; cases e
  | some a2 =>
    rw [hc] at e
    cases e
    exact inv_grow_place c a a2 1 kGrowing _ hroom h (by decide) hc (write_length _ _ _)

theorem inv_push_back_default (c : Target) (a a1 : SkTArray T) (d : T)
    (hroom : AllocatorGivesRoom c) (h : Inv c a) (e : push_back_default c a d = some a1) :
    Inv c a1 :=
  inv_push_back c a a1 d hroom h e

theorem inv_push_back_n (c : Target) (a a1 : SkTArray T) (n : Int) (d : T)
    (hroom : AllocatorGivesRoom c) (h : Inv c a) (h0 : 0 ≤ n)
    (e : push_back_n c a n d = some a1) : Inv c a1 := by
  simp only [push_back_n, push_back_raw] at e
  cases hc : checkRealloc c a n kGrowing with
  | none => rw [hc] at e; cases e
  | some a2 =>
    rw [hc] at e
    cases e
    exact inv_grow_place c a a2 n kGrowing _ hroom h h0 hc (placeLoop_length _ _ _ _)

theorem inv_push_back_n_value (c : Target) (a a1 : SkTArray T) (n : Int) (t : T)
    (hroom : AllocatorGivesRoom c) (h : Inv c a) (h0 : 0 ≤ n)
    (e : push_back_n_value c a n t = some a1) : Inv c a1 :=
  inv_push_back_n c a a1 n t hroom h h0 e

theorem inv_push_back_n_array (c : Target) (a a1 : SkTArray T) (n : Int) (t : Slots T)
    (hroom : AllocatorGivesRoom c) (h : Inv c a) (h0 : 0 ≤ n)
    (e : push_back_n_array c a n t = some a1) : Inv c a1 := by
  simp only [push_back_n_array] at e
  cases hc : checkRealloc c a n kGrowing with
  | none => rw [hc] at e; cases e
  | some a2 =>
    rw [hc] at e
    cases e
    exact inv_grow_place c a a2 n kGrowing _ hroom h h0 hc (placeLoop_length _ _ _ _)

theorem inv_pop_back (c : Target) (a : SkTArray T) (h : Inv c a) (h0 : 0 < a.fSize) :
    Inv c a.pop_back := by
  rw [pop_back_eq]
  exact inv_pop_back_n c a 1 h (by decide) (by omega)

theorem inv_reserve_back (c : Target) (a a1 : SkTArray T) (n : Int)
    (hroom : AllocatorGivesRoom c) (h : Inv c a) (e : reserve_back c a n = some a1) :
    Inv c a1 := by
  simp only [reserve_back] at e
  by_cases hn : n > 0
  · rw [if_pos hn] at e
    exact (checkRealloc_inv c a a1 n kExactFit hroom h (by omega) e).1
  · rw [if_neg hn] at e
    cases e
    exact h

theorem inv_reserve (c : Target) (a a1 : SkTArray T) (n : Int)
    (hroom : AllocatorGivesRoom c) (h : Inv c a) (e : reserve c a n = some a1) :
    Inv c a1 := by
  simp only [reserve] at e
  by_cases hn : n ≥ a.size
  · rw [if_pos hn] at e
    exact inv_reserve_back c a a1 _ hroom h e
  · rw [if_neg hn] at e
    cases e
    exact h

theorem inv_reserveConstruct (c : Target) (a1 : SkTArray T) (n : Int)
    (hroom : AllocatorGivesRoom c) (e : reserveConstruct c n = some a1) : Inv c a1 :=
  inv_reserve_back c _ a1 n hroom (inv_defaultConstruct c) e

theorem inv_resize_back (c : Target) (a a1 : SkTArray T) (newCount : Int) (d : T)
    (hroom : AllocatorGivesRoom c) (h : Inv c a) (h0 : 0 ≤ newCount)
    (e : resize_back c a newCount d = some a1) : Inv c a1 := by
  simp only [resize_back, size] at e
  by_cases h1 : newCount > a.fSize
  · rw [if_pos h1] at e
    exact inv_push_back_n c a a1 _ d hroom h (by omega) e
  · rw [if_neg h1] at e
    by_cases h2 : newCount < a.fSize
    · rw [if_pos h2] at e
      cases e
      exact inv_pop_back_n c a _ h (by omega) (by omega)
    · rw [if_neg h2] at e
      cases e
      exact h

/-- The array left by `clear()`, `checkRealloc(n, kExactFit)`, `fSize = n` and the
construction of objects in the block satisfies the invariant. -/
theorem inv_clear_realloc (c : Target) (a a1 : SkTArray T) (n : Int) (s : Slots T)
    (hroom : AllocatorGivesRoom c) (h : Inv c a) (h0 : 0 ≤ n)
    (e : checkRealloc c a.clear n kExactFit = some a1) (hs : s.length = a1.slots.length) :
    Inv c { a1 with fSize := n, slots := s } := by
  obtain ⟨i1, i2, i3⟩ := checkRealloc_inv c a.clear a1 n kExactFit hroom (inv_clear c a h) h0 e
  rw [clear_fSize] at i2
  exact inv_setSize i1 _ s h0 (by omega) hs

theorem inv_reset_n (c : Target) (a a1 : SkTArray T) (n : Int) (d : T)
    (hroom : AllocatorGivesRoom c) (h : Inv c a) (h0 : 0 ≤ n)
    (e : reset_n c a n d = some a1) : Inv c a1 := by
  simp only [reset_n] at e
  cases hc : checkRealloc c a.clear n kExactFit with
  | none => rw [hc] at e; cases e
  | some a2 =>
    rw [hc] at e
    cases e
    exact inv_clear_realloc c a a2 n _ hroom h h0 hc (placeLoop_length _ _ _ _)

theorem inv_reset_array (c : Target) (a a1 : SkTArray T) (array : Slots T) (count : Int)
    (hroom : AllocatorGivesRoom c) (h : Inv c a) (h0 : 0 ≤ count)
    (e : reset_array c a array count = some a1) : Inv c a1 := by
  simp only [reset_array] at e
  cases hc : checkRealloc c a.clear count kExactFit with
  | none => rw [hc] at e; cases e
  | some a2 =>
    rw [hc] at e
    cases e
    exact inv_clear_realloc c a a2 count _ hroom h h0 hc (copyLoop_length _ _ _)

theorem inv_copyAssign (c : Target) (a that a1 : SkTArray T) (hroom : AllocatorGivesRoom c)
    (h : Inv c a) (ht : Inv c that) (e : copyAssign c a (.other that) = some a1) :
    Inv c a1 := by
  simp only [copyAssign, size] at e
  cases hc : checkRealloc c a.clear that.fSize kExactFit with
  | none => rw [hc] at e; cases e
  | some a2 =>
    rw [hc] at e
    cases e
    exact inv_clear_realloc c a a2 that.fSize _ hroom h ht.1 hc (copyLoop_length _ _ _)

/-- Move assignment from another array that satisfies the invariant does not abort and leaves
both arrays with the invariant. -/
theorem inv_moveAssign (c : Target) (a that : SkTArray T) (hroom : AllocatorGivesRoom c)
    (h : Inv c a) (ht : Inv c that) :
    ∃ a1, moveAssign c a (.other that) =
        some (a1, .other { that with slots := that.moved, fSize := 0 }) ∧
      Inv c a1 ∧ Inv c { that with slots := that.moved, fSize := 0 } := by
  obtain ⟨k, hk⟩ := Int.eq_ofNat_of_zero_le ht.1
  have hle : (k : Int) ≤ kMaxCapacity c := by rw [← hk]; exact inv_size_le ht
  obtain ⟨a2, e, i1, i2, i3, i4, _⟩ := clear_realloc_spec c a k hroom h hle
  refine ⟨{ a2 with fSize := that.fSize, slots := that.move a2.slots },
    by simp only [moveAssign, size, hk, e], ?_, inv_moved c that ht⟩
  exact inv_setSize i1 _ _ ht.1 (by rw [hk]; exact i3) (by simp only [move, moveLoop_length])

theorem inv_swap (c : Target) (a b : SkTArray T) (hroom : AllocatorGivesRoom c)
    (hmin : kMinHeapAllocCount ≤ kMaxCapacity c) (ha : Inv c a) (hb : Inv c b) :
    ∃ a1 b1, swap c a (.other b) = some (a1, .other b1) ∧ Inv c a1 ∧ Inv c b1 := by
  by_cases hown : (a.fOwnMemory && b.fOwnMemory) = true
  · refine ⟨{ a with fData := b.fData, slots := b.slots, fSize := b.fSize,
                     fCapacity := storeCapacity b.fCapacity },
      { b with fData := a.fData, slots := a.slots, fSize := a.fSize,
               fCapacity := storeCapacity a.fCapacity },
      by simp only [swap, hown, if_true], ?_, ?_⟩
    · rw [storeCapacity_of_inv hb]; exact hb
    · rw [storeCapacity_of_inv ha]; exact ha
  · obtain ⟨m1, m2⟩ := inv_moveConstruct c b hroom hmin hb
    obtain ⟨b1, e1, n1, n2⟩ := inv_moveAssign c (moveConstruct c b).2 a hroom m2 ha
    obtain ⟨a1, e2, k1, _⟩ := inv_moveAssign c { a with slots := a.moved, fSize := 0 }
      (moveConstruct c b).1 hroom n2 m1
    exact ⟨a1, b1, by simp only [swap, hown, Bool.false_eq_true, if_false, e1, Operand.get, e2],
      k1, n1⟩

theorem inv_shrink_to_fit (c : Target) (a : SkTArray T) (hroom : AllocatorGivesRoom c)
    (h : Inv c a) : Inv c (shrink_to_fit c a) := by
  simp only [shrink_to_fit]
  split
  · exact h
  · split
    · rename_i h0
      have h0 : a.fSize = 0 := by simpa using h0
      refine ⟨by simp only [h0]; exact le_refl _, ?_, ?_, ?_⟩
      · simp only [capacity, h0, storeCapacity]; decide
      · have := h.2.2.1
        have := h.1
        have := h.2.1
        simp only [capacity, storeCapacity] at *
        omega
      · simp [storeCapacity]
    · have hg := (grow_spec c a 0 1 hroom h.1 (le_refl _)
        (by have := inv_size_le h; omega)).1
      simp only [add_zero] at hg
      exact hg

theorem inv_fromArrayWithStorage (c : Target) (N storage : Nat) (array : Slots T)
    (count : Int) (hroom : AllocatorGivesRoom c) (hmin : kMinHeapAllocCount ≤ kMaxCapacity c)
    (hN : (N : Int) ≤ kMaxCapacity c) (h0 : 0 ≤ count) (hk : count ≤ kMaxCapacity c) :
    Inv c (fromArrayWithStorage c N storage array count) := by
  refine inv_copy c _ array ?_
  by_cases hc : count > (N : Int)
  · rw [initWithPreallocatedStorage_heap c count storage _ N hc]
    exact inv_init_int c count hroom hmin h0 hk
  · rw [initWithPreallocatedStorage_inline c count storage _ N hc hN]
    refine ⟨h0, by simp only [capacity]; omega, hN, ?_⟩
    simp only [List.length_replicate, le_refl]

/-- C29: given an allocator that returns room for the requested count (the minimum heap
allocation of 8 included), every constructor leaves an array that satisfies the class
invariant `0 <= size() <= capacity() <= kMaxCapacity`, and every operation called within its
asserted preconditions on arrays that satisfy the invariant leaves arrays that satisfy it, so
`0 <= size() <= capacity()` holds after it: the constructors, `push_back` and `push_back_n`,
`pop_back` and `pop_back_n`, the `reset` overloads and `clear`, `reserve` and `reserve_back`,
`resize_back`, `removeShuffle`, `swap`, `shrink_to_fit`, copy and move assignment.  An
operation that aborts leaves no array. -/
theorem operations_keep_size_within_capacity (c : Target) (hroom : AllocatorGivesRoom c)
    (hmin : kMinHeapAllocCount ≤ kMaxCapacity c) :
    (∀ a : SkTArray T, Inv c a → 0 ≤ a.size ∧ a.size ≤ a.capacity) ∧
    (Inv c (defaultConstruct (T := T) c) ∧
      (∀ (n : Int) (a1 : SkTArray T), reserveConstruct c n = some a1 → Inv c a1) ∧
      (∀ (array : Slots T) (count : Int), 0 ≤ count → count ≤ kMaxCapacity c →
        Inv c (fromArray c array count)) ∧
      (∀ that : SkTArray T, Inv c that → Inv c (copyConstruct c that)) ∧
      (∀ that : SkTArray T, Inv c that →
        Inv c (moveConstruct c that).1 ∧ Inv c (moveConstruct c that).2) ∧
      (∀ N storage : Nat, (N : Int) ≤ kMaxCapacity c →
        Inv c (constructWithStorage (T := T) c N storage)) ∧
      (∀ (N storage : Nat) (array : Slots T) (count : Int), (N : Int) ≤ kMaxCapacity c →
        0 ≤ count → count ≤ kMaxCapacity c →
        Inv c (fromArrayWithStorage c N storage array count))) ∧
    (∀ a : SkTArray T, Inv c a →
      (∀ (t : T) (a1 : SkTArray T), push_back c a t = some a1 → Inv c a1) ∧
      (∀ (d : T) (a1 : SkTArray T), push_back_default c a d = some a1 → Inv c a1) ∧
      (∀ (n : Int) (d : T) (a1 : SkTArray T), 0 ≤ n → push_back_n c a n d = some a1 →
        Inv c a1) ∧
      (∀ (n : Int) (t : T) (a1 : SkTArray T), 0 ≤ n → push_back_n_value c a n t = some a1 →
        Inv c a1) ∧
      (∀ (n : Int) (t : Slots T) (a1 : SkTArray T), 0 ≤ n →
        push_back_n_array c a n t = some a1 → Inv c a1) ∧
      (0 < a.size → Inv c a.pop_back) ∧
      (∀ n : Int, 0 ≤ n → n ≤ a.size → Inv c (a.pop_back_n n)) ∧
      Inv c a.reset ∧
      Inv c a.clear ∧
      (∀ (n : Int) (d : T) (a1 : SkTArray T), 0 ≤ n → reset_n c a n d = some a1 → Inv c a1) ∧
      (∀ (array : Slots T) (count : Int) (a1 : SkTArray T), 0 ≤ count →
        reset_array c a array count = some a1 → Inv c a1) ∧
      (∀ (n : Int) (a1 : SkTArray T), reserve c a n = some a1 → Inv c a1) ∧
      (∀ (n : Int) (a1 : SkTArray T), reserve_back c a n = some a1 → Inv c a1) ∧
      (∀ (newCount : Int) (d : T) (a1 : SkTArray T), 0 ≤ newCount →
        resize_back c a newCount d = some a1 → Inv c a1) ∧
      (∀ n : Int, 0 ≤ n → n < a.size → Inv c (a.removeShuffle n)) ∧
      Inv c (shrink_to_fit c a) ∧
      swap c a .self = some (a, .self) ∧
      (∀ b : SkTArray T, Inv c b →
        ∃ a1 b1, swap c a (.other b) = some (a1, .other b1) ∧ Inv c a1 ∧ Inv c b1) ∧
      copyAssign c a .self = some a ∧
      (∀ that a1 : SkTArray T, Inv c that → copyAssign c a (.other that) = some a1 →
        Inv c a1) ∧
      moveAssign c a .self = some (a, .self) ∧
      (∀ that : SkTArray T, Inv c that →
        ∃ a1 that1, moveAssign c a (.other that) = some (a1, .other that1) ∧
          Inv c a1 ∧ Inv c that1)) := by
  refine ⟨fun a h => ⟨h.1, h.2.1⟩, ⟨inv_defaultConstruct c,
    fun n a1 e => inv_reserveConstruct c a1 n hroom e,
    fun array count h0 hk => inv_fromArray c array count hroom hmin h0 hk,
    fun that h => inv_copyConstruct c that hroom hmin h,
    fun that h => inv_moveConstruct c that hroom hmin h,
    fun N storage hN => (inv_constructWithStorage c N storage hN).1,
    fun N storage array count hN h0 hk =>
      inv_fromArrayWithStorage c N storage array count hroom hmin hN h0 hk⟩, ?_⟩
  intro a h
  refine ⟨fun t a1 e => inv_push_back c a a1 t hroom h e,
    fun d a1 e => inv_push_back_default c a a1 d hroom h e,
    fun n d a1 h0 e => inv_push_back_n c a a1 n d hroom h h0 e,
    fun n t a1 h0 e => inv_push_back_n_value c a a1 n t hroom h h0 e,
    fun n t a1 h0 e => inv_push_back_n_array c a a1 n t hroom h h0 e,
    fun h0 => inv_pop_back c a h h0,
    fun n h0 hn => inv_pop_back_n c a n h h0 hn,
    inv_clear c a h, inv_clear c a h,
    fun n d a1 h0 e => inv_reset_n c a a1 n d hroom h h0 e,
    fun array count a1 h0 e => inv_reset_array c a a1 array count hroom h h0 e,
    fun n a1 e => inv_reserve c a a1 n hroom h e,
    fun n a1 e => inv_reserve_back c a a1 n hroom h e,
    fun newCount d a1 h0 e => inv_resize_back c a a1 newCount d hroom h h0 e,
    fun n h0 hn => inv_removeShuffle c a n h h0 hn,
    inv_shrink_to_fit c a hroom h, rfl,
    fun b hb => inv_swap c a b hroom hmin h hb, rfl,
    fun that a1 ht e => inv_copyAssign c a that a1 hroom h ht e, rfl, ?_⟩
  intro that ht
  obtain ⟨a1, e, i1, i2⟩ := inv_moveAssign c a that hroom h ht
  exact ⟨a1, _, e, i1, i2⟩

/-- C29, witness: with the sample allocator of a 64-bit target, `push_back(4)` on the full
array `1, 2, 3` reallocates and leaves `0 <= size() <= capacity()`, and so does
`removeShuffle(0)`. -/
theorem operations_keep_size_within_capacity_witness :
    (∃ a1, push_back (target64 4) sampleDest 4 = some a1 ∧ 0 ≤ a1.size ∧
      a1.size ≤ a1.capacity) ∧
    0 ≤ (sampleDest.removeShuffle 0).size ∧
    (sampleDest.removeShuffle 0).size ≤ (sampleDest.removeShuffle 0).capacity := by
  have h := operations_keep_size_within_capacity (T := Nat) (target64 4)
    (sampleAllocate_room 4 (by decide)) (by decide)
  have hinv : Inv (target64 4) sampleDest := sampleDest_inv 4 (by decide) (by decide)
  have hops := h.2.2 sampleDest hinv
  obtain ⟨a1, hp, _⟩ := push_back_spec (target64 4) sampleDest [1, 2, 3] 4
    (sampleAllocate_room 4 (by decide)) hinv sampleDest_holds (Or.inr (by decide))
  exact ⟨⟨a1, hp, h.1 _ (hops.1 4 a1 hp)⟩,
    h.1 _ (hops.2.2.2.2.2.2.2.2.2.2.2.2.2.2.1 0 (by decide) (by decide))⟩

theorem eqLoop_iff [DecidableEq T] (l r : Slots T) (n : Nat) (index : Int) :
    eqLoop l r n index = true ↔
      ∀ i : Nat, i < n → l.read (index + (i : Int)) = r.read (index + (i : Int)) := by
  induction n generalizing index with
  | zero => simp [eqLoop]
  | succ k ih =>
    simp only [eqLoop]
    constructor
    · intro h i hi
      by_cases hne : l.read index ≠ r.read index
      · simp [hne] at h
      · rw [if_neg hne] at h
        have h0 : l.read index = r.read index := not_not.mp hne
        rcases Nat.eq_zero_or_pos i with rfl | hpos
        · simpa using h0
        · have := (ih (index + 1)).mp h (i - 1) (by omega)
          have e : index + 1 + ((i - 1 : Nat) : Int) = index + (i : Int) := by omega
          rw [e] at this
          exact this
    · intro h
      have h0 := h 0 (by omega)
      simp only [Nat.cast_zero, add_zero] at h0
      rw [if_neg (not_not.mpr h0)]
      apply (ih (index + 1)).mpr
      intro i hi
      have := h (i + 1) (by omega)
      have e : index + ((i + 1 : Nat) : Int) = index + 1 + (i : Int) := by push_cast; ring
      rw [e] at this
      exact this

/-- C31: `operator==` on two SkTArrays is true exactly when they have the same size and equal
elements at every index below it; for arrays holding `a0..a(k-1)` and `b0..b(m-1)` that is
when the two sequences are equal.  The answer does not depend on the buffer address, the
capacity or the ownership flag of either array.  `operator!=` is the negation of
`operator==` for every pair of arrays. -/
theorem operatorEq_iff_same_elements [DecidableEq T] (a b : SkTArray T) :
    (operatorEq a b = true ↔
      a.size = b.size ∧
        ∀ i : Nat, (i : Int) < a.size → a.get (i : Int) = b.get (i : Int)) ∧
    (∀ as bs : List T, Holds a as → Holds b bs → (operatorEq a b = true ↔ as = bs)) ∧
    (∀ (d1 d2 c1 c2 : Nat) (o1 o2 : Bool),
      operatorEq { a with fData := d1, fCapacity := c1, fOwnMemory := o1 }
        { b with fData := d2, fCapacity := c2, fOwnMemory := o2 } = operatorEq a b) ∧
    operatorNe a b = !operatorEq a b ∧
    (operatorNe a b = true ↔ operatorEq a b = false) := by
  have hmain : operatorEq a b = true ↔
      a.size = b.size ∧
        ∀ i : Nat, (i : Int) < a.size → a.get (i : Int) = b.get (i : Int) := by
    simp only [operatorEq, size, get]
    by_cases hs : a.fSize = b.fSize
    · rw [if_neg (not_not.mpr hs), eqLoop_iff]
      simp only [zero_add]
      constructor
      · intro h
        exact ⟨hs, fun i hi => h i (by omega)⟩
      · intro h i hi
        exact h.2 i (by omega)
    · rw [if_pos hs]
      constructor
      · intro h; cases h
      · intro h; exact absurd h.1 hs
  refine ⟨hmain, ?_, fun _ _ _ _ _ _ => rfl, rfl, by simp [operatorNe]⟩
  intro as bs ha hb
  rw [hmain]
  have hsa : a.fSize = (as.length : Int) := ha.1
  have hsb : b.fSize = (bs.length : Int) := hb.1
  simp only [size, get]
  constructor
  · rintro ⟨h1, h2⟩
    have hlen : as.length = bs.length := by omega
    apply List.ext_getElem hlen
    intro i hi1 hi2
    have e := h2 i (by omega)
    rw [holds_read ha i hi1, holds_read hb i hi2, List.getElem?_eq_getElem hi1,
      List.getElem?_eq_getElem hi2] at e
    exact Option.some.inj e
  · rintro rfl
    refine ⟨by omega, fun i hi => ?_⟩
    rw [holds_read ha i (by omega), holds_read hb i (by omega)]

theorem setItemArray_capacity_le (c : Target) (a : SkTArray T) (allocation : SkSpan)
    (block : Slots T) : (setItemArray c a allocation block).capacity ≤ kMaxCapacity c := by
  have h0 : 0 ≤ kMaxCapacity c := by unfold kMaxCapacity; exact Nat.cast_nonneg _
  simp only [setItemArray, capacity, storeCapacity, SkToU32, SkToSizeT]
  have h1 : min (allocation.size / c.sizeofT) (kMaxCapacity c).toNat ≤ (kMaxCapacity c).toNat :=
    Nat.min_le_right _ _
  have h2 := Nat.mod_le (min (allocation.size / c.sizeofT) (kMaxCapacity c).toNat) (2 ^ 32)
  have h3 := Nat.mod_le (min (allocation.size / c.sizeofT) (kMaxCapacity c).toNat % 2 ^ 32)
    (2 ^ 31)
  omega

/-- What every return of `checkRealloc(delta, g)` guarantees, whatever the allocator gave: the
size is unchanged, `size + delta` is within `kMaxCapacity`, and so is the capacity. -/
theorem checkRealloc_size_le (c : Target) (a a1 : SkTArray T) (delta : Int) (g : ℚ)
    (hcap : a.capacity ≤ kMaxCapacity c) (e : checkRealloc c a delta g = some a1) :
    a1.fSize = a.fSize ∧ a1.fSize + delta ≤ kMaxCapacity c ∧
    a1.capacity ≤ kMaxCapacity c := by
  by_cases h1 : delta ≤ a.capacity - a.fSize
  · rw [checkRealloc_keep c a delta g h1] at e
    cases e
    exact ⟨rfl, by omega, hcap⟩
  · by_cases h2 : delta ≤ kMaxCapacity c - a.fSize
    · rw [checkRealloc_grow c a delta g h1 h2] at e
      cases e
      exact ⟨rfl, by simp only [setItemArray]; omega, setItemArray_capacity_le c a _ _⟩
    · rw [checkRealloc_abort c a delta g h1 h2] at e
      cases e

theorem push_back_raw_size_le (c : Target) (a a1 : SkTArray T) (n newTs : Int)
    (hcap : a.capacity ≤ kMaxCapacity c) (e : push_back_raw c a n = some (a1, newTs)) :
    a1.size ≤ kMaxCapacity c ∧ a1.capacity ≤ kMaxCapacity c := by
  simp only [push_back_raw] at e
  cases hc : checkRealloc c a n kGrowing with
  | none => rw [hc] at e; cases e
  | some a2 =>
    rw [hc] at e
    cases e
    obtain ⟨_, i2, i3⟩ := checkRealloc_size_le c a a2 n kGrowing hcap hc
    exact ⟨i2, i3⟩

theorem clear_realloc_size_le (c : Target) (a a1 : SkTArray T) (n : Int)
    (hcap : a.capacity ≤ kMaxCapacity c) (e : checkRealloc c a.clear n kExactFit = some a1) :
    n ≤ kMaxCapacity c ∧ a1.capacity ≤ kMaxCapacity c := by
  obtain ⟨i1, i2, i3⟩ := checkRealloc_size_le c a.clear a1 n kExactFit hcap e
  rw [i1, clear_fSize] at i2
  exact ⟨by omega, i3⟩

/-- C32: `kMaxCapacity` is `min(SIZE_MAX / sizeof(T), INT_MAX)`.  Whenever `checkRealloc(delta,
g)` has to grow (`capacity() - size < delta`) and its guard `delta <= kMaxCapacity - size`
holds, `size + delta` is at most `INT_MAX`, so the `int` addition does not overflow, and
`(size + delta) * sizeof(T)` is at most `SIZE_MAX`, so the `size_t` product does not overflow,
and the call returns; when the guard fails the call aborts.  Hence every return of
`checkRealloc` leaves `size + delta` and the capacity within `kMaxCapacity`, and no operation
that enlarges the array (`push_back_raw`, `push_back`, the `push_back_n` overloads,
`resize_back`, `reset(n)`, `reset(array, count)`, copy and move assignment) returns with
`size()` above `kMaxCapacity`. -/
theorem checkRealloc_guard_excludes_overflow (c : Target) (a : SkTArray T) (delta : Int)
    (g : ℚ) (hinv : Inv c a) :
    kMaxCapacity c = ((min (c.SIZE_MAX / c.sizeofT) INT_MAX : Nat) : Int) ∧
    (¬ a.capacity - a.fSize ≥ delta → delta ≤ kMaxCapacity c - a.fSize →
      a.fSize + delta ≤ (INT_MAX : Int) ∧ addInt a.fSize delta = a.fSize + delta ∧
      SkToSizeT (a.fSize + delta) * c.sizeofT ≤ c.SIZE_MAX ∧
      bytes c (a.fSize + delta) = SkToSizeT (a.fSize + delta) * c.sizeofT ∧
      ∃ a1, checkRealloc c a delta g = some a1 ∧ a1.size + delta ≤ kMaxCapacity c) ∧
    (¬ a.capacity - a.fSize ≥ delta → ¬ delta ≤ kMaxCapacity c - a.fSize →
      checkRealloc c a delta g = none) ∧
    (∀ a1, checkRealloc c a delta g = some a1 →
      a1.size + delta ≤ kMaxCapacity c ∧ a1.capacity ≤ kMaxCapacity c) ∧
    (∀ a1 newTs, push_back_raw c a delta = some (a1, newTs) → a1.size ≤ kMaxCapacity c) ∧
    (∀ (t : T) (a1 : SkTArray T), push_back c a t = some a1 → a1.size ≤ kMaxCapacity c) ∧
    (∀ (d : T) (a1 : SkTArray T), push_back_default c a d = some a1 →
      a1.size ≤ kMaxCapacity c) ∧
    (∀ (d : T) (a1 : SkTArray T), push_back_n c a delta d = some a1 →
      a1.size ≤ kMaxCapacity c) ∧
    (∀ (t : T) (a1 : SkTArray T), push_back_n_value c a delta t = some a1 →
      a1.size ≤ kMaxCapacity c) ∧
    (∀ (t : Slots T) (a1 : SkTArray T), push_back_n_array c a delta t = some a1 →
      a1.size ≤ kMaxCapacity c) ∧
    (∀ (d : T) (a1 : SkTArray T), resize_back c a delta d = some a1 →
      a1.size ≤ kMaxCapacity c) ∧
    (∀ (d : T) (a1 : SkTArray T), reset_n c a delta d = some a1 → a1.size ≤ kMaxCapacity c) ∧
    (∀ (array : Slots T) (a1 : SkTArray T), reset_array c a array delta = some a1 →
      a1.size ≤ kMaxCapacity c) ∧
    (∀ that a1 : SkTArray T, copyAssign c a (.other that) = some a1 →
      a1.size ≤ kMaxCapacity c) ∧
    (∀ (that a1 : SkTArray T) (o : Operand T), moveAssign c a (.other that) = some (a1, o) →
      a1.size ≤ kMaxCapacity c) := by
  obtain ⟨h0, hsz, hcap, _⟩ := hinv
  have hmax := kMaxCapacity_le c
  have hpush : ∀ (n : Int) (a1 : SkTArray T) (newTs : Int),
      push_back_raw c a n = some (a1, newTs) → a1.size ≤ kMaxCapacity c :=
    fun n a1 newTs e => (push_back_raw_size_le c a a1 n newTs hcap e).1
  have hpushn : ∀ (n : Int) (d : T) (a1 : SkTArray T), push_back_n c a n d = some a1 →
      a1.size ≤ kMaxCapacity c := by
    intro n d a1 e
    simp only [push_back_n] at e
    cases hc : push_back_raw c a n with
    | none => rw [hc] at e; cases e
    | some p =>
      obtain ⟨a2, newTs⟩ := p
      rw [hc] at e
      cases e
      exact hpush n a2 newTs hc
  have hpush1 : ∀ (t : T) (a1 : SkTArray T), push_back c a t = some a1 →
      a1.size ≤ kMaxCapacity c := by
    intro t a1 e
    simp only [push_back] at e
    cases hc : push_back_raw c a 1 with
    | none => rw [hc] at e; cases e
    | some p =>
      obtain ⟨a2, newTs⟩ := p
      rw [hc] at e
      cases e
      exact hpush 1 a2 newTs hc
  refine ⟨rfl, ?_, fun h1 h2 => checkRealloc_abort c a delta g h1 h2,
    fun a1 e => ?_, hpush delta, hpush1, hpush1, hpushn delta, hpushn delta, ?_, ?_, ?_, ?_,
    ?_, ?_⟩
  · intro h1 h2
    have hle : a.fSize + delta ≤ kMaxCapacity c := by omega
    have hnat : (a.fSize + delta).toNat ≤ c.SIZE_MAX / c.sizeofT := by
      have : kMaxCapacity c ≤ ((c.SIZE_MAX / c.sizeofT : Nat) : Int) := by
        unfold kMaxCapacity
        exact Int.ofNat_le.mpr (Nat.min_le_left _ _)
      omega
    have hprod : SkToSizeT (a.fSize + delta) * c.sizeofT ≤ c.SIZE_MAX :=
      le_trans (Nat.mul_le_mul_right _ hnat) (Nat.div_mul_le_self _ _)
    refine ⟨by simp only [INT_MAX]; omega, by simp only [addInt]; omega, hprod,
      by simp only [bytes]; exact Nat.mod_eq_of_lt (by omega),
      _, checkRealloc_grow c a delta g h1 h2, by simp only [setItemArray, size]; omega⟩
  · obtain ⟨i1, i2, i3⟩ := checkRealloc_size_le c a a1 delta g hcap e
    exact ⟨i2, i3⟩
  · intro t a1 e
    simp only [push_back_n_array] at e
    cases hc : checkRealloc c a delta kGrowing with
    | none => rw [hc] at e; cases e
    | some a2 =>
      rw [hc] at e
      cases e
      exact (checkRealloc_size_le c a a2 delta kGrowing hcap hc).2.1
  · intro d a1 e
    simp only [resize_back, size] at e
    by_cases h1 : delta > a.fSize
    · rw [if_pos h1] at e
      exact hpushn _ d a1 e
    · rw [if_neg h1] at e
      by_cases h2 : delta < a.fSize
      · rw [if_pos h2] at e
        cases e
        simp only [pop_back_n, size]
        omega
      · rw [if_neg h2] at e
        cases e
        simp only [size]
        omega
  · intro d a1 e
    simp only [reset_n] at e
    cases hc : checkRealloc c a.clear delta kExactFit with
    | none => rw [hc] at e; cases e
    | some a2 =>
      rw [hc] at e
      cases e
      exact (clear_realloc_size_le c a a2 delta hcap hc).1
  · intro array a1 e
    simp only [reset_array] at e
    cases hc : checkRealloc c a.clear delta kExactFit with
    | none => rw [hc] at e; cases e
    | some a2 =>
      rw [hc] at e
      cases e
      exact (clear_realloc_size_le c a a2 delta hcap hc).1
  · intro that a1 e
    simp only [copyAssign, size] at e
    cases hc : checkRealloc c a.clear that.fSize kExactFit with
    | none => rw [hc] at e; cases e
    | some a2 =>
      rw [hc] at e
      cases e
      exact (clear_realloc_size_le c a a2 that.fSize hcap hc).1
  · intro that a1 o e
    simp only [moveAssign, size] at e
    cases hc : checkRealloc c a.clear that.fSize kExactFit with
    | none => rw [hc] at e; cases e
    | some a2 =>
      rw [hc] at e
      simp only [Option.some.injEq, Prod.mk.injEq] at e
      rw [← e.1]
      exact (clear_realloc_size_le c a a2 that.fSize hcap hc).1

/-- C32, witness: on the full `SkTArray<int>` `1, 2, 3` of a 64-bit target, `checkRealloc(1,
kGrowing)` has to grow, the guard holds, `3 + 1` overflows neither `int` nor, times 4,
`size_t`, and the call returns; on a 32-bit target `checkRealloc(1073741821, kExactFit)`
fails the guard and aborts. -/
theorem checkRealloc_guard_excludes_overflow_witness :
    (addInt sampleDest.fSize 1 = 4 ∧ bytes (target64 4) 4 = 16 ∧
      ∃ a1, checkRealloc (target64 4) sampleDest 1 kGrowing = some a1 ∧
        a1.size + 1 ≤ kMaxCapacity (target64 4)) ∧
    checkRealloc (target32 4) sampleDest 1073741821 kExactFit = none := by
  have h := checkRealloc_guard_excludes_overflow (target64 4) sampleDest 1 kGrowing
    (sampleDest_inv 4 (by decide) (by decide))
  have h32 := checkRealloc_guard_excludes_overflow (target32 4) sampleDest 1073741821 kExactFit
    sampleDest_inv32
  obtain ⟨_, h2, h3, h4, a1, e, hle⟩ := h.2.1 (by decide) (by decide)
  exact ⟨⟨h2, h4, a1, e, hle⟩, h32.2.2.1 (by decide) (by rw [kMaxCapacity_target32_four]; decide)⟩

/-- What `shrink_to_fit` does to the ownership flag: nothing.  An array on the heap stays on
the heap, in a block of `size()` elements or with the null pointer. -/
theorem shrink_to_fit_keeps_ownership (c : Target) (a : SkTArray T) :
    (shrink_to_fit c a).fOwnMemory = a.fOwnMemory := by
  simp only [shrink_to_fit]
  split
  · rfl
  · rename_i h
    split
    · rfl
    · simp only [setItemArray]
      simp only [Bool.or_eq_true, Bool.not_eq_true', not_or, Bool.not_eq_false] at h
      exact h.1.symm

/-- C33, the code at the failing input: an `SkSTArray<2, int>` built from the C array
`5, 6, 7` is on the heap (capacity 8, owned); after `pop_back_n(2)` it holds `5`, which fits
the inline block of 2, and `shrink_to_fit()` moves it to a new heap block of one element:
the ownership flag stays true, the capacity is 1 and the pointer is not the inline block
`512`.  After `pop_back_n(3)` the array is empty and `shrink_to_fit()` leaves the null
pointer with capacity 0. -/
theorem shrink_to_fit_stays_on_heap :
    fromArrayWithStorage (T := Nat) (target64 4) 2 512 [some 5, some 6, some 7] 3 =
      { fData := 4096, slots := [some 5, some 6, some 7, none, none, none, none, none],
        fSize := 3, fCapacity := 8, fOwnMemory := true } ∧
    Holds ((fromArrayWithStorage (T := Nat) (target64 4) 2 512
      [some 5, some 6, some 7] 3).pop_back_n 2) [5] ∧
    shrink_to_fit (target64 4) ((fromArrayWithStorage (T := Nat) (target64 4) 2 512
      [some 5, some 6, some 7] 3).pop_back_n 2) =
      { fData := 4096, slots := [some 5], fSize := 1, fCapacity := 1, fOwnMemory := true } ∧
    shrink_to_fit (target64 4) ((fromArrayWithStorage (T := Nat) (target64 4) 2 512
      [some 5, some 6, some 7] 3).pop_back_n 3) =
      { fData := 0, slots := [], fSize := 0, fCapacity := 0, fOwnMemory := true } ∧
    ¬ ((shrink_to_fit (target64 4) ((fromArrayWithStorage (T := Nat) (target64 4) 2 512
        [some 5, some 6, some 7] 3).pop_back_n 2)).fOwnMemory = false ∧
      (shrink_to_fit (target64 4) ((fromArrayWithStorage (T := Nat) (target64 4) 2 512
        [some 5, some 6, some 7] 3).pop_back_n 2)).capacity = 2) := by
  have e1 : fromArrayWithStorage (T := Nat) (target64 4) 2 512 [some 5, some 6, some 7] 3 =
      { fData := 4096, slots := [some 5, some 6, some 7, none, none, none, none, none],
        fSize := 3, fCapacity := 8, fOwnMemory := true } := by decide
  have e2 : shrink_to_fit (target64 4) ((fromArrayWithStorage (T := Nat) (target64 4) 2 512
      [some 5, some 6, some 7] 3).pop_back_n 2) =
      { fData := 4096, slots := [some 5], fSize := 1, fCapacity := 1, fOwnMemory := true } := by
    decide
  refine ⟨e1, ?_, e2, by decide, ?_⟩
  · rw [e1]
    exact ⟨rfl, rfl⟩
  · rw [e2]
    rintro ⟨h1, _⟩
    cases h1

/-- C34, the code at the failing input: an empty `SkTArray<int>` with 10 elements reserved
keeps capacity 10 through `reset(2)` and through `reset(array, 2)`, because `checkRealloc(2,
kExactFit)` returns early when the capacity suffices; the same calls on an array with nothing
reserved leave the exact-fit capacity 2. -/
theorem reset_keeps_reserved_capacity :
    (∃ a, reserve_back (target64 4) (defaultConstruct (T := Nat) (target64 4)) 10 = some a ∧
      a.size = 0 ∧ a.capacity = 10 ∧
      (∃ a1, reset_n (target64 4) a 2 0 = some a1 ∧ a1.size = 2 ∧ a1.capacity = 10) ∧
      (∃ a1, reset_array (target64 4) a [some 7, some 8] 2 = some a1 ∧ a1.size = 2 ∧
        a1.capacity = 10)) ∧
    (∃ a1, reset_n (target64 4) (defaultConstruct (T := Nat) (target64 4)) 2 0 = some a1 ∧
      a1.size = 2 ∧ a1.capacity = 2) ∧
    (∃ a1, reset_array (target64 4) (defaultConstruct (T := Nat) (target64 4))
        [some 7, some 8] 2 = some a1 ∧ a1.size = 2 ∧ a1.capacity = 2) := by
  refine ⟨⟨{ fData := 4096, slots := List.replicate 10 none, fSize := 0, fCapacity := 10,
             fOwnMemory := true }, by decide, rfl, rfl,
      ⟨{ fData := 4096, slots := [some 0, some 0, none, none, none, none, none, none, none,
           none], fSize := 2, fCapacity := 10, fOwnMemory := true }, by decide, rfl, rfl⟩,
      ⟨{ fData := 4096, slots := [some 7, some 8, none, none, none, none, none, none, none,
           none], fSize := 2, fCapacity := 10, fOwnMemory := true }, by decide, rfl, rfl⟩⟩,
    ⟨{ fData := 4096, slots := [some 0, some 0], fSize := 2, fCapacity := 2,
       fOwnMemory := true }, by decide, rfl, rfl⟩,
    ⟨{ fData := 4096, slots := [some 7, some 8], fSize := 2, fCapacity := 2,
       fOwnMemory := true }, by decide, rfl, rfl⟩⟩

theorem storeCapacity_of_lt (v : Nat) (h : v < 2 ^ 31) : storeCapacity v = v :=
  Nat.mod_eq_of_lt h

/-- The capacity `setItemArray` writes, pinned to `kMaxCapacity`, is below `2^31`. -/
theorem pinned_lt (c : Target) (allocation : SkSpan) :
    SkToU32 (min (allocation.size / c.sizeofT) (SkToSizeT (kMaxCapacity c))) < 2 ^ 31 := by
  have hmax := kMaxCapacity_le c
  simp only [SkToU32, SkToSizeT]
  have h1 : min (allocation.size / c.sizeofT) (kMaxCapacity c).toNat ≤ (kMaxCapacity c).toNat :=
    Nat.min_le_right _ _
  have h2 := Nat.mod_le (min (allocation.size / c.sizeofT) (kMaxCapacity c).toNat) (2 ^ 32)
  omega

/-- The capacity `init` writes first, `max(count, kMinHeapAllocCount)` of an `int`, is below
`2^31`. -/
theorem heapCount_lt (count : Int) (h : count ≤ (INT_MAX : Int)) :
    SkToU32_int (max count kMinHeapAllocCount) < 2 ^ 31 := by
  simp only [SkToU32_int, kMinHeapAllocCount, INT_MAX] at *
  omega

theorem preallocCount_lt (preallocCount : Int) (h0 : 0 ≤ preallocCount)
    (h : preallocCount ≤ (INT_MAX : Int)) : SkToU32_int preallocCount < 2 ^ 31 := by
  simp only [SkToU32_int, INT_MAX] at *
  omega

theorem setItemArrayPlain_eq (c : Target) (a : SkTArray T) (allocation : SkSpan)
    (block : Slots T) :
    setItemArrayPlain c a allocation block = setItemArray c a allocation block := by
  simp only [setItemArrayPlain, setItemArray, storeCapacity_of_lt _ (pinned_lt c allocation)]

theorem checkReallocPlain_eq (c : Target) (a : SkTArray T) (delta : Int) (g : ℚ) :
    checkReallocPlain c a delta g = checkRealloc c a delta g := by
  simp only [checkReallocPlain, checkRealloc, setItemArrayPlain_eq]

theorem initPlain_eq (c : Target) (count : Int) (h : count ≤ (INT_MAX : Int)) :
    initPlain (T := T) c count = init c count := by
  simp only [initPlain, init, setItemArrayPlain_eq, storeCapacity_of_lt _ (heapCount_lt count h)]
  rfl

theorem initWithPreallocatedStoragePlain_eq (c : Target) (count : Int) (storage : Nat)
    (block : Slots T) (preallocCount : Int) (h : count ≤ (INT_MAX : Int))
    (h0 : 0 ≤ preallocCount) (hp : preallocCount ≤ (INT_MAX : Int)) :
    initWithPreallocatedStoragePlain c count storage block preallocCount =
      initWithPreallocatedStorage c count storage block preallocCount := by
  simp only [initWithPreallocatedStoragePlain, initWithPreallocatedStorage, setItemArrayPlain_eq,
    storeCapacity_of_lt _ (heapCount_lt count h),
    storeCapacity_of_lt _ (preallocCount_lt preallocCount h0 hp)]

theorem moveConstructPlain_eq (c : Target) (that : SkTArray T) (ht : that.fCapacity < 2 ^ 31)
    (hs : that.fSize ≤ (INT_MAX : Int)) : moveConstructPlain c that = moveConstruct c that := by
  simp only [moveConstructPlain, moveConstruct, initPlain_eq c that.fSize hs,
    storeCapacity_of_lt _ ht]
  rfl

theorem moveAssignPlain_eq (c : Target) (a : SkTArray T) (o : Operand T) :
    moveAssignPlain c a o = moveAssign c a o := by
  cases o with
  | self => rfl
  | other that => simp only [moveAssignPlain, moveAssign, checkReallocPlain_eq]

theorem swapPlain_eq (c : Target) (a : SkTArray T) (o : Operand T)
    (ha : a.fCapacity < 2 ^ 31)
    (ht : ∀ that, o = .other that → that.fCapacity < 2 ^ 31 ∧ that.fSize ≤ (INT_MAX : Int)) :
    swapPlain c a o = swap c a o := by
  cases o with
  | self => rfl
  | other that =>
    obtain ⟨h1, h2⟩ := ht that rfl
    simp only [swapPlain, swap, moveConstructPlain_eq c that h1 h2, moveAssignPlain_eq,
      storeCapacity_of_lt _ ha, storeCapacity_of_lt _ h1]

theorem shrink_to_fitPlain_eq (c : Target) (a : SkTArray T) :
    shrink_to_fitPlain c a = shrink_to_fit c a := by
  simp only [shrink_to_fitPlain, shrink_to_fit, setItemArrayPlain_eq]
  rfl

/-- C36: every value written to the 31-bit field `fCapacity` is below `2^31`, so the field
stores it as it is: the `max(count, kMinHeapAllocCount)` of `init` and
`initWithPreallocatedStorage`, the `preallocCount` of `initWithPreallocatedStorage`, the
count pinned to `kMaxCapacity` of `setItemArray`, and the field values and `0` that the move
constructor and `swap` copy.  Hence `init`, `initWithPreallocatedStorage`, `setItemArray`,
the move constructor and `swap`, and with them `checkRealloc`, move assignment and
`shrink_to_fit`, return what their versions over a plain integer capacity return.  `count`,
`preallocCount` and the sizes are `int`s, `preallocCount` is not negative, and the fields read
hold 31-bit values. -/
theorem bitfield_capacity_is_plain (c : Target) (a that : SkTArray T)
    (count preallocCount delta : Int) (storage : Nat) (block : Slots T) (allocation : SkSpan)
    (g : ℚ) (hcount : count ≤ (INT_MAX : Int)) (hp0 : 0 ≤ preallocCount)
    (hp : preallocCount ≤ (INT_MAX : Int)) (ha : a.fCapacity < 2 ^ 31)
    (ht : that.fCapacity < 2 ^ 31) (hts : that.fSize ≤ (INT_MAX : Int)) :
    (SkToU32_int (max count kMinHeapAllocCount) < 2 ^ 31 ∧
      SkToU32_int preallocCount < 2 ^ 31 ∧
      SkToU32 (min (allocation.size / c.sizeofT) (SkToSizeT (kMaxCapacity c))) < 2 ^ 31 ∧
      (0 : Nat) < 2 ^ 31) ∧
    (storeCapacity (SkToU32_int (max count kMinHeapAllocCount)) =
        SkToU32_int (max count kMinHeapAllocCount) ∧
      storeCapacity (SkToU32_int preallocCount) = SkToU32_int preallocCount ∧
      storeCapacity (SkToU32 (min (allocation.size / c.sizeofT)
          (SkToSizeT (kMaxCapacity c)))) =
        SkToU32 (min (allocation.size / c.sizeofT) (SkToSizeT (kMaxCapacity c))) ∧
      storeCapacity that.fCapacity = that.fCapacity ∧
      storeCapacity a.fCapacity = a.fCapacity ∧ storeCapacity 0 = 0) ∧
    ((setItemArray c a allocation block).capacity =
        ((SkToU32 (min (allocation.size / c.sizeofT) (SkToSizeT (kMaxCapacity c))) : Nat) :
          Int) ∧
      (moveConstruct c that).1.fCapacity < 2 ^ 31 ∧ (moveConstruct c that).2.fCapacity < 2 ^ 31 ∧
      (init (T := T) c count).fCapacity < 2 ^ 31 ∧
      (initWithPreallocatedStorage c count storage block preallocCount).fCapacity < 2 ^ 31) ∧
    (setItemArray c a allocation block = setItemArrayPlain c a allocation block ∧
      init (T := T) c count = initPlain c count ∧
      initWithPreallocatedStorage c count storage block preallocCount =
        initWithPreallocatedStoragePlain c count storage block preallocCount ∧
      moveConstruct c that = moveConstructPlain c that ∧
      swap c a (.other that) = swapPlain c a (.other that) ∧
      swap c a .self = swapPlain c a .self ∧
      checkRealloc c a delta g = checkReallocPlain c a delta g ∧
      moveAssign c a (.other that) = moveAssignPlain c a (.other that) ∧
      shrink_to_fit c a = shrink_to_fitPlain c a) := by
  have h1 := heapCount_lt count hcount
  have h2 := preallocCount_lt preallocCount hp0 hp
  have h3 := pinned_lt c allocation
  have hmod : ∀ v : Nat, storeCapacity v < 2 ^ 31 := fun v => Nat.mod_lt _ (by norm_num)
  refine ⟨⟨h1, h2, h3, by norm_num⟩,
    ⟨storeCapacity_of_lt _ h1, storeCapacity_of_lt _ h2, storeCapacity_of_lt _ h3,
      storeCapacity_of_lt _ ht, storeCapacity_of_lt _ ha, rfl⟩,
    ⟨?_, ?_, ?_, ?_, ?_⟩,
    ⟨(setItemArrayPlain_eq c a allocation block).symm, (initPlain_eq c count hcount).symm,
      (initWithPreallocatedStoragePlain_eq c count storage block preallocCount hcount hp0
        hp).symm,
      (moveConstructPlain_eq c that ht hts).symm,
      (swapPlain_eq c a _ ha (fun t e => by cases e; exact ⟨ht, hts⟩)).symm, rfl,
      (checkReallocPlain_eq c a delta g).symm, (moveAssignPlain_eq c a _).symm,
      (shrink_to_fitPlain_eq c a).symm⟩⟩
  · simp only [setItemArray, capacity, storeCapacity_of_lt _ h3]
  · simp only [moveConstruct]
    split
    · exact hmod _
    · simp only [init]
      split
      · exact hmod _
      · simp only [setItemArray]; exact hmod _
  · simp only [moveConstruct]
    split
    · exact hmod _
    · exact ht
  · simp only [init]
    split
    · exact hmod _
    · simp only [setItemArray]; exact hmod _
  · simp only [initWithPreallocatedStorage]
    split
    · simp only [setItemArray]; exact hmod _
    · exact hmod _

/-- C36, witness: for the arrays `1, 2, 3` (heap) and `10, 20` (preallocated block of 4),
`count = 3` and `preallocCount = 4`, the bit-field versions of `swap` and of
`initWithPreallocatedStorage` return what the plain-integer versions return. -/
theorem bitfield_capacity_is_plain_witness :
    swap (target64 4) sampleDest (.other sampleInline) =
      swapPlain (target64 4) sampleDest (.other sampleInline) ∧
    initWithPreallocatedStorage (T := Nat) (target64 4) 3 512 [none, none, none, none] 4 =
      initWithPreallocatedStoragePlain (target64 4) 3 512 [none, none, none, none] 4 := by
  have h := bitfield_capacity_is_plain (target64 4) sampleDest sampleInline 3 4 1 512
    [none, none, none, none] ⟨4096, 16⟩ kGrowing (by decide) (by decide) (by decide)
    (by decide) (by decide) (by decide)
  exact ⟨h.2.2.2.2.2.2.2.1, h.2.2.2.2.2.1⟩

end SkTArray

/-! ## The reference encoder `h`: the narrowing to `uint16_t` -/

/-- The encoder `h` narrows `hOperand`. -/
theorem h_eq_narrowed (sem : Nat) : h sem = SkTo_uint16 (hOperand sem) := by
  simp only [h, hOperand]
  split <;> rfl

/-- The operand of the narrowing in arithmetic: zero below `0x38800000`, otherwise the sign
moved to bit 15 plus the exponent and mantissa shifted right by 13 and rebiased. -/
theorem hOperand_arith (sem : Nat) (hsem : sem < 2 ^ 32)
    (hhi : sem % 2 ^ 31 < 0x47800000) :
    hOperand sem = if sem % 2 ^ 31 < 0x38800000 then 0
      else (sem / 2 ^ 31) * 2 ^ 15 + (sem % 2 ^ 31) / 2 ^ 13 - 114688 := by
  have hx := xor_signBit sem hsem
  have ha := and_signBit sem
  simp only [hOperand]
  rw [hx, ha]
  simp only [toInt32, Nat.shiftRight_eq_div_pow, Nat.shiftLeft_eq]
  have hlt : sem % 2 ^ 31 < 2 ^ 31 := Nat.mod_lt _ (by norm_num)
  simp only [hlt, if_true]
  by_cases hd : sem % 2 ^ 31 < 0x38800000
  · rw [if_pos hd, if_pos (by simp only [decide_eq_true_eq]; omega)]
  · rw [if_neg hd, if_neg (by simp only [decide_eq_true_eq]; omega)]
    have h1 : sem / 2 ^ 31 < 2 := by omega
    have h2 : sem / 2 ^ 31 % 2 * 2 ^ 31 / 2 ^ 16 = sem / 2 ^ 31 * 2 ^ 15 := by omega
    rw [h2]
    have h3 : 115712 ≤ sem % 2 ^ 31 / 2 ^ 13 := by omega
    have h4 : sem % 2 ^ 31 / 2 ^ 13 < 146432 := by omega
    omega

/-- C35: for every 32-bit float pattern whose sign-cleared bits are below `0x47800000`
(magnitude below 65536.0), the value `h` hands to `SkTo<uint16_t>`, which is `0` for a flushed
input and `(s>>16) + (em>>13) - ((127-15)<<10)` otherwise, lies in `[0, 0xFFFF]`, so the
narrowing loses no bits and `h` returns that value; for a non-flushed input the `uint32_t`
sum is the mathematical one (the subtraction does not wrap) and its bit 15, the top bit of
the result, is the sign bit of the float. -/
theorem h_operand_fits_uint16 (sem : Nat) (hsem : sem < 2 ^ 32)
    (hmag : sem ^^^ (sem &&& 0x80000000) < 0x47800000) :
    hOperand sem ≤ 0xFFFF ∧
    SkTo_uint16 (hOperand sem) = hOperand sem ∧
    h sem = hOperand sem ∧
    (¬ toInt32 (sem ^^^ (sem &&& 0x80000000)) < 0x38800000 →
      (hOperand sem : Int) =
        (((sem &&& 0x80000000) >>> 16 : Nat) : Int) +
          (((sem ^^^ (sem &&& 0x80000000)) >>> 13 : Nat) : Int) -
          (((127 - 15) <<< 10 : Nat) : Int) ∧
      hOperand sem / 2 ^ 15 = sem / 2 ^ 31 ∧
      h sem / 2 ^ 15 = sem / 2 ^ 31) := by
  have hx := xor_signBit sem hsem
  have ha := and_signBit sem
  rw [hx] at hmag ⊢
  have hop := hOperand_arith sem hsem hmag
  have hlt : sem % 2 ^ 31 < 2 ^ 31 := Nat.mod_lt _ (by norm_num)
  have hle : hOperand sem ≤ 0xFFFF := by
    rw [hop]
    split <;> omega
  have hnar : SkTo_uint16 (hOperand sem) = hOperand sem := by
    simp only [SkTo_uint16]
    exact Nat.mod_eq_of_lt (by omega)
  have hh : h sem = hOperand sem := by rw [h_eq_narrowed, hnar]
  refine ⟨hle, hnar, hh, ?_⟩
  intro hnd
  have hlo : ¬ sem % 2 ^ 31 < 0x38800000 := by
    intro hc
    apply hnd
    simp only [toInt32, hlt, if_true]
    omega
  rw [if_neg hlo] at hop
  rw [hh, ha]
  simp only [Nat.shiftRight_eq_div_pow, Nat.shiftLeft_eq]
  refine ⟨by omega, by omega, by omega⟩

/-- C35, witness: for `-1.0f` (`0xbf800000`) the operand of the narrowing is `0xbc00`, below
`0x10000`, with bit 15 set as the sign bit is. -/
theorem h_operand_fits_uint16_witness :
    hOperand 0xbf800000 ≤ 0xFFFF ∧ h 0xbf800000 = hOperand 0xbf800000 ∧
    hOperand 0xbf800000 / 2 ^ 15 = 0xbf800000 / 2 ^ 31 := by
  have h1 := h_operand_fits_uint16 0xbf800000 (by decide) (by decide)
  exact ⟨h1.1, h1.2.2.1, (h1.2.2.2 (by decide)).2.1⟩

end Skia
